import Mathlib

/-!
# rpn-utils: infix to RPN conversion and RPN evaluation

A shallow embedding of `src/src/rpn_utils.cpp` and of the operator table of
`src/src/additional_operators.cpp`.

* `std::string` is a list of characters (`Str`), a `size_type` cursor is a `Nat`.
* The process-wide operand registry `additional_operands` is an association
  list passed explicitly; the function-local `static std::string actual_val`
  of `getOp` is threaded through every call and handed back at the end.
* `double` is an abstract carrier `D` with the operations the evaluator uses
  (`Arith D`); `exactArith` is the executable instance over the rationals.
* A C++ exception is a value of `Excp`; popping an empty `std::stack` is
  reported as `undefined_behaviour`; loops whose termination is not structural
  carry a fuel counter and report `out_of_fuel` when it runs out.
-/

namespace rpn

/-- The text type: `std::string` as a list of characters. -/
abbrev Str := List Char

/-- The `std::runtime_error`s of the library, by message constant, and the
exception `std::stod` raises. -/
inductive Excp where
  | general_error
  | invalid_operand (v : Str)
  | missing_function_argument (v : Str)
  | unknown_component (v : Str)
  | stod_failure (v : Str)
  deriving DecidableEq, Repr

/-- Outcome of a helper that may raise, or run out of loop fuel. -/
inductive Res (α : Type) where
  | ok (a : α)
  | threw (e : Excp)
  | out_of_fuel
  deriving DecidableEq, Repr

/-- The enum `ObjType`. -/
inductive ObjType where
  | NO_TYPE
  | OPERAND
  | OPERATOR
  | OPEN_PARENTHESIS
  | CLOSE_PARENTHESIS
  deriving DecidableEq, Repr

/-- The wrapper functions of `additional_operators.cpp`, by name. -/
inductive WFunc where
  | wfunc_root | wfunc_sqrt | wfunc_cbrt
  | wfunc_pow | wfunc_sqr | wfunc_cube
  | wfunc_logb | wfunc_log | wfunc_ln
  | wfunc_sin | wfunc_cos | wfunc_tan
  | wfunc_asin | wfunc_acos | wfunc_atan
  | wfunc_sinh | wfunc_cosh | wfunc_tanh
  | wfunc_asinh | wfunc_acosh | wfunc_atanh
  deriving DecidableEq, Repr

/-- The initializer list of `additional_operators`, in source order:
name, number of operands, precedence value, wrapper. -/
def additional_operators_init : List (Str × Nat × Nat × WFunc) :=
  [ (['r', 'o', 'o', 't'], 2, 1, .wfunc_root),
    (['s', 'q', 'r', 't'], 1, 1, .wfunc_sqrt),
    (['c', 'b', 'r', 't'], 1, 1, .wfunc_cbrt),
    (['^'], 2, 0, .wfunc_pow),
    (['s', 'q', 'r'], 1, 1, .wfunc_sqr),
    (['c', 'u', 'b', 'e'], 1, 1, .wfunc_cube),
    (['l', 'o', 'g', 'b'], 2, 1, .wfunc_logb),
    (['l', 'o', 'g'], 1, 1, .wfunc_log),
    (['l', 'n'], 1, 1, .wfunc_ln),
    (['s', 'i', 'n'], 1, 1, .wfunc_sin),
    (['c', 'o', 's'], 1, 1, .wfunc_cos),
    (['t', 'a', 'n'], 1, 1, .wfunc_tan),
    (['a', 's', 'i', 'n'], 1, 1, .wfunc_asin),
    (['a', 'c', 'o', 's'], 1, 1, .wfunc_acos),
    (['a', 't', 'a', 'n'], 1, 1, .wfunc_atan),
    (['s', 'i', 'n', 'h'], 1, 1, .wfunc_sinh),
    (['c', 'o', 's', 'h'], 1, 1, .wfunc_cosh),
    (['t', 'a', 'n', 'h'], 1, 1, .wfunc_tanh),
    (['a', 's', 'i', 'n'], 1, 1, .wfunc_asinh),
    (['a', 'c', 'o', 's'], 1, 1, .wfunc_acosh),
    (['a', 't', 'a', 'n'], 1, 1, .wfunc_atanh) ]

/-- Lookup in the map `additional_operators`. A `std::unordered_map` built from
an initializer list inserts the entries in order and an insertion does not
replace an entry whose key is present, so the first entry of a name is the one
found. -/
def additional_operators_find (obj_val : Str) : Option (Nat × Nat × WFunc) :=
  (additional_operators_init.find? (fun e => e.1 == obj_val)).map (fun e => e.2)

/-- The operand registry `additional_operands`: name to value. -/
abbrev Registry (D : Type) := List (Str × D)

/-- The `<cctype>` test `islower` in the C locale. -/
def islower (c : Char) : Bool := decide (97 ≤ c.toNat) && decide (c.toNat ≤ 122)

/-- The `<cctype>` test `isdigit`. -/
def isdigit (c : Char) : Bool := decide (48 ≤ c.toNat) && decide (c.toNat ≤ 57)

/-- Reading `expr[i]`: the character at `i`, and the terminating NUL at `size()`. -/
def charAt (expr : Str) (i : Nat) : Char := expr.getD i '\x00'

/-- The call `expr.erase(pos, n)`: removes up to `n` characters from `pos` on. -/
def erase (expr : Str) (pos n : Nat) : Str := expr.take pos ++ expr.drop (pos + n)

/-- The call `expr.insert(pos, t)`. -/
def insert (expr : Str) (pos : Nat) (t : Str) : Str := expr.take pos ++ t ++ expr.drop pos

/-- The first character `obj_val.front()` (NUL for the empty string). -/
def front (obj_val : Str) : Char := obj_val.headD '\x00'

def check_parenthesis_loop : Str → Int → Bool
  | [], open_brackets => open_brackets == 0
  | c :: rest, open_brackets =>
    if c = '(' then check_parenthesis_loop rest (open_brackets + 1)
    else if c = ')' then
      if open_brackets = 0 then false
      else check_parenthesis_loop rest (open_brackets - 1)
    else check_parenthesis_loop rest open_brackets

/-- The helper `check_parenthesis` (declared and defined in the source, and
called from nowhere). -/
def check_parenthesis (expr : Str) : Bool := check_parenthesis_loop expr 0

/-- The `switch` at the head of the loop body of `adj_expr`. -/
def adj_subst (c : Char) : Char :=
  if c = '\t' then ' '
  else if c = '{' ∨ c = '[' then '('
  else if c = '}' ∨ c = ']' then ')'
  else c

/-- The loop of `adj_expr` over the cursor `i`; one unit of fuel per test of
the loop condition. The `size_type` difference `space_between - 1` wraps around
to `2 ^ 64 - 1` when `space_between` is 0. -/
def adj_loop : Nat → Str → Nat → Bool → Res Str
  | 0, _, _, _ => .out_of_fuel
  | fuel + 1, expr, i, need_space =>
    if i < expr.length then
      let expr := expr.set i (adj_subst (charAt expr i))
      if charAt expr i = ' ' then
        if need_space = false then adj_loop fuel (erase expr i 1) i need_space
        else adj_loop fuel expr (i + 1) false
      else
        let j := i + 1 + ((expr.drop (i + 1)).takeWhile (fun c => c == ' ')).length
        let space_between := (j - i) - 1
        let need_space := need_space ||
          (decide (space_between > 0) &&
            ((islower (charAt expr i) && islower (charAt expr j)) ||
             (isdigit (charAt expr i) && (isdigit (charAt expr j) || charAt expr j == '.'))))
        let space_to_remove :=
          if need_space = true ∧ space_between = 0 then 2 ^ 64 - 1
          else space_between - (if need_space then 1 else 0)
        let expr := if space_to_remove > 0 then erase expr (i + 1) space_to_remove else expr
        adj_loop fuel expr (i + 1) need_space
    else .ok expr

/-- The normalizer `adj_expr`. Every iteration erases a character or advances
the cursor, so `size() + 1` tests of the loop condition are enough. -/
def adj_expr (expr : Str) : Res Str :=
  if expr.isEmpty then .ok expr else adj_loop (expr.length + 1) expr 0 false

def isSign (c : Char) : Bool := c == '+' || c == '-'

def isAdditionalOperand {D : Type} (reg : Registry D) (obj_val : Str) : Bool :=
  (reg.lookup obj_val).isSome

def isOperand {D : Type} (reg : Registry D) (obj_val : Str) : Bool :=
  if obj_val.isEmpty then false
  else if isAdditionalOperand reg obj_val then true
  else
    let i := if isSign (front obj_val) && decide (obj_val.length > 1) then 1 else 0
    (obj_val.drop i).all (fun c => isdigit c || c == '.')

def isFuncOperator (obj_val : Str) : Bool :=
  if obj_val.isEmpty then false
  else (additional_operators_find obj_val).isSome

def isBasicOperator (obj_val : Str) : Bool :=
  if obj_val.length ≠ 1 then false
  else front obj_val == '+' || front obj_val == '-' || front obj_val == '*' || front obj_val == '/'

def get_precedence_func_operator (obj_val : Str) : Except Excp Nat :=
  match additional_operators_find obj_val with
  | some e => .ok e.2.1
  | none => .error .general_error

def get_operands_func_operator (obj_val : Str) : Except Excp Nat :=
  match additional_operators_find obj_val with
  | some e => .ok e.1
  | none => .error .general_error

def PRECEDENCE_VAL_OTHER : Nat := 0
def PRECEDENCE_VAL_SUM : Nat := PRECEDENCE_VAL_OTHER + 1
def PRECEDENCE_VAL_MULTIPLICATION : Nat := PRECEDENCE_VAL_SUM + 1
def PRECEDENCE_VAL_FUNC_OPERATOR : Nat := PRECEDENCE_VAL_MULTIPLICATION + 1

/-- The function `precedence`; the result is an `unsigned short`. -/
def precedence (obj_val : Str) : Except Excp Nat :=
  if isFuncOperator obj_val then
    match get_precedence_func_operator obj_val with
    | .ok p => .ok ((PRECEDENCE_VAL_FUNC_OPERATOR + p) % 65536)
    | .error e => .error e
  else if front obj_val = '+' ∨ front obj_val = '-' then .ok PRECEDENCE_VAL_SUM
  else if front obj_val = '*' ∨ front obj_val = '/' then .ok PRECEDENCE_VAL_MULTIPLICATION
  else .ok PRECEDENCE_VAL_OTHER

/-- The tokenizer `fetch_val`: the result flag, `curr_val` and the new `index`. -/
def fetch_val (expr : Str) (index : Nat) : Except Excp (Bool × Str × Nat) :=
  let index := if index < expr.length ∧ charAt expr index = ' ' then index + 1 else index
  if index ≥ expr.length then .ok (false, [], index)
  else if islower (charAt expr index) then
    let curr_val := (expr.drop index).takeWhile islower
    .ok (true, curr_val, index + curr_val.length)
  else if isdigit (charAt expr index) ∨ charAt expr index = '.' then
    let curr_val := charAt expr index ::
      (expr.drop (index + 1)).takeWhile (fun c => isdigit c || c == '.')
    if curr_val.count '.' > 1 then .error (.invalid_operand curr_val)
    else .ok (true, curr_val, index + curr_val.length)
  else .ok (true, [charAt expr index], index + 1)

def getType {D : Type} (reg : Registry D) (obj_value : Str) : ObjType :=
  if obj_value.isEmpty then .NO_TYPE
  else if isOperand reg obj_value then .OPERAND
  else if isBasicOperator obj_value || isFuncOperator obj_value then .OPERATOR
  else if obj_value = ['('] then .OPEN_PARENTHESIS
  else if obj_value = [')'] then .CLOSE_PARENTHESIS
  else .NO_TYPE

/-- The loop of `skipParenthesis` over the characters from `index` on. -/
def skipParenthesis_loop : Str → Nat → Nat → Nat
  | [], _, index => index
  | c :: rest, inner_parenthesis, index =>
    if c ≠ ')' ∨ inner_parenthesis ≠ 0 then
      skipParenthesis_loop rest
        (if c = '(' then inner_parenthesis + 1
         else if c = ')' then inner_parenthesis - 1
         else inner_parenthesis)
        (index + 1)
    else index

def skipParenthesis (expr : Str) (index : Nat) : Nat :=
  if charAt expr index ≠ '(' then index
  else skipParenthesis_loop (expr.drop (index + 1)) 0 (index + 1)

/-- The inner loop `while(!found_operand && fetch_val(expr, tmp_val, index))` of
`enclose_negative`: the type of the argument found (`none` when the text ends
first) and the cursor. -/
def find_argument {D : Type} (reg : Registry D) : Nat → Str → Nat → Res (Option ObjType × Nat)
  | 0, _, _ => .out_of_fuel
  | fuel + 1, expr, index =>
    match fetch_val expr index with
    | .error e => .threw e
    | .ok (false, _, index) => .ok (none, index)
    | .ok (true, tmp_val, index) =>
      let tmp_val_type := getType reg tmp_val
      if tmp_val_type = .OPERAND ∨ tmp_val_type = .OPEN_PARENTHESIS then
        .ok (some tmp_val_type, index)
      else find_argument reg fuel expr index

/-- The loop `for(operands_found = 0; operands_found < n_operands_required; ...)`
of `enclose_negative`, counted down. -/
def enclose_arguments {D : Type} (reg : Registry D) (next_val : Str) : Nat → Str → Nat → Res Nat
  | 0, _, index => .ok index
  | n + 1, expr, index =>
    match find_argument reg (expr.length + 1) expr index with
    | .threw e => .threw e
    | .out_of_fuel => .out_of_fuel
    | .ok (none, _) => .threw (.missing_function_argument next_val)
    | .ok (some tmp_val_type, index) =>
      let index :=
        if tmp_val_type = .OPEN_PARENTHESIS then skipParenthesis expr (index - 1) else index
      enclose_arguments reg next_val n expr index

/-- The rewriter `enclose_negative`: the new text. -/
def enclose_negative {D : Type} (reg : Registry D) (expr : Str) (index : Nat)
    (next_val : Str) : Res Str :=
  let expr := insert expr index ['(', '0']
  let index := index + (2 + 1)
  if getType reg next_val = .OPEN_PARENTHESIS then
    .ok (insert expr (skipParenthesis expr index) [')'])
  else
    match get_operands_func_operator next_val with
    | .error e => .threw e
    | .ok n_operands_required =>
      match enclose_arguments reg next_val n_operands_required expr index with
      | .threw e => .threw e
      | .out_of_fuel => .out_of_fuel
      | .ok index => .ok (insert expr index [')'])

/-- The `do ... while` loop of `getOp` that folds a run of signs: the text,
`next_val`, `next_index` and `curr_sign` when it ends. Every iteration shortens
the text. -/
def fold_signs : Nat → Str → Nat → Char → Str → Nat → Res (Str × Str × Nat × Char)
  | 0, _, _, _, _, _ => .out_of_fuel
  | fuel + 1, expr, index, curr_sign, next_val, next_index =>
    let next_sign := front next_val
    let expr := erase expr (index - 1) 2
    let expr := insert expr (index - 1) (if curr_sign = next_sign then ['+'] else ['-'])
    let next_index := next_index - 1
    let curr_sign := charAt expr (index - 1)
    match fetch_val expr next_index with
    | .error e => .threw e
    | .ok (res, next_val, next_index) =>
      if res && isSign (front next_val) then
        fold_signs fuel expr index curr_sign next_val next_index
      else .ok (expr, next_val, next_index, curr_sign)

/-- What a call of `getOp` leaves behind: the returned type with `obj_val`, the
text and `index` (or the exception), and the static `actual_val`. -/
structure GetOp where
  res : Res (ObjType × Str × Str × Nat)
  actual_val : Str
  deriving DecidableEq, Repr

/-- The branch of `getOp` for a sign, entered with `actual_val = obj_val`. -/
def getOp_sign {D : Type} (reg : Registry D) (expr : Str) (index : Nat)
    (prev_val obj_val : Str) : GetOp :=
  match fetch_val expr index with
  | .error e => ⟨.threw e, obj_val⟩
  | .ok (false, _, _) => ⟨.ok (.NO_TYPE, obj_val, expr, index), obj_val⟩
  | .ok (true, next_val, next_index) =>
    let prev_val_type := getType reg prev_val
    let folded : Res (Str × Str × Nat × Str) :=
      if isSign (front next_val) then
        match fold_signs (expr.length + 1) expr index (front obj_val) next_val next_index with
        | .ok (expr, next_val, next_index, curr_sign) =>
          .ok (expr, next_val, next_index, [curr_sign])
        | .threw e => .threw e
        | .out_of_fuel => .out_of_fuel
      else .ok (expr, next_val, next_index, obj_val)
    match folded with
    | .threw e => ⟨.threw e, obj_val⟩
    | .out_of_fuel => ⟨.out_of_fuel, obj_val⟩
    | .ok (expr, next_val, next_index, sign_val) =>
      if prev_val_type = .OPERATOR ∨ prev_val_type = .OPEN_PARENTHESIS
          ∨ prev_val_type = .NO_TYPE then
        if front sign_val = '+' then
          ⟨.ok (getType reg next_val, next_val, expr, next_index), next_val⟩
        else if isOperand reg next_val then
          ⟨.ok (getType reg (sign_val ++ next_val), sign_val ++ next_val, expr, next_index),
            sign_val ++ next_val⟩
        else
          match enclose_negative reg expr (index - 1) next_val with
          | .ok expr => ⟨.ok (.OPEN_PARENTHESIS, sign_val, expr, index), ['(']⟩
          | .threw e => ⟨.threw e, ['(']⟩
          | .out_of_fuel => ⟨.out_of_fuel, ['(']⟩
      else ⟨.ok (getType reg sign_val, sign_val, expr, index), obj_val⟩

/-- The classifier `getOp`, given the text, the cursor and the static
`actual_val` left by the call before. -/
def getOp {D : Type} (reg : Registry D) (expr : Str) (index : Nat) (actual_val : Str) : GetOp :=
  match fetch_val expr index with
  | .error e => ⟨.threw e, actual_val⟩
  | .ok (res, obj_val, index) =>
    if res = false then ⟨.ok (.NO_TYPE, obj_val, expr, index), obj_val⟩
    else if isOperand reg obj_val then ⟨.ok (.OPERAND, obj_val, expr, index), obj_val⟩
    else if isSign (front obj_val) then getOp_sign reg expr index actual_val obj_val
    else if isBasicOperator obj_val || isFuncOperator obj_val then
      ⟨.ok (.OPERATOR, obj_val, expr, index), obj_val⟩
    else if front obj_val = '(' then ⟨.ok (.OPEN_PARENTHESIS, obj_val, expr, index), obj_val⟩
    else if front obj_val = ')' then ⟨.ok (.CLOSE_PARENTHESIS, obj_val, expr, index), obj_val⟩
    else ⟨.threw (.unknown_component obj_val), obj_val⟩

def checkRpn_loop {D : Type} (reg : Registry D) : List Str → Int → Except Excp Bool
  | [], checker => .ok (checker == 1)
  | it :: rest, checker =>
    let next : Except Excp (Option Int) :=
      if isOperand reg it then .ok (some (checker + 1))
      else if isBasicOperator it then .ok (some (checker - 1))
      else if isFuncOperator it then
        match get_operands_func_operator it with
        | .ok n => .ok (some (checker - ((n : Int) - 1)))
        | .error e => .error e
      else .ok none
    match next with
    | .error e => .error e
    | .ok none => .ok false
    | .ok (some checker) => if checker ≤ 0 then .ok false else checkRpn_loop reg rest checker

/-- The validator `checkRpn`. -/
def checkRpn {D : Type} (reg : Registry D) (rpn_expr : List Str) : Except Excp Bool :=
  checkRpn_loop reg rpn_expr 0

/-- How a call of `infix_to_rpn` ends. -/
inductive ConvResult where
  | returned (b : Bool)
  | threw (e : Excp)
  | undefined_behaviour
  | out_of_fuel
  deriving DecidableEq, Repr

/-- The end of a call of `infix_to_rpn`, the caller's vector `rpn_expr`
afterwards, and the static `actual_val` of `getOp` afterwards. -/
structure ConvOutcome where
  result : ConvResult
  rpn_expr : List Str
  actual_val : Str
  deriving DecidableEq, Repr

/-- The loop `while(!op.empty() && precedence(obj_val) < precedence(op.top()))`;
the stack `op` has its top at the head. -/
def pop_operators (obj_val : Str) : List Str → List Str → Except Excp (List Str × List Str)
  | [], rpn_expr => .ok ([], rpn_expr)
  | top :: op, rpn_expr =>
    match precedence obj_val, precedence top with
    | .ok p, .ok q =>
      if p < q then pop_operators obj_val op (rpn_expr ++ [top]) else .ok (top :: op, rpn_expr)
    | .error e, _ => .error e
    | .ok _, .error e => .error e

/-- The loop `while(!op.empty() && op.top() != "(")`. -/
def pop_until_open : List Str → List Str → List Str × List Str
  | [], rpn_expr => ([], rpn_expr)
  | top :: op, rpn_expr =>
    if top ≠ ['('] then pop_until_open op (rpn_expr ++ [top]) else (top :: op, rpn_expr)

/-- The tail of `infix_to_rpn` after the token loop: empty the stack into the
output and validate. -/
def infix_to_rpn_finish {D : Type} (reg : Registry D) (op rpn_expr : List Str)
    (actual_val : Str) : ConvOutcome :=
  let rpn_expr := rpn_expr ++ op
  match checkRpn reg rpn_expr with
  | .error e => ⟨.threw e, rpn_expr, actual_val⟩
  | .ok false => ⟨.returned false, [], actual_val⟩
  | .ok true => ⟨.returned true, rpn_expr, actual_val⟩

/-- The token loop of `infix_to_rpn`; one unit of fuel per call of `getOp`. -/
def infix_to_rpn_loop {D : Type} (reg : Registry D) :
    Nat → Str → Nat → Str → List Str → List Str → ConvOutcome
  | 0, _, _, actual_val, _, rpn_expr => ⟨.out_of_fuel, rpn_expr, actual_val⟩
  | fuel + 1, expr, index, actual_val, op, rpn_expr =>
    match getOp reg expr index actual_val with
    | ⟨.threw e, actual_val⟩ => ⟨.threw e, rpn_expr, actual_val⟩
    | ⟨.out_of_fuel, actual_val⟩ => ⟨.out_of_fuel, rpn_expr, actual_val⟩
    | ⟨.ok (type, obj_val, expr, index), actual_val⟩ =>
      match type with
      | .NO_TYPE => infix_to_rpn_finish reg op rpn_expr actual_val
      | .OPERAND => infix_to_rpn_loop reg fuel expr index actual_val op (rpn_expr ++ [obj_val])
      | .OPERATOR =>
        match pop_operators obj_val op rpn_expr with
        | .error e => ⟨.threw e, rpn_expr, actual_val⟩
        | .ok (op, rpn_expr) =>
          infix_to_rpn_loop reg fuel expr index actual_val (obj_val :: op) rpn_expr
      | .OPEN_PARENTHESIS =>
        infix_to_rpn_loop reg fuel expr index actual_val (['('] :: op) rpn_expr
      | .CLOSE_PARENTHESIS =>
        match pop_until_open op rpn_expr with
        | ([], rpn_expr) => ⟨.undefined_behaviour, rpn_expr, actual_val⟩
        | (_ :: op, rpn_expr) => infix_to_rpn_loop reg fuel expr index actual_val op rpn_expr

/-- The entry point `infix_to_rpn(infix_expr, rpn_expr)`, called when the static
`actual_val` of `getOp` holds `actual_val`; `fuel` bounds the calls of `getOp`. -/
def infix_to_rpn {D : Type} (fuel : Nat) (reg : Registry D) (actual_val : Str)
    (infix_expr : Str) : ConvOutcome :=
  match adj_expr infix_expr with
  | .threw e => ⟨.threw e, [], actual_val⟩
  | .out_of_fuel => ⟨.out_of_fuel, [], actual_val⟩
  | .ok m_infix_expr => infix_to_rpn_loop reg fuel m_infix_expr 0 actual_val [] []

/-- The arithmetic of `double` that `evaluate` relies on. -/
structure Arith (D : Type) where
  /-- The literal `0.0`. -/
  zero : D
  add : D → D → D
  sub : D → D → D
  mul : D → D → D
  div : D → D → D
  /-- The test `op2 == 0`. -/
  eq_zero : D → Bool
  /-- The call `std::stod`: `none` when it raises. -/
  stod : Str → Option D
  /-- A wrapper applied to its argument array: whether none of `FE_INVALID`,
  `FE_DIVBYZERO`, `FE_UNDERFLOW`, `FE_OVERFLOW` is raised by the call, and the
  value returned. -/
  wfunc : WFunc → List D → Bool × D
  /-- The test `std::isinf`. -/
  isinf : D → Bool
  /-- The test `std::isnan`. -/
  isnan : D → Bool

def get_value_additionalOperand {D : Type} (reg : Registry D) (obj_val : Str) : Except Excp D :=
  match reg.lookup obj_val with
  | some v => .ok v
  | none => .error .general_error

def eval_func_operator {D : Type} (A : Arith D) (obj_val : Str) (operands : List D) :
    Except Excp (Bool × D) :=
  match additional_operators_find obj_val with
  | none => .error .general_error
  | some e => .ok (A.wfunc e.2.2 operands)

/-- How a call of `evaluate` ends. -/
inductive EvalResult (D : Type) where
  | returned (defined : Bool) (value : D)
  | threw (e : Excp)
  | undefined_behaviour
  deriving DecidableEq, Repr

/-- One pass through the body of the loop of `evaluate`: the stack to go on
with, or the result when the pass ends the call. -/
inductive EvalStep (D : Type) where
  | next (operands : List D)
  | stop (r : EvalResult D)
  deriving DecidableEq, Repr

/-- The body of the loop of `evaluate` at the token `it`; the stack `operands`
has its top at the head, and `isDefined` is `true` on entry. A pass that clears
`isDefined` ends the loop, and the call returns `(false, 0.0)`. -/
def evaluate_step {D : Type} (A : Arith D) (reg : Registry D) (it : Str) (operands : List D) :
    EvalStep D :=
  if isOperand reg it then
    if isAdditionalOperand reg it then
      match get_value_additionalOperand reg it with
      | .ok tmp => .next (tmp :: operands)
      | .error e => .stop (.threw e)
    else
      match A.stod it with
      | some tmp => .next (tmp :: operands)
      | none => .stop (.threw (.stod_failure it))
  else if isBasicOperator it then
    match operands with
    | op2 :: op1 :: operands =>
      if front it = '+' then .next (A.add op1 op2 :: operands)
      else if front it = '-' then .next (A.sub op1 op2 :: operands)
      else if front it = '*' then .next (A.mul op1 op2 :: operands)
      else if A.eq_zero op2 then .stop (.returned false A.zero)
      else .next (A.div op1 op2 :: operands)
    | _ => .stop .undefined_behaviour
  else if isFuncOperator it then
    match get_operands_func_operator it with
    | .error e => .stop (.threw e)
    | .ok n_operands_required =>
      if operands.length < n_operands_required then .stop .undefined_behaviour
      else
        match eval_func_operator A it (operands.take n_operands_required).reverse with
        | .error e => .stop (.threw e)
        | .ok (false, _) => .stop (.returned false A.zero)
        | .ok (true, value) => .next (value :: operands.drop n_operands_required)
  else .next operands

/-- The loop of `evaluate` with what follows it. -/
def evaluate_loop {D : Type} (A : Arith D) (reg : Registry D) :
    List Str → List D → EvalResult D
  | [], operands =>
    match operands with
    | [value] => .returned true value
    | _ => .threw .general_error
  | it :: rest, operands =>
    match evaluate_step A reg it operands with
    | .next operands => evaluate_loop A reg rest operands
    | .stop r => r

/-- The entry point `evaluate(expr)`. -/
def evaluate {D : Type} (A : Arith D) (reg : Registry D) (expr : List Str) : EvalResult D :=
  match checkRpn reg expr with
  | .error e => .threw e
  | .ok false => .returned false A.zero
  | .ok true => evaluate_loop A reg expr []

/-- The change of the stack-depth counter at a token, in the words of the data
model: plus one for an operand, minus one for a basic operator, minus
`arity - 1` for a function-operator, and none for any other token. A token is
classified in this order. -/
def counterDelta {D : Type} (reg : Registry D) (t : Str) : Option Int :=
  if isOperand reg t then some 1
  else if isBasicOperator t then some (-1)
  else if isFuncOperator t then
    (additional_operators_find t).map (fun e => -((e.1 : Int) - 1))
  else none

/-- The invariant of an RPN sequence in the words of the data model: every
token is classified, and the counter that starts at 0 is strictly positive
after every token and equals 1 after the last one. -/
def StackDepthValid {D : Type} (reg : Registry D) (rpn_expr : List Str) : Prop :=
  ∃ ds : List Int, rpn_expr.map (counterDelta reg) = ds.map some ∧
    (∀ k, 0 < k → k ≤ ds.length → 0 < (ds.take k).sum) ∧ ds.sum = 1

/-- The stack after the loop of `evaluate` has gone through all of `expr`
starting from `operands`; `none` when a pass ended the call before. -/
def stack_after {D : Type} (A : Arith D) (reg : Registry D) :
    List Str → List D → Option (List D)
  | [], operands => some operands
  | it :: rest, operands =>
    match evaluate_step A reg it operands with
    | .next operands => stack_after A reg rest operands
    | .stop _ => none

/-- The value of a decimal digit. -/
def digit_value (c : Char) : Nat := c.toNat - 48

/-- The value of a run of decimal digits. -/
def decimal_value (ds : Str) : Nat := ds.foldl (fun n c => 10 * n + digit_value c) 0

/-- The call `std::stod` on a token made of an optional sign, digits and dots, in
exact arithmetic: the longest prefix that is a decimal number is converted, and
the call raises when that prefix has no digit. The range of `double` is not
modelled: the `std::out_of_range` that `std::stod` raises on a literal too large
or too small for a `double` does not occur here. -/
def exact_stod (v : Str) : Option ℚ :=
  let body := if isSign (front v) then v.drop 1 else v
  let int_part := body.takeWhile isdigit
  let after := body.dropWhile isdigit
  let frac_part := if front after = '.' then (after.drop 1).takeWhile isdigit else []
  if int_part.isEmpty ∧ frac_part.isEmpty then none
  else
    let m : ℚ := (decimal_value int_part : ℚ)
      + (decimal_value frac_part : ℚ) / (10 : ℚ) ^ frac_part.length
    some (if front v = '-' then -m else m)

/-- The arithmetic of `double` wherever it is exact: rational numbers, with the
wrapper functions supplied by `wfunc`. -/
def exactArith (wfunc : WFunc → List ℚ → Bool × ℚ) : Arith ℚ where
  zero := 0
  add := fun a b => a + b
  sub := fun a b => a - b
  mul := fun a b => a * b
  div := fun a b => a / b
  eq_zero := fun a => decide (a = 0)
  stod := exact_stod
  wfunc := wfunc
  isinf := fun _ => false
  isnan := fun _ => false

/-- The registry invariant that `add_operand` maintains: every name is made of
lowercase letters only. -/
def registryOk {D : Type} (reg : Registry D) : Bool :=
  reg.all (fun e => e.1.all islower)

/-- An unsigned numeric literal: digits with at most one `.`. -/
def isLiteral (l : Str) : Bool :=
  l.all (fun c => isdigit c || c == '.') && l.any isdigit && decide (l.count '.' ≤ 1)

/-- One of the characters `+ - * /`. -/
def isBasicOperatorChar (c : Char) : Bool := c == '+' || c == '-' || c == '*' || c == '/'

/-- The texts of the grammar `E ::= literal | E op E | ( E )` over unsigned
numeric literals and the operators `+ - * /`, with any number of spaces before
and after every token. -/
inductive WellFormedExpr : Str → Prop where
  | literal (l : Str) : isLiteral l = true → WellFormedExpr l
  | binary (x : Str) (o : Char) (y : Str) : WellFormedExpr x → isBasicOperatorChar o = true →
      WellFormedExpr y → WellFormedExpr (x ++ o :: y)
  | paren (x : Str) : WellFormedExpr x → WellFormedExpr ('(' :: (x ++ [')']))
  | space_before (x : Str) : WellFormedExpr x → WellFormedExpr (' ' :: x)
  | space_after (x : Str) : WellFormedExpr x → WellFormedExpr (x ++ [' '])

/-- A lexical unit of the grammar. -/
inductive Tok where
  | lit (l : Str)
  | oper (o : Char)
  | lparen
  | rparen
  deriving DecidableEq, Repr

/-- The text of a lexical unit. -/
def Tok.text : Tok → Str
  | .lit l => l
  | .oper o => [o]
  | .lparen => ['(']
  | .rparen => [')']

/-- The text of a sequence of lexical units, written without spaces. -/
def tokText (ts : List Tok) : Str := (ts.map Tok.text).flatten

/-- Recognizer of the token sequences of the grammar: `after = false` where an
operand or an opening parenthesis is due, `after = true` behind an operand or a
closing parenthesis; `depth` counts the parentheses that are open. -/
def accepts : Bool → Nat → List Tok → Bool
  | false, depth, .lit l :: ts => isLiteral l && accepts true depth ts
  | false, depth, .lparen :: ts => accepts false (depth + 1) ts
  | true, depth, .oper o :: ts => isBasicOperatorChar o && accepts false depth ts
  | true, depth + 1, .rparen :: ts => accepts true depth ts
  | true, 0, [] => true
  | _, _, _ => false

/-- The operator stack of the converter on a text of the grammar: `n` basic
operators and `depth` opening parentheses. -/
inductive StackShape : List Str → Nat → Nat → Prop where
  | nil : StackShape [] 0 0
  | paren (op : List Str) (n depth : Nat) : StackShape op n depth →
      StackShape (['('] :: op) n (depth + 1)
  | oper (o : Char) (op : List Str) (n depth : Nat) : isBasicOperatorChar o = true →
      StackShape op n depth → StackShape ([o] :: op) (n + 1) depth

/-- The validator started at counter `c` gets through `rpn_expr` and has the
counter `c2` when it goes on. -/
def Runs {D : Type} (reg : Registry D) (rpn_expr : List Str) (c c2 : Int) : Prop :=
  ∀ rest, checkRpn_loop reg (rpn_expr ++ rest) c = checkRpn_loop reg rest c2

/-- The character `expr[j]` that the scan of `adj_expr` stops at: the first
character of `r` that is not a space, NUL when there is none. -/
def nextVisible (r : Str) : Char := charAt (r.dropWhile (fun c => c == ' ')) 0

/-- The condition of `adj_expr` under which two characters with spaces between
them are kept apart by one space. -/
def mustSeparate (c1 c2 : Char) : Bool :=
  (islower c1 && islower c2) || (isdigit c1 && (isdigit c2 || c2 == '.'))

/-- Texts without a tab or a bracket to replace in which no space separates two
characters that `adj_expr` keeps apart. -/
def gapFree : Str → Bool
  | [] => true
  | c :: r =>
    (c == ' ' ||
      (adj_subst c == c && (!mustSeparate c (nextVisible r) || r.head? != some ' ')))
    && gapFree r

/-- The output of the token loop of `infix_to_rpn` and of the emptying of the
stack behind it, read off a sequence of lexical units of the grammar: the
shunting-yard moves of the loop, one per unit. -/
def shunt : List Tok → List Str → List Str → List Str
  | [], op, rpn_expr => rpn_expr ++ op
  | .lit l :: ts, op, rpn_expr => shunt ts op (rpn_expr ++ [l])
  | .oper o :: ts, op, rpn_expr =>
    match pop_operators [o] op rpn_expr with
    | .ok (op, rpn_expr) => shunt ts ([o] :: op) rpn_expr
    | .error _ => rpn_expr
  | .lparen :: ts, op, rpn_expr => shunt ts (['('] :: op) rpn_expr
  | .rparen :: ts, op, rpn_expr =>
    match pop_until_open op rpn_expr with
    | (_ :: op, rpn_expr) => shunt ts op rpn_expr
    | ([], rpn_expr) => rpn_expr

/-- The text `a1 o1 a2 ... o(n-1) an`: the first operand, then every further
operand behind its operator, with one space on each side of an operator. -/
def chainText (a1 : Str) (rest : List (Char × Str)) : Str :=
  a1 ++ (rest.map (fun p => [' ', p.1, ' '] ++ p.2)).flatten

/-- The lexical units of `chainText a1 rest` behind the first operand. -/
def chainToks (rest : List (Char × Str)) : List Tok :=
  (rest.map (fun p => [Tok.oper p.1, Tok.lit p.2])).flatten

/-- The entry point `add_operand`: the result and the registry afterwards. The
assignment `additional_operands[op_name] = op_value` replaces the entry of the
name or creates it. -/
def add_operand {D : Type} (A : Arith D) (reg : Registry D) (op_name : Str) (op_value : D) :
    Bool × Registry D :=
  if A.isinf op_value || A.isnan op_value then (false, reg)
  else if op_name.all islower = false then (false, reg)
  else (true, (op_name, op_value) :: reg.filter (fun e => e.1 != op_name))

/-- The entry point `remove_operand`: the result and the registry afterwards. -/
def remove_operand {D : Type} (reg : Registry D) (op_name : Str) : Bool × Registry D :=
  if isAdditionalOperand reg op_name = false then (false, reg)
  else (true, reg.filter (fun e => e.1 != op_name))

/-- The entry point `get_operand`. -/
def get_operand {D : Type} (A : Arith D) (reg : Registry D) (op_name : Str) : D :=
  match reg.lookup op_name with
  | some v => v
  | none => A.zero

/-- The entry point `clear_all_operands`: the registry afterwards. -/
def clear_all_operands {D : Type} (_reg : Registry D) : Registry D := []

/-- The wrapper `wfunc_pow` over the library call in its body: `pow argv` is
whether the call `pow(argv[0], argv[1])` raises none of the four floating-point
exceptions, and its value. The wrapper raises `FE_INVALID` itself first when
`argv[0] == 0 && argv[1] == 0`; its array always holds two values. -/
def wfunc_pow {D : Type} (A : Arith D) (pow : List D → Bool × D) (argv : List D) : Bool × D :=
  match argv with
  | [base, exponent] =>
    if A.eq_zero base && A.eq_zero exponent then (false, (pow argv).2) else pow argv
  | _ => pow argv

/-- The arithmetic `A` with the wrappers of `additional_operators.cpp`: the body
of every wrapper is one expression over the math library, given by `libm`
(whether it raises no floating-point exception, and its value), and `wfunc_pow`
tests its arguments before. -/
def withWrappers {D : Type} (A : Arith D) (libm : WFunc → List D → Bool × D) : Arith D :=
  { A with
    wfunc := fun f argv =>
      match f with
      | .wfunc_pow => wfunc_pow A (libm .wfunc_pow) argv
      | _ => libm f argv }

/-- Two calls of `infix_to_rpn` in succession on the same text, each with its
own buffer and output: the second finds the static `actual_val` as the first
left it. -/
def infix_to_rpn_twice {D : Type} (fuel : Nat) (reg : Registry D) (actual_val : Str)
    (infix_expr : Str) : ConvOutcome × ConvOutcome :=
  let first := infix_to_rpn fuel reg actual_val infix_expr
  (first, infix_to_rpn fuel reg first.actual_val infix_expr)

/-- The text `adj_expr` produces, by recursion over the input: a space or a tab
is dropped; any other character is kept (a bracket as a parenthesis), followed
by one space when spaces come directly behind it and `mustSeparate` holds of it
and of the first character behind those spaces. -/
def adj_spec : Str → Str
  | [] => []
  | c :: rest =>
    if adj_subst c = ' ' then adj_spec rest
    else
      adj_subst c ::
        (if rest.head? = some ' ' ∧ mustSeparate (adj_subst c) (nextVisible rest) = true then
          ' ' :: adj_spec rest
        else adj_spec rest)

/-- The sign a run of signs stands for, in the words of the claim: `-` when the
run holds an odd number of `-`, and `+` otherwise. -/
def paritySign (s : Str) : Char := if s.count '-' % 2 = 1 then '-' else '+'

/-- The sign the loop of `getOp` folds a run into, pair by pair from the left:
two equal signs give `+`, two different signs give `-`. -/
def foldSign : Char → Str → Char
  | curr_sign, [] => curr_sign
  | curr_sign, next_sign :: more =>
    foldSign (if curr_sign = next_sign then '+' else '-') more

/-- The unsigned numeric literals of a sequence of lexical units, in their
order. -/
def literalsOf : List Tok → List Str
  | [] => []
  | .lit l :: ts => l :: literalsOf ts
  | _ :: ts => literalsOf ts

/-- The operators of a sequence of lexical units, in their order. -/
def operatorsOf : List Tok → List Str
  | [] => []
  | .oper o :: ts => [o] :: operatorsOf ts
  | _ :: ts => operatorsOf ts

/-- A well-formed decimal literal in the words of the claim: an optional single
leading sign followed by digits with at most one `.`, containing at least one
digit. -/
def isDecimalLiteral (t : Str) : Bool :=
  isLiteral (if isSign (front t) then t.drop 1 else t)

/-- The measure of the text that the token loop still has to scan: its length
plus twice the number of its signs. A call of `getOp` that rewrites a unary
minus lengthens the text by three characters and uses up one sign. -/
def scanWeight (s : Str) : Nat := s.length + 2 * s.countP isSign

/-! ## Theorems -/

theorem checkRpn_loop_cons {D : Type} (reg : Registry D) (t : Str) (rest : List Str) (c : Int) :
    checkRpn_loop reg (t :: rest) c =
      match counterDelta reg t with
      | none => .ok false
      | some d => if c + d ≤ 0 then .ok false else checkRpn_loop reg rest (c + d) := by
  simp only [checkRpn_loop, counterDelta]
  by_cases h1 : isOperand reg t = true
  · simp [h1]
  · by_cases h2 : isBasicOperator t = true
    · simp [h1, h2, sub_eq_add_neg]
    · by_cases h3 : isFuncOperator t = true
      · have h4 : (additional_operators_find t).isSome = true := by
          unfold isFuncOperator at h3
          split at h3
          · simp at h3
          · exact h3
        obtain ⟨e, he⟩ := Option.isSome_iff_exists.mp h4
        simp [h1, h2, h3, he, get_operands_func_operator, sub_eq_add_neg]
      · simp [h1, h2, h3]

theorem checkRpn_loop_total {D : Type} (reg : Registry D) (rpn_expr : List Str) :
    ∀ c : Int, ∃ b, checkRpn_loop reg rpn_expr c = .ok b := by
  induction rpn_expr with
  | nil => intro c; exact ⟨_, rfl⟩
  | cons t rest ih =>
    intro c
    rw [checkRpn_loop_cons]
    cases counterDelta reg t with
    | none => exact ⟨_, rfl⟩
    | some d =>
      by_cases h : c + d ≤ 0
      · simp [h]
      · simp only [h, if_false]; exact ih _

theorem checkRpn_loop_iff {D : Type} (reg : Registry D) (rpn_expr : List Str) :
    ∀ c : Int, checkRpn_loop reg rpn_expr c = .ok true ↔
      ∃ ds : List Int, rpn_expr.map (counterDelta reg) = ds.map some ∧
        (∀ k, 0 < k → k ≤ ds.length → 0 < c + (ds.take k).sum) ∧ c + ds.sum = 1 := by
  induction rpn_expr with
  | nil =>
    intro c
    constructor
    · intro h
      refine ⟨[], rfl, ?_, ?_⟩
      · intro k hk hk2; simp at hk2; omega
      · simpa [checkRpn_loop] using h
    · rintro ⟨ds, h1, -, h3⟩
      have : ds = [] := by simpa using h1.symm
      subst this
      simpa [checkRpn_loop] using h3
  | cons t rest ih =>
    intro c
    rw [checkRpn_loop_cons]
    constructor
    · intro h
      cases hd : counterDelta reg t with
      | none => simp [hd] at h
      | some d =>
        simp only [hd] at h
        by_cases hle : c + d ≤ 0
        · simp [hle] at h
        · simp only [hle, if_false] at h
          obtain ⟨ds, h1, h2, h3⟩ := (ih (c + d)).mp h
          refine ⟨d :: ds, by simp [hd, h1], ?_, ?_⟩
          · intro k hk hk2
            cases k with
            | zero => omega
            | succ k =>
              simp only [List.take_succ_cons, List.sum_cons]
              cases k with
              | zero => simp; omega
              | succ k =>
                have := h2 (k + 1) (by omega) (by simpa using hk2)
                omega
          · simp only [List.sum_cons]; omega
    · rintro ⟨ds, h1, h2, h3⟩
      cases ds with
      | nil => simp at h1
      | cons d ds =>
        simp only [List.map_cons, List.cons.injEq] at h1
        obtain ⟨hd, h1⟩ := h1
        simp only [hd]
        have hpos : 0 < c + d := by
          have := h2 1 (by omega) (by simp)
          simpa using this
        have hle : ¬ (c + d ≤ 0) := by omega
        simp only [hle, if_false]
        refine (ih (c + d)).mpr ⟨ds, h1, ?_, ?_⟩
        · intro k hk hk2
          have := h2 (k + 1) (by omega) (by simpa using hk2)
          simp only [List.take_succ_cons, List.sum_cons] at this
          omega
        · simp only [List.sum_cons] at h3; omega

theorem checkRpn_true_iff {D : Type} (reg : Registry D) (rpn_expr : List Str) :
    checkRpn reg rpn_expr = .ok true ↔ StackDepthValid reg rpn_expr := by
  unfold checkRpn StackDepthValid
  rw [checkRpn_loop_iff]
  simp

/-- C3: `checkRpn` always returns, and it returns true exactly when every token
is an operand, a basic operator or a function-operator and the stack-depth
counter (from 0: +1 per operand, -1 per basic operator, -(arity - 1) per
function-operator) is strictly positive after every token and is 1 after the
last; the empty sequence is rejected. -/
theorem checkRpn_iff_stack_depth_valid {D : Type} (reg : Registry D) (rpn_expr : List Str) :
    (∃ b, checkRpn reg rpn_expr = .ok b) ∧
    (checkRpn reg rpn_expr = .ok true ↔ StackDepthValid reg rpn_expr) ∧
    checkRpn reg [] = .ok false := by
  exact ⟨checkRpn_loop_total reg rpn_expr 0, checkRpn_true_iff reg rpn_expr, rfl⟩

theorem finish_cases {D : Type} (reg : Registry D) (op rpn_expr : List Str) (actual_val : Str) :
    (infix_to_rpn_finish reg op rpn_expr actual_val = ⟨.returned true, rpn_expr ++ op, actual_val⟩ ∧
        checkRpn reg (rpn_expr ++ op) = .ok true) ∨
    (infix_to_rpn_finish reg op rpn_expr actual_val = ⟨.returned false, [], actual_val⟩ ∧
        checkRpn reg (rpn_expr ++ op) = .ok false) := by
  obtain ⟨b, hb⟩ := checkRpn_loop_total reg (rpn_expr ++ op) 0
  cases b with
  | true => left; simp [infix_to_rpn_finish, checkRpn, hb]
  | false => right; simp [infix_to_rpn_finish, checkRpn, hb]

/-- Every property of an outcome that holds at the end of the token loop (after
the stack is emptied and the output validated) and for every outcome that is
not a return holds for the loop. -/
theorem infix_to_rpn_loop_cases {D : Type} (reg : Registry D) (P : ConvOutcome → Prop)
    (hfin : ∀ op rpn_expr actual_val, P (infix_to_rpn_finish reg op rpn_expr actual_val))
    (hother : ∀ o : ConvOutcome, (∀ b, o.result ≠ .returned b) → P o) :
    ∀ (fuel : Nat) (expr : Str) (index : Nat) (actual_val : Str) (op rpn_expr : List Str),
      P (infix_to_rpn_loop reg fuel expr index actual_val op rpn_expr) := by
  intro fuel
  induction fuel with
  | zero =>
    intro expr index actual_val op rpn_expr
    exact hother _ (by intro b; simp [infix_to_rpn_loop])
  | succ fuel ih =>
    intro expr index actual_val op rpn_expr
    rw [infix_to_rpn_loop]
    split
    · exact hother _ (by intro b; simp)
    · exact hother _ (by intro b; simp)
    · split
      · exact hfin _ _ _
      · exact ih _ _ _ _ _
      · split
        · exact hother _ (by intro b; simp)
        · exact ih _ _ _ _ _
      · exact ih _ _ _ _ _
      · split
        · exact hother _ (by intro b; simp)
        · exact ih _ _ _ _ _

theorem infix_to_rpn_cases {D : Type} (reg : Registry D) (P : ConvOutcome → Prop)
    (hfin : ∀ op rpn_expr actual_val, P (infix_to_rpn_finish reg op rpn_expr actual_val))
    (hother : ∀ o : ConvOutcome, (∀ b, o.result ≠ .returned b) → P o)
    (fuel : Nat) (actual_val : Str) (infix_expr : Str) :
    P (infix_to_rpn fuel reg actual_val infix_expr) := by
  unfold infix_to_rpn
  split
  · exact hother _ (by intro b; simp)
  · exact hother _ (by intro b; simp)
  · exact infix_to_rpn_loop_cases reg P hfin hother _ _ _ _ _ _

theorem stackDepthValid_ne_nil {D : Type} (reg : Registry D) (rpn_expr : List Str)
    (h : StackDepthValid reg rpn_expr) : rpn_expr ≠ [] := by
  rintro rfl
  obtain ⟨ds, h1, -, h3⟩ := h
  have : ds = [] := by simpa using h1.symm
  subst this
  simp at h3

/-- C2: whenever `infix_to_rpn` returns true, the sequence it hands back is
accepted by `checkRpn`: it is not empty, and the stack-depth counter is strictly
positive after every token and ends at 1. -/
theorem infix_to_rpn_true_checkRpn {D : Type} (fuel : Nat) (reg : Registry D)
    (actual_val infix_expr : Str)
    (h : (infix_to_rpn fuel reg actual_val infix_expr).result = .returned true) :
    checkRpn reg (infix_to_rpn fuel reg actual_val infix_expr).rpn_expr = .ok true ∧
    (infix_to_rpn fuel reg actual_val infix_expr).rpn_expr ≠ [] ∧
    StackDepthValid reg (infix_to_rpn fuel reg actual_val infix_expr).rpn_expr := by
  have key : (infix_to_rpn fuel reg actual_val infix_expr).result = .returned true →
      checkRpn reg (infix_to_rpn fuel reg actual_val infix_expr).rpn_expr = .ok true := by
    refine infix_to_rpn_cases reg
      (fun o => o.result = .returned true → checkRpn reg o.rpn_expr = .ok true) ?_ ?_ _ _ _
    · intro op rpn_expr av hres
      rcases finish_cases reg op rpn_expr av with ⟨h1, h2⟩ | ⟨h1, -⟩
      · rw [h1]; exact h2
      · rw [h1] at hres; simp at hres
    · intro o ho hres
      exact absurd hres (ho true)
  have hc := key h
  have hv := (checkRpn_true_iff reg _).mp hc
  exact ⟨hc, stackDepthValid_ne_nil reg _ hv, hv⟩

theorem infix_to_rpn_true_checkRpn_witness :
    (infix_to_rpn 10 ([] : Registry ℚ) [] ['3', ' ', '+', ' ', '4', ' ', '*', ' ', '2']).result
        = .returned true ∧
    (checkRpn ([] : Registry ℚ)
        (infix_to_rpn 10 ([] : Registry ℚ) [] ['3', ' ', '+', ' ', '4', ' ', '*', ' ', '2']).rpn_expr
        = .ok true ∧
      (infix_to_rpn 10 ([] : Registry ℚ) [] ['3', ' ', '+', ' ', '4', ' ', '*', ' ', '2']).rpn_expr
        ≠ [] ∧
      StackDepthValid ([] : Registry ℚ)
        (infix_to_rpn 10 ([] : Registry ℚ) [] ['3', ' ', '+', ' ', '4', ' ', '*', ' ', '2']).rpn_expr) :=
  ⟨by decide, infix_to_rpn_true_checkRpn 10 [] [] _ (by decide)⟩

theorem lookup_isSome_mem {D : Type} (reg : Registry D) (v : Str)
    (h : (reg.lookup v).isSome = true) : ∃ d, (v, d) ∈ reg := by
  induction reg with
  | nil => simp at h
  | cons e reg ih =>
    obtain ⟨k, d⟩ := e
    by_cases hk : v = k
    · subst hk; exact ⟨d, by simp⟩
    · have hb : (v == k) = false := by simpa using hk
      simp only [List.lookup, hb] at h
      obtain ⟨d2, hd2⟩ := ih h
      exact ⟨d2, List.mem_cons_of_mem _ hd2⟩

theorem isAdditionalOperand_lower {D : Type} (reg : Registry D) (hreg : registryOk reg = true)
    (v : Str) (h : isAdditionalOperand reg v = true) : v.all islower = true := by
  obtain ⟨d, hd⟩ := lookup_isSome_mem reg v h
  unfold registryOk at hreg
  rw [List.all_eq_true] at hreg
  exact hreg _ hd

theorem isAdditionalOperand_false_of_not_lower {D : Type} (reg : Registry D)
    (hreg : registryOk reg = true) (c : Char) (rest : Str) (hc : islower c = false) :
    isAdditionalOperand reg (c :: rest) = false := by
  by_contra h
  have h2 := isAdditionalOperand_lower reg hreg (c :: rest) (by simpa using h)
  simp [hc] at h2

theorem counterDelta_open {D : Type} (reg : Registry D) (hreg : registryOk reg = true) :
    counterDelta reg ['('] = none := by
  have h := isAdditionalOperand_false_of_not_lower reg hreg '(' [] (by decide)
  have h1 : isOperand reg ['('] = false := by
    simp only [isOperand, h]; decide
  simp only [counterDelta, h1]; decide

theorem counterDelta_close {D : Type} (reg : Registry D) (hreg : registryOk reg = true) :
    counterDelta reg [')'] = none := by
  have h := isAdditionalOperand_false_of_not_lower reg hreg ')' [] (by decide)
  have h1 : isOperand reg [')'] = false := by
    simp only [isOperand, h]; decide
  simp only [counterDelta, h1]; decide

theorem checkRpn_loop_unclassified {D : Type} (reg : Registry D) (rpn_expr : List Str)
    (t : Str) (ht : t ∈ rpn_expr) (hd : counterDelta reg t = none) :
    ∀ c : Int, checkRpn_loop reg rpn_expr c = .ok false := by
  induction rpn_expr with
  | nil => simp at ht
  | cons u rest ih =>
    intro c
    rw [checkRpn_loop_cons]
    rcases List.mem_cons.mp ht with rfl | hmem
    · simp [hd]
    · cases counterDelta reg u with
      | none => rfl
      | some d =>
        by_cases hle : c + d ≤ 0
        · simp [hle]
        · simp only [hle, if_false]; exact ih hmem _

/-- C5: for every token sequence that `checkRpn` rejects, among them the empty
sequence, every sequence with a token that is neither an operand nor an
operator, and (for a registry of lowercase names) every sequence with a
parenthesis, `evaluate` returns `(false, 0.0)`; it does not raise and does not
enter the loop over the numeric stack. -/
theorem evaluate_rejected {D : Type} (A : Arith D) (reg : Registry D) (expr : List Str)
    (h : checkRpn reg expr = .ok false ∨ expr = [] ∨
      (∃ t ∈ expr, counterDelta reg t = none) ∨
      (registryOk reg = true ∧ (['('] ∈ expr ∨ [')'] ∈ expr))) :
    checkRpn reg expr = .ok false ∧ evaluate A reg expr = .returned false A.zero := by
  have hrej : checkRpn reg expr = .ok false := by
    rcases h with h | rfl | ⟨t, ht, hd⟩ | ⟨hreg, h | h⟩
    · exact h
    · rfl
    · exact checkRpn_loop_unclassified reg expr t ht hd 0
    · exact checkRpn_loop_unclassified reg expr _ h (counterDelta_open reg hreg) 0
    · exact checkRpn_loop_unclassified reg expr _ h (counterDelta_close reg hreg) 0
  refine ⟨hrej, ?_⟩
  simp [evaluate, hrej]

theorem evaluate_rejected_witness :
    (checkRpn ([] : Registry ℚ) [['1'], ['('], ['+']] = .ok false ∨
      [['1'], ['('], ['+']] = ([] : List Str) ∨
      (∃ t ∈ [['1'], ['('], ['+']], counterDelta ([] : Registry ℚ) t = none) ∨
      (registryOk ([] : Registry ℚ) = true ∧
        (['('] ∈ [['1'], ['('], ['+']] ∨ [')'] ∈ [['1'], ['('], ['+']]))) ∧
    (checkRpn ([] : Registry ℚ) [['1'], ['('], ['+']] = .ok false ∧
      evaluate (exactArith (fun _ _ => (false, 0))) [] [['1'], ['('], ['+']]
        = .returned false (exactArith (fun _ _ => (false, 0))).zero) :=
  ⟨Or.inl rfl, evaluate_rejected _ _ _ (Or.inl rfl)⟩

theorem isFuncOperator_find (t : Str) (h : isFuncOperator t = true) :
    ∃ e, additional_operators_find t = some e := by
  unfold isFuncOperator at h
  split at h
  · simp at h
  · exact Option.isSome_iff_exists.mp h

theorem isAdditionalOperand_lookup {D : Type} (reg : Registry D) (t : Str)
    (h : isAdditionalOperand reg t = true) : ∃ v, reg.lookup t = some v :=
  Option.isSome_iff_exists.mp h

/-- One pass of the evaluator over a token the validator lets through, on a
stack as deep as the validator's counter: the pass goes on with a stack as deep
as the new counter, or it ends the call with `(false, 0.0)` or with the
exception of `std::stod`. -/
theorem evaluate_step_safe {D : Type} (A : Arith D) (reg : Registry D) (it : Str)
    (operands : List D) (d : Int) (hd : counterDelta reg it = some d)
    (hpos : 0 < (operands.length : Int) + d) :
    (∃ operands2, evaluate_step A reg it operands = .next operands2 ∧
        (operands2.length : Int) = (operands.length : Int) + d) ∨
    evaluate_step A reg it operands = .stop (.returned false A.zero) ∨
    evaluate_step A reg it operands = .stop (.threw (.stod_failure it)) := by
  unfold counterDelta at hd
  unfold evaluate_step
  cases h1 : isOperand reg it with
  | true =>
    simp only [h1, if_true, Option.some.injEq] at hd
    subst hd
    simp only [if_true]
    cases h2 : isAdditionalOperand reg it with
    | true =>
      obtain ⟨v, hv⟩ := isAdditionalOperand_lookup reg it h2
      simp [get_value_additionalOperand, hv]
    | false =>
      cases hs : A.stod it with
      | none => simp
      | some v => simp
  | false =>
    cases h2 : isBasicOperator it with
    | true =>
      simp [h1, h2] at hd
      subst hd
      simp only [Bool.false_eq_true, if_false, if_true]
      match operands, hpos with
      | [], hpos => simp at hpos
      | [_], hpos => simp at hpos
      | op2 :: op1 :: rest, _ =>
        simp only []
        split_ifs <;> simp
    | false =>
      cases h3 : isFuncOperator it with
      | true =>
        obtain ⟨e, he⟩ := isFuncOperator_find it h3
        simp [h1, h2, h3, he] at hd
        subst hd
        simp only [Bool.false_eq_true, if_false, if_true, get_operands_func_operator, he,
          eval_func_operator]
        have hlen : ¬ (operands.length < e.1) := by omega
        simp only [hlen, if_false]
        rcases hw : A.wfunc e.2.2 (List.take e.1 operands).reverse with ⟨b, v⟩
        cases b with
        | false => simp
        | true =>
          left
          refine ⟨_, rfl, ?_⟩
          simp only [List.length_cons, List.length_drop]
          omega
      | false => simp [h1, h2, h3] at hd

theorem evaluate_loop_safe {D : Type} (A : Arith D) (reg : Registry D) (expr : List Str) :
    ∀ operands : List D, checkRpn_loop reg expr (operands.length : Int) = .ok true →
      (∃ value, evaluate_loop A reg expr operands = .returned true value) ∨
      evaluate_loop A reg expr operands = .returned false A.zero ∨
      (∃ t ∈ expr, evaluate_loop A reg expr operands = .threw (.stod_failure t)) := by
  induction expr with
  | nil =>
    intro operands h
    simp only [checkRpn_loop, Except.ok.injEq, beq_iff_eq] at h
    match operands, h with
    | [v], _ => left; exact ⟨v, rfl⟩
    | [], h => simp at h
    | _ :: _ :: _, h => simp at h; omega
  | cons it rest ih =>
    intro operands h
    rw [checkRpn_loop_cons] at h
    cases hd : counterDelta reg it with
    | none => simp [hd] at h
    | some d =>
      simp only [hd] at h
      by_cases hle : (operands.length : Int) + d ≤ 0
      · simp [hle] at h
      · simp only [hle, if_false] at h
        rw [evaluate_loop]
        rcases evaluate_step_safe A reg it operands d hd (by omega) with
          ⟨operands2, hs, hl⟩ | hs | hs
        · rw [hs]
          rw [← hl] at h
          rcases ih operands2 h with h1 | h1 | ⟨t, ht, h1⟩
          · exact Or.inl h1
          · exact Or.inr (Or.inl h1)
          · exact Or.inr (Or.inr ⟨t, List.mem_cons_of_mem _ ht, h1⟩)
        · rw [hs]; exact Or.inr (Or.inl rfl)
        · rw [hs]; exact Or.inr (Or.inr ⟨it, by simp, rfl⟩)

theorem evaluate_step_stop_ne_true {D : Type} (A : Arith D) (reg : Registry D) (it : Str)
    (operands : List D) (value : D) :
    evaluate_step A reg it operands ≠ .stop (.returned true value) := by
  unfold evaluate_step
  intro h
  repeat' split at h
  all_goals simp at h

theorem evaluate_loop_true_stack {D : Type} (A : Arith D) (reg : Registry D) (expr : List Str) :
    ∀ (operands : List D) (value : D),
      evaluate_loop A reg expr operands = .returned true value →
      stack_after A reg expr operands = some [value] := by
  induction expr with
  | nil =>
    intro operands value h
    match operands, h with
    | [v], h => simp [evaluate_loop] at h; simp [stack_after, h]
    | [], h => simp [evaluate_loop] at h
    | _ :: _ :: _, h => simp [evaluate_loop] at h
  | cons it rest ih =>
    intro operands value h
    rw [evaluate_loop] at h
    rw [stack_after]
    cases hs : evaluate_step A reg it operands with
    | next operands2 =>
      simp only [hs] at h
      simpa using ih operands2 value h
    | stop r =>
      simp only [hs] at h
      subst h
      exact absurd hs (evaluate_step_stop_ne_true A reg it operands value)

/-- C4: on a sequence accepted by `checkRpn` the evaluator never reads or pops a
value the stack does not hold and never reaches the internal-consistency fault:
the call returns `(true, value)` with exactly one value left, or returns
`(false, 0.0)` at an undefined operation, or `std::stod` raises at an operand
token; it is neither undefined behaviour nor the general error. -/
theorem evaluate_accepted_safe {D : Type} (A : Arith D) (reg : Registry D) (expr : List Str)
    (h : checkRpn reg expr = .ok true) :
    ((∃ value, evaluate A reg expr = .returned true value ∧
        stack_after A reg expr [] = some [value]) ∨
      evaluate A reg expr = .returned false A.zero ∨
      (∃ t ∈ expr, evaluate A reg expr = .threw (.stod_failure t))) ∧
    evaluate A reg expr ≠ .undefined_behaviour ∧
    evaluate A reg expr ≠ .threw .general_error := by
  have hloop := evaluate_loop_safe A reg expr [] (by simpa [checkRpn] using h)
  have hev : evaluate A reg expr = evaluate_loop A reg expr [] := by simp [evaluate, h]
  rw [hev]
  refine ⟨?_, ?_, ?_⟩
  · rcases hloop with ⟨v, hv⟩ | h2 | h3
    · exact Or.inl ⟨v, hv, evaluate_loop_true_stack A reg expr [] v hv⟩
    · exact Or.inr (Or.inl h2)
    · exact Or.inr (Or.inr h3)
  · rcases hloop with ⟨v, hv⟩ | h2 | ⟨t, -, h3⟩ <;> simp [*]
  · rcases hloop with ⟨v, hv⟩ | h2 | ⟨t, -, h3⟩ <;> simp [*]

theorem evaluate_accepted_safe_witness :
    checkRpn ([] : Registry ℚ) [['8'], ['3'], ['2'], ['-'], ['-']] = .ok true ∧
    (((∃ value, evaluate (exactArith (fun _ _ => (false, 0))) [] [['8'], ['3'], ['2'], ['-'], ['-']]
          = .returned true value ∧
        stack_after (exactArith (fun _ _ => (false, 0))) [] [['8'], ['3'], ['2'], ['-'], ['-']] []
          = some [value]) ∨
      evaluate (exactArith (fun _ _ => (false, 0))) [] [['8'], ['3'], ['2'], ['-'], ['-']]
        = .returned false (exactArith (fun _ _ => (false, 0))).zero ∨
      (∃ t ∈ [['8'], ['3'], ['2'], ['-'], ['-']],
        evaluate (exactArith (fun _ _ => (false, 0))) [] [['8'], ['3'], ['2'], ['-'], ['-']]
          = .threw (.stod_failure t))) ∧
    evaluate (exactArith (fun _ _ => (false, 0))) [] [['8'], ['3'], ['2'], ['-'], ['-']]
      ≠ .undefined_behaviour ∧
    evaluate (exactArith (fun _ _ => (false, 0))) [] [['8'], ['3'], ['2'], ['-'], ['-']]
      ≠ .threw .general_error) :=
  ⟨rfl, evaluate_accepted_safe _ _ _ rfl⟩

theorem evaluate_loop_append {D : Type} (A : Arith D) (reg : Registry D) (pre rest : List Str) :
    ∀ operands operands2 : List D, stack_after A reg pre operands = some operands2 →
      evaluate_loop A reg (pre ++ rest) operands = evaluate_loop A reg rest operands2 := by
  induction pre with
  | nil => intro operands operands2 h; simp [stack_after] at h; simp [h]
  | cons it pre ih =>
    intro operands operands2 h
    rw [stack_after] at h
    rw [List.cons_append, evaluate_loop]
    cases hs : evaluate_step A reg it operands with
    | next o => simp only [hs] at h; exact ih o operands2 h
    | stop r => simp [hs] at h

theorem checkRpn_loop_append {D : Type} (A : Arith D) (reg : Registry D) (pre rest : List Str) :
    ∀ operands operands2 : List D, stack_after A reg pre operands = some operands2 →
      checkRpn_loop reg (pre ++ rest) (operands.length : Int) = .ok true →
      checkRpn_loop reg rest (operands2.length : Int) = .ok true := by
  induction pre with
  | nil => intro operands operands2 h; simp [stack_after] at h; simp [h]
  | cons it pre ih =>
    intro operands operands2 h hc
    rw [stack_after] at h
    rw [List.cons_append, checkRpn_loop_cons] at hc
    cases hd : counterDelta reg it with
    | none => simp [hd] at hc
    | some d =>
      simp only [hd] at hc
      by_cases hle : (operands.length : Int) + d ≤ 0
      · simp [hle] at hc
      · simp only [hle, if_false] at hc
        rcases evaluate_step_safe A reg it operands d hd (by omega) with
          ⟨o, hs, hl⟩ | hs | hs
        · rw [hs] at h
          rw [← hl] at hc
          exact ih o operands2 h hc
        · simp [hs] at h
        · simp [hs] at h

theorem isOperand_slash {D : Type} (reg : Registry D) (hreg : registryOk reg = true) :
    isOperand reg ['/'] = false := by
  have h := isAdditionalOperand_false_of_not_lower reg hreg '/' [] (by decide)
  simp only [isOperand, h]; decide

/-- C10: on a sequence accepted by `checkRpn`, when the evaluator reaches a `/`
with a divisor (the value on top of the stack, popped first) that equals zero,
`evaluate` returns `(false, 0.0)` whatever tokens follow: the division is
reported, not raised, and the rest is not processed. -/
theorem evaluate_division_by_zero {D : Type} (A : Arith D) (reg : Registry D)
    (pre post : List Str) (op2 : D) (operands : List D)
    (hreg : registryOk reg = true)
    (hacc : checkRpn reg (pre ++ ['/'] :: post) = .ok true)
    (hreach : stack_after A reg pre [] = some (op2 :: operands))
    (hzero : A.eq_zero op2 = true) :
    evaluate A reg (pre ++ ['/'] :: post) = .returned false A.zero := by
  have hev : evaluate A reg (pre ++ ['/'] :: post)
      = evaluate_loop A reg (pre ++ ['/'] :: post) [] := by simp [evaluate, hacc]
  rw [hev, evaluate_loop_append A reg pre _ [] _ hreach]
  have hc := checkRpn_loop_append A reg pre (['/'] :: post) [] _ hreach
    (by simpa [checkRpn] using hacc)
  rw [checkRpn_loop_cons] at hc
  have hop : isOperand reg ['/'] = false := isOperand_slash reg hreg
  have hd : counterDelta reg ['/'] = some (-1) := by
    simp only [counterDelta, hop]; decide
  simp only [hd] at hc
  match operands, hc with
  | [], hc => simp at hc
  | op1 :: operands, _ =>
    rw [evaluate_loop]
    have hs : evaluate_step A reg ['/'] (op2 :: op1 :: operands)
        = .stop (.returned false A.zero) := by
      simp only [evaluate_step, hop]
      simp [isBasicOperator, front, hzero]
    rw [hs]

theorem exact_stod_0 : exact_stod ['0'] = some 0 := by
  simp [exact_stod, front, isSign, isdigit, decimal_value, digit_value]

theorem exact_stod_5 : exact_stod ['5'] = some 5 := by
  simp [exact_stod, front, isSign, isdigit, decimal_value, digit_value]

theorem evaluate_division_by_zero_witness :
    registryOk ([] : Registry ℚ) = true ∧
    checkRpn ([] : Registry ℚ) ([['5'], ['0']] ++ ['/'] :: [['1'], ['+']]) = .ok true ∧
    stack_after (exactArith (fun _ _ => (false, 0))) [] [['5'], ['0']] [] = some [0, 5] ∧
    (exactArith (fun _ _ => (false, 0))).eq_zero 0 = true ∧
    evaluate (exactArith (fun _ _ => (false, 0))) [] ([['5'], ['0']] ++ ['/'] :: [])
      = .returned false (exactArith (fun _ _ => (false, 0))).zero ∧
    evaluate (exactArith (fun _ _ => (false, 0))) [] ([['5'], ['0']] ++ ['/'] :: [['1'], ['+']])
      = .returned false (exactArith (fun _ _ => (false, 0))).zero :=
  have hst : stack_after (exactArith (fun _ _ => (false, 0))) [] [['5'], ['0']] []
      = some [0, 5] := by
    simp [stack_after, evaluate_step, isOperand, isAdditionalOperand, front, isSign, isdigit,
      exactArith, exact_stod_0, exact_stod_5]
  ⟨rfl, rfl, hst, by simp [exactArith],
    evaluate_division_by_zero _ _ [['5'], ['0']] [] 0 [5] rfl rfl hst (by simp [exactArith]),
    evaluate_division_by_zero _ _ [['5'], ['0']] [['1'], ['+']] 0 [5] rfl rfl hst
      (by simp [exactArith])⟩

theorem charAt_append_cons (pre rest : Str) (c : Char) :
    charAt (pre ++ c :: rest) pre.length = c := by
  induction pre with
  | nil => rfl
  | cons a pre ih => simpa [charAt] using ih

theorem fetch_val_end (expr : Str) : fetch_val expr expr.length = .ok (false, [], expr.length) := by
  simp [fetch_val]

theorem fetch_val_single (pre rest : Str) (c : Char) (h1 : c ≠ ' ') (h2 : islower c = false)
    (h3 : isdigit c = false) (h4 : c ≠ '.') :
    fetch_val (pre ++ c :: rest) pre.length = .ok (true, [c], pre.length + 1) := by
  simp [fetch_val, charAt_append_cons, h1, h2, h3, h4]

theorem digit_not_lower (c : Char) (h : (isdigit c || c == '.') = true) : islower c = false := by
  rcases Bool.or_eq_true _ _ ▸ h with h | h
  · simp only [isdigit, islower, Bool.and_eq_true, decide_eq_true_eq] at *
    simp only [Bool.and_eq_false_iff, decide_eq_false_iff_not]
    omega
  · have : c = '.' := by simpa using h
    subst this; decide

theorem digit_not_space (c : Char) (h : (isdigit c || c == '.') = true) : c ≠ ' ' := by
  rintro rfl
  simp [isdigit] at h

theorem fetch_val_literal (pre l rest : Str) (hl : isLiteral l = true)
    (hrest : ∀ c r, rest = c :: r → (isdigit c || c == '.') = false) :
    fetch_val (pre ++ l ++ rest) pre.length = .ok (true, l, pre.length + l.length) := by
  simp only [isLiteral, Bool.and_eq_true, decide_eq_true_eq] at hl
  obtain ⟨⟨hall, hany⟩, hcount⟩ := hl
  match l, hall, hany, hcount with
  | [], _, hany, _ => simp at hany
  | c :: l, hall, _, hcount =>
    have hc : (isdigit c || c == '.') = true := by
      simp only [List.all_cons, Bool.and_eq_true] at hall; exact hall.1
    have hl2 : ∀ a ∈ l, (isdigit a || a == '.') = true := by
      simp only [List.all_cons, Bool.and_eq_true, List.all_eq_true] at hall; exact hall.2
    have htw : List.takeWhile (fun c => isdigit c || c == '.') (l ++ rest) = l := by
      rw [List.takeWhile_append_of_pos hl2]
      cases rest with
      | nil => simp
      | cons a r =>
        have := hrest a r rfl
        simp [List.takeWhile_cons, this]
    have hdrop : List.drop (pre.length + 1) (pre ++ (c :: l) ++ rest) = l ++ rest := by
      have : pre ++ (c :: l) ++ rest = (pre ++ [c]) ++ (l ++ rest) := by simp
      rw [this]
      exact List.drop_left' (by simp)
    have hat : charAt (pre ++ (c :: l) ++ rest) pre.length = c := by
      have : pre ++ (c :: l) ++ rest = pre ++ c :: (l ++ rest) := by simp
      rw [this]; exact charAt_append_cons _ _ _
    have hlen : pre.length < (pre ++ (c :: l) ++ rest).length := by simp
    have hnl := digit_not_lower c hc
    have hns := digit_not_space c hc
    have hdig : isdigit c = true ∨ c = '.' := by simpa using hc
    unfold fetch_val
    simp only [hat, hns, and_false, if_false, ge_iff_le, Nat.not_le.mpr hlen, hnl,
      Bool.false_eq_true, hdig, if_true, hdrop, htw]
    have hcnt : ¬ (List.count '.' (c :: l) > 1) := by omega
    simp [hcnt]

theorem literal_front (l : Str) (hl : isLiteral l = true) :
    l ≠ [] ∧ (isdigit (front l) || front l == '.') = true := by
  simp only [isLiteral, Bool.and_eq_true, decide_eq_true_eq] at hl
  obtain ⟨⟨hall, hany⟩, -⟩ := hl
  match l, hall, hany with
  | [], _, hany => simp at hany
  | c :: l, hall, _ =>
    simp only [List.all_cons, Bool.and_eq_true] at hall
    exact ⟨by simp, hall.1⟩

theorem digit_not_sign (c : Char) (h : (isdigit c || c == '.') = true) : isSign c = false := by
  rcases Bool.or_eq_true _ _ ▸ h with h | h
  · simp only [isdigit, Bool.and_eq_true, decide_eq_true_eq] at h
    by_contra hs
    simp only [isSign, Bool.or_eq_true, beq_iff_eq, Bool.not_eq_false] at hs
    rcases hs with rfl | rfl <;> simp at h
  · have : c = '.' := by simpa using h
    subst this; decide

theorem isOperand_literal {D : Type} (reg : Registry D) (l : Str) (hl : isLiteral l = true) :
    isOperand reg l = true := by
  obtain ⟨hne, hfront⟩ := literal_front l hl
  have hall : l.all (fun c => isdigit c || c == '.') = true := by
    simp only [isLiteral, Bool.and_eq_true] at hl; exact hl.1.1
  have hempty : l.isEmpty = false := by
    cases l with
    | nil => exact absurd rfl hne
    | cons _ _ => rfl
  unfold isOperand
  simp only [hempty, Bool.false_eq_true, if_false, digit_not_sign _ hfront, Bool.false_and,
    List.drop_zero, hall]
  split <;> rfl

theorem isOperand_single {D : Type} (reg : Registry D) (hreg : registryOk reg = true) (c : Char)
    (h1 : islower c = false) (h2 : isdigit c = false) (h3 : c ≠ '.') :
    isOperand reg [c] = false := by
  have h := isAdditionalOperand_false_of_not_lower reg hreg c [] h1
  simp [isOperand, h, h2, h3]

theorem getType_literal {D : Type} (reg : Registry D) (l : Str) (hl : isLiteral l = true) :
    getType reg l = .OPERAND := by
  obtain ⟨hne, -⟩ := literal_front l hl
  have hempty : l.isEmpty = false := by
    cases l with
    | nil => exact absurd rfl hne
    | cons _ _ => rfl
  simp [getType, hempty, isOperand_literal reg l hl]

theorem getType_close {D : Type} (reg : Registry D) (hreg : registryOk reg = true) :
    getType reg [')'] = .CLOSE_PARENTHESIS := by
  have h := isOperand_single reg hreg ')' (by decide) (by decide) (by decide)
  simp only [getType, h]; decide

theorem getType_basic {D : Type} (reg : Registry D) (hreg : registryOk reg = true) (o : Char)
    (ho : isBasicOperatorChar o = true) : getType reg [o] = .OPERATOR := by
  have ho2 : o = '+' ∨ o = '-' ∨ o = '*' ∨ o = '/' := by
    simp only [isBasicOperatorChar, Bool.or_eq_true, beq_iff_eq] at ho
    tauto
  have h : isOperand reg [o] = false := by
    rcases ho2 with rfl | rfl | rfl | rfl <;>
      exact isOperand_single reg hreg _ (by decide) (by decide) (by decide)
  rcases ho2 with rfl | rfl | rfl | rfl <;> (simp only [getType, h]; decide)

theorem getOp_literal {D : Type} (reg : Registry D) (pre l rest av : Str)
    (hl : isLiteral l = true)
    (hrest : ∀ c r, rest = c :: r → (isdigit c || c == '.') = false) :
    getOp reg (pre ++ l ++ rest) pre.length av =
      ⟨.ok (.OPERAND, l, pre ++ l ++ rest, pre.length + l.length), l⟩ := by
  simp only [getOp, fetch_val_literal pre l rest hl hrest, isOperand_literal reg l hl]
  simp

theorem getOp_open {D : Type} (reg : Registry D) (hreg : registryOk reg = true)
    (pre rest av : Str) :
    getOp reg (pre ++ '(' :: rest) pre.length av =
      ⟨.ok (.OPEN_PARENTHESIS, ['('], pre ++ '(' :: rest, pre.length + 1), ['(']⟩ := by
  have hf := fetch_val_single pre rest '(' (by decide) (by decide) (by decide) (by decide)
  have ho := isOperand_single reg hreg '(' (by decide) (by decide) (by decide)
  have h1 : isSign (front ['(']) = false := by decide
  have h2 : (isBasicOperator ['('] || isFuncOperator ['(']) = false := by decide
  have h3 : front ['('] = '(' := by decide
  simp only [getOp, hf, ho, h1, h2]
  simp [h3]

theorem getOp_close {D : Type} (reg : Registry D) (hreg : registryOk reg = true)
    (pre rest av : Str) :
    getOp reg (pre ++ ')' :: rest) pre.length av =
      ⟨.ok (.CLOSE_PARENTHESIS, [')'], pre ++ ')' :: rest, pre.length + 1), [')']⟩ := by
  have hf := fetch_val_single pre rest ')' (by decide) (by decide) (by decide) (by decide)
  have ho := isOperand_single reg hreg ')' (by decide) (by decide) (by decide)
  have h1 : isSign (front [')']) = false := by decide
  have h2 : (isBasicOperator [')'] || isFuncOperator [')']) = false := by decide
  have h3 : front [')'] = ')' := by decide
  have h4 : front [')'] ≠ '(' := by decide
  simp only [getOp, hf, ho, h1, h2]
  simp [h3, h4]

theorem getOp_times {D : Type} (reg : Registry D) (hreg : registryOk reg = true)
    (pre rest av : Str) (o : Char) (ho : o = '*' ∨ o = '/') :
    getOp reg (pre ++ o :: rest) pre.length av =
      ⟨.ok (.OPERATOR, [o], pre ++ o :: rest, pre.length + 1), [o]⟩ := by
  rcases ho with rfl | rfl
  · have hf := fetch_val_single pre rest '*' (by decide) (by decide) (by decide) (by decide)
    have ho := isOperand_single reg hreg '*' (by decide) (by decide) (by decide)
    have h1 : isSign (front ['*']) = false := by decide
    have h2 : (isBasicOperator ['*'] || isFuncOperator ['*']) = true := by decide
    simp only [getOp, hf, ho, h1, h2]
    simp
  · have hf := fetch_val_single pre rest '/' (by decide) (by decide) (by decide) (by decide)
    have ho := isOperand_single reg hreg '/' (by decide) (by decide) (by decide)
    have h1 : isSign (front ['/']) = false := by decide
    have h2 : (isBasicOperator ['/'] || isFuncOperator ['/']) = true := by decide
    simp only [getOp, hf, ho, h1, h2]
    simp

/-- A sign behind an operand or a closing parenthesis, with a unit after it that
is not a sign, is returned as a binary operator and the text is left as it is. -/
theorem getOp_binary_sign {D : Type} (reg : Registry D) (hreg : registryOk reg = true)
    (pre rest av : Str) (o : Char) (ho : o = '+' ∨ o = '-')
    (next_val : Str) (next_index : Nat)
    (hnext : fetch_val (pre ++ o :: rest) (pre.length + 1) = .ok (true, next_val, next_index))
    (hns : isSign (front next_val) = false)
    (hav : getType reg av = .OPERAND ∨ getType reg av = .CLOSE_PARENTHESIS) :
    getOp reg (pre ++ o :: rest) pre.length av =
      ⟨.ok (.OPERATOR, [o], pre ++ o :: rest, pre.length + 1), [o]⟩ := by
  have hprev : ¬ (getType reg av = .OPERATOR ∨ getType reg av = .OPEN_PARENTHESIS
      ∨ getType reg av = .NO_TYPE) := by
    rcases hav with h | h <;> simp [h]
  rcases ho with rfl | rfl
  · have hf := fetch_val_single pre rest '+' (by decide) (by decide) (by decide) (by decide)
    have ho := isOperand_single reg hreg '+' (by decide) (by decide) (by decide)
    have hs : isSign (front ['+']) = true := by decide
    have ht := getType_basic reg hreg '+' (by decide)
    simp only [getOp, hf, ho, hs, getOp_sign, hnext, hns, hprev, ht]
    simp [ht]
  · have hf := fetch_val_single pre rest '-' (by decide) (by decide) (by decide) (by decide)
    have ho := isOperand_single reg hreg '-' (by decide) (by decide) (by decide)
    have hs : isSign (front ['-']) = true := by decide
    have ht := getType_basic reg hreg '-' (by decide)
    simp only [getOp, hf, ho, hs, getOp_sign, hnext, hns, hprev, ht]
    simp [ht]

theorem getOp_end {D : Type} (reg : Registry D) (expr av : Str) :
    getOp reg expr expr.length av = ⟨.ok (.NO_TYPE, [], expr, expr.length), []⟩ := by
  simp [getOp, fetch_val_end]

theorem runs_nil {D : Type} (reg : Registry D) (c : Int) : Runs reg [] c c := by
  intro rest; rfl

theorem runs_snoc {D : Type} (reg : Registry D) (rpn_expr : List Str) (t : Str) (c c2 d : Int)
    (h : Runs reg rpn_expr c c2) (hd : counterDelta reg t = some d) (hpos : 0 < c2 + d) :
    Runs reg (rpn_expr ++ [t]) c (c2 + d) := by
  intro rest
  have := h (t :: rest)
  rw [List.append_assoc, List.singleton_append, this, checkRpn_loop_cons, hd]
  have hle : ¬ (c2 + d ≤ 0) := by omega
  simp [hle]

theorem counterDelta_literal {D : Type} (reg : Registry D) (l : Str) (hl : isLiteral l = true) :
    counterDelta reg l = some 1 := by
  simp [counterDelta, isOperand_literal reg l hl]

theorem basic_char_cases (o : Char) (ho : isBasicOperatorChar o = true) :
    o = '+' ∨ o = '-' ∨ o = '*' ∨ o = '/' := by
  simp only [isBasicOperatorChar, Bool.or_eq_true, beq_iff_eq] at ho
  tauto

theorem counterDelta_basic {D : Type} (reg : Registry D) (hreg : registryOk reg = true)
    (o : Char) (ho : isBasicOperatorChar o = true) : counterDelta reg [o] = some (-1) := by
  have h : isOperand reg [o] = false := by
    rcases basic_char_cases o ho with rfl | rfl | rfl | rfl <;>
      exact isOperand_single reg hreg _ (by decide) (by decide) (by decide)
  have h2 : isBasicOperator [o] = true := by
    rcases basic_char_cases o ho with rfl | rfl | rfl | rfl <;> decide
  simp [counterDelta, h, h2]

theorem precedence_basic (o : Char) (ho : isBasicOperatorChar o = true) :
    precedence [o] = .ok (if o = '+' ∨ o = '-' then 1 else 2) := by
  rcases basic_char_cases o ho with rfl | rfl | rfl | rfl <;> rfl

theorem precedence_open : precedence ['('] = .ok 0 := rfl

/-- The pops an operator of the grammar causes leave a stack of the same
parenthesis depth and an output the validator gets through. -/
theorem pop_operators_shape {D : Type} (reg : Registry D) (hreg : registryOk reg = true)
    (o : Char) (ho : isBasicOperatorChar o = true) (op : List Str) :
    ∀ (rpn_expr : List Str) (n depth : Nat), StackShape op n depth →
      Runs reg rpn_expr 0 ((n : Int) + 1) →
      ∃ op2 rpn2 n2, pop_operators [o] op rpn_expr = .ok (op2, rpn2) ∧
        StackShape op2 n2 depth ∧ Runs reg rpn2 0 ((n2 : Int) + 1) := by
  induction op with
  | nil =>
    intro rpn_expr n depth hs hr
    exact ⟨[], rpn_expr, n, rfl, hs, hr⟩
  | cons top op ih =>
    intro rpn_expr n depth hs hr
    cases hs with
    | paren _ n d hs2 =>
      refine ⟨['('] :: op, rpn_expr, n, ?_, StackShape.paren op n d hs2, hr⟩
      simp only [pop_operators, precedence_basic o ho, precedence_open]
      simp
    | oper o2 _ n2 d ho2 hs2 =>
      by_cases hlt : (if o = '+' ∨ o = '-' then 1 else 2) < (if o2 = '+' ∨ o2 = '-' then 1 else 2)
      · have hr2 : Runs reg (rpn_expr ++ [[o2]]) 0 ((n2 : Int) + 1) := by
          have := runs_snoc reg rpn_expr [o2] 0 _ (-1) hr (counterDelta_basic reg hreg o2 ho2)
            (by push_cast; omega)
          have he : ((n2 + 1 : Nat) : Int) + 1 + -1 = (n2 : Int) + 1 := by push_cast; omega
          rwa [he] at this
        obtain ⟨op3, rpn3, n3, h1, h2, h3⟩ := ih (rpn_expr ++ [[o2]]) n2 depth hs2 hr2
        refine ⟨op3, rpn3, n3, ?_, h2, h3⟩
        simp only [pop_operators, precedence_basic o ho, precedence_basic o2 ho2, hlt, if_true]
        exact h1
      · refine ⟨[o2] :: op, rpn_expr, n2 + 1, ?_, StackShape.oper o2 op n2 depth ho2 hs2, hr⟩
        simp only [pop_operators, precedence_basic o ho, precedence_basic o2 ho2, hlt, if_false]

theorem pop_until_open_shape {D : Type} (reg : Registry D) (hreg : registryOk reg = true)
    (op : List Str) :
    ∀ (rpn_expr : List Str) (n depth : Nat), StackShape op n (depth + 1) →
      Runs reg rpn_expr 0 ((n : Int) + 1) →
      ∃ op2 rpn2 n2, pop_until_open op rpn_expr = (['('] :: op2, rpn2) ∧
        StackShape op2 n2 depth ∧ Runs reg rpn2 0 ((n2 : Int) + 1) := by
  induction op with
  | nil => intro rpn_expr n depth hs; cases hs
  | cons top op ih =>
    intro rpn_expr n depth hs hr
    cases hs with
    | paren _ n d hs2 =>
      exact ⟨op, rpn_expr, n, by simp [pop_until_open], hs2, hr⟩
    | oper o2 _ n2 d ho2 hs2 =>
      have hr2 : Runs reg (rpn_expr ++ [[o2]]) 0 ((n2 : Int) + 1) := by
        have := runs_snoc reg rpn_expr [o2] 0 _ (-1) hr (counterDelta_basic reg hreg o2 ho2)
          (by push_cast; omega)
        have he : ((n2 + 1 : Nat) : Int) + 1 + -1 = (n2 : Int) + 1 := by push_cast; omega
        rwa [he] at this
      obtain ⟨op3, rpn3, n3, h1, h2, h3⟩ := ih (rpn_expr ++ [[o2]]) n2 depth hs2 hr2
      refine ⟨op3, rpn3, n3, ?_, h2, h3⟩
      have hne : [o2] ≠ ['('] := by
        rcases basic_char_cases o2 ho2 with rfl | rfl | rfl | rfl <;> decide
      simp only [pop_until_open, hne, ne_eq, not_false_eq_true, if_true]
      exact h1

theorem checkRpn_loop_stack {D : Type} (reg : Registry D) (hreg : registryOk reg = true)
    (op : List Str) :
    ∀ n : Nat, StackShape op n 0 → checkRpn_loop reg op ((n : Int) + 1) = .ok true := by
  induction op with
  | nil =>
    intro n hs
    cases hs
    simp [checkRpn_loop]
  | cons top op ih =>
    intro n hs
    cases hs with
    | oper o2 _ n2 d ho2 hs2 =>
      rw [checkRpn_loop_cons, counterDelta_basic reg hreg o2 ho2]
      have hle : ¬ (((n2 + 1 : Nat) : Int) + 1 + -1 ≤ 0) := by push_cast; omega
      have he : ((n2 + 1 : Nat) : Int) + 1 + -1 = (n2 : Int) + 1 := by push_cast; omega
      simp only [hle, if_false, he]
      exact ih n2 hs2

theorem finish_shape {D : Type} (reg : Registry D) (hreg : registryOk reg = true)
    (op rpn_expr : List Str) (n : Nat) (av : Str) (hs : StackShape op n 0)
    (hr : Runs reg rpn_expr 0 ((n : Int) + 1)) :
    infix_to_rpn_finish reg op rpn_expr av = ⟨.returned true, rpn_expr ++ op, av⟩ := by
  have h : checkRpn reg (rpn_expr ++ op) = .ok true := by
    unfold checkRpn
    rw [hr op]
    exact checkRpn_loop_stack reg hreg op n hs
  simp [infix_to_rpn_finish, h]

theorem basic_char_not_operand_start (o : Char) (ho : isBasicOperatorChar o = true) :
    (isdigit o || o == '.') = false := by
  rcases basic_char_cases o ho with rfl | rfl | rfl | rfl <;> decide

/-- Behind an operand the text of the grammar goes on with an operator or a
closing parenthesis, never with a digit or a dot. -/
theorem accepts_after_head (depth : Nat) (ts : List Tok) (h : accepts true depth ts = true) :
    ∀ c r, tokText ts = c :: r → (isdigit c || c == '.') = false := by
  intro c r hc
  match ts, depth, h with
  | [], _, _ => simp [tokText] at hc
  | .oper o :: ts, _, h =>
    simp only [accepts, Bool.and_eq_true] at h
    simp only [tokText, List.map_cons, Tok.text, List.flatten_cons, List.singleton_append,
      List.cons.injEq] at hc
    rw [← hc.1]
    exact basic_char_not_operand_start o h.1
  | .rparen :: ts, _, _ =>
    simp only [tokText, List.map_cons, Tok.text, List.flatten_cons, List.singleton_append,
      List.cons.injEq] at hc
    rw [← hc.1]; decide
  | .lit _ :: _, _, h => simp [accepts] at h
  | .lparen :: _, _, h => simp [accepts] at h

/-- Where an operand is due the next unit of a text of the grammar is a literal
or an opening parenthesis: the tokenizer finds it, and it is not a sign. -/
theorem accepts_before_fetch (depth : Nat) (ts : List Tok) (h : accepts false depth ts = true)
    (pre : Str) :
    ∃ next_val next_index, fetch_val (pre ++ tokText ts) pre.length
        = .ok (true, next_val, next_index) ∧ isSign (front next_val) = false := by
  match ts, h with
  | [], h => simp [accepts] at h
  | .lit l :: ts, h =>
    simp only [accepts, Bool.and_eq_true] at h
    refine ⟨l, pre.length + l.length, ?_, digit_not_sign _ (literal_front l h.1).2⟩
    have := fetch_val_literal pre l (tokText ts) h.1 (accepts_after_head depth ts h.2)
    simpa [tokText] using this
  | .lparen :: ts, _ =>
    refine ⟨['('], pre.length + 1, ?_, by decide⟩
    have := fetch_val_single pre (tokText ts) '(' (by decide) (by decide) (by decide) (by decide)
    simpa [tokText, Tok.text] using this
  | .oper _ :: _, h => simp [accepts] at h
  | .rparen :: _, h => simp [accepts] at h

/-- The token loop on a text of the grammar: from a state in which the stack has
the shape of the grammar and the validator gets through the output so far, the
call returns true. -/
theorem infix_to_rpn_loop_accepts {D : Type} (reg : Registry D) (hreg : registryOk reg = true)
    (ts : List Tok) :
    ∀ (after : Bool) (depth : Nat), accepts after depth ts = true →
    ∀ (pre av : Str) (op rpn_expr : List Str) (n fuel : Nat),
      (after = true → getType reg av = .OPERAND ∨ getType reg av = .CLOSE_PARENTHESIS) →
      StackShape op n depth →
      Runs reg rpn_expr 0 ((n : Int) + (if after then 1 else 0)) →
      ts.length < fuel →
      infix_to_rpn_loop reg fuel (pre ++ tokText ts) pre.length av op rpn_expr
        = ⟨.returned true, shunt ts op rpn_expr, []⟩ := by
  induction ts with
  | nil =>
    intro after depth hacc pre av op rpn_expr n fuel _ hs hr hfuel
    match after, depth, hacc with
    | true, 0, _ =>
      obtain ⟨fuel, rfl⟩ : ∃ f, fuel = f + 1 := ⟨fuel - 1, by omega⟩
      have hg := getOp_end reg (pre ++ tokText []) av
      simp only [tokText, List.map_nil, List.flatten_nil, List.append_nil] at hg ⊢
      rw [infix_to_rpn_loop, hg]
      simp only [shunt]
      exact finish_shape reg hreg op rpn_expr n [] hs (by simpa using hr)
    | true, _ + 1, h => simp [accepts] at h
    | false, _, h => simp [accepts] at h
  | cons t ts ih =>
    intro after depth hacc pre av op rpn_expr n fuel hav hs hr hfuel
    obtain ⟨fuel, rfl⟩ : ∃ f, fuel = f + 1 := ⟨fuel - 1, by simp at hfuel; omega⟩
    have hfuel2 : ts.length < fuel := by simp at hfuel; omega
    match after, depth, t, hacc with
    | false, depth, .lit l, hacc =>
      simp only [accepts, Bool.and_eq_true] at hacc
      have hg := getOp_literal reg pre l (tokText ts) av hacc.1
        (accepts_after_head depth ts hacc.2)
      have he : pre ++ tokText (Tok.lit l :: ts) = pre ++ l ++ tokText ts := by
        simp [tokText, Tok.text]
      rw [he, infix_to_rpn_loop, hg]
      simp only [shunt]
      have hr2 : Runs reg (rpn_expr ++ [l]) 0 ((n : Int) + 1) := by
        have := runs_snoc reg rpn_expr l 0 _ 1 hr (counterDelta_literal reg l hacc.1)
          (by have : (0 : Int) ≤ (n : Int) := Int.natCast_nonneg n
              simp only [Bool.false_eq_true, if_false]; omega)
        simpa using this
      have := ih true depth hacc.2 (pre ++ l) l op (rpn_expr ++ [l]) n fuel
        (fun _ => Or.inl (getType_literal reg l hacc.1)) hs (by simpa using hr2) hfuel2
      simpa using this
    | false, depth, .lparen, hacc =>
      simp only [accepts] at hacc
      have hg := getOp_open reg hreg pre (tokText ts) av
      have he : pre ++ tokText (Tok.lparen :: ts) = pre ++ '(' :: tokText ts := by
        simp [tokText, Tok.text]
      rw [he, infix_to_rpn_loop, hg]
      simp only [shunt]
      have := ih false (depth + 1) hacc (pre ++ ['(']) ['('] (['('] :: op) rpn_expr n fuel
        (by simp) (StackShape.paren op n depth hs) (by simpa using hr) hfuel2
      simpa using this
    | true, depth, .oper o, hacc =>
      simp only [accepts, Bool.and_eq_true] at hacc
      have hg : getOp reg (pre ++ o :: tokText ts) pre.length av =
          ⟨.ok (.OPERATOR, [o], pre ++ o :: tokText ts, pre.length + 1), [o]⟩ := by
        rcases basic_char_cases o hacc.1 with ho | ho | ho | ho
        · obtain ⟨nv, ni, h1, h2⟩ := accepts_before_fetch depth ts hacc.2 (pre ++ [o])
          exact getOp_binary_sign reg hreg pre (tokText ts) av o (Or.inl ho) nv ni
            (by simpa using h1) h2 (hav rfl)
        · obtain ⟨nv, ni, h1, h2⟩ := accepts_before_fetch depth ts hacc.2 (pre ++ [o])
          exact getOp_binary_sign reg hreg pre (tokText ts) av o (Or.inr ho) nv ni
            (by simpa using h1) h2 (hav rfl)
        · exact getOp_times reg hreg pre (tokText ts) av o (Or.inl ho)
        · exact getOp_times reg hreg pre (tokText ts) av o (Or.inr ho)
      have he : pre ++ tokText (Tok.oper o :: ts) = pre ++ o :: tokText ts := by
        simp [tokText, Tok.text]
      obtain ⟨op2, rpn2, n2, hp, hs2, hr2⟩ :=
        pop_operators_shape reg hreg o hacc.1 op rpn_expr n depth hs (by simpa using hr)
      rw [he, infix_to_rpn_loop, hg]
      simp only [shunt, hp]
      have := ih false depth hacc.2 (pre ++ [o]) [o] ([o] :: op2) rpn2 (n2 + 1) fuel
        (by simp) (StackShape.oper o op2 n2 depth hacc.1 hs2) (by simpa using hr2) hfuel2
      simpa using this
    | true, depth + 1, .rparen, hacc =>
      simp only [accepts] at hacc
      have hg := getOp_close reg hreg pre (tokText ts) av
      have he : pre ++ tokText (Tok.rparen :: ts) = pre ++ ')' :: tokText ts := by
        simp [tokText, Tok.text]
      obtain ⟨op2, rpn2, n2, hp, hs2, hr2⟩ :=
        pop_until_open_shape reg hreg op rpn_expr n depth hs (by simpa using hr)
      rw [he, infix_to_rpn_loop, hg]
      simp only [shunt, hp]
      have := ih true depth hacc (pre ++ [')']) [')'] op2 rpn2 n2 fuel
        (fun _ => Or.inr (getType_close reg hreg)) hs2 (by simpa using hr2) hfuel2
      simpa using this
    | false, _, .oper _, h => simp [accepts] at h
    | false, _, .rparen, h => simp [accepts] at h
    | true, _, .lit _, h => simp [accepts] at h
    | true, _, .lparen, h => simp [accepts] at h
    | true, 0, .rparen, h => simp [accepts] at h

theorem set_append_cons (pre rest : Str) (c c2 : Char) :
    (pre ++ c :: rest).set pre.length c2 = pre ++ c2 :: rest := by
  induction pre with
  | nil => rfl
  | cons a pre ih => simp [ih]

theorem filter_dropWhile_space (r : Str) :
    (r.dropWhile (fun c => c == ' ')).filter (fun c => c != ' ') = r.filter (fun c => c != ' ') := by
  induction r with
  | nil => rfl
  | cons a r ih =>
    by_cases h : a = ' '
    · subst h; simpa [List.dropWhile_cons] using ih
    · simp [List.dropWhile_cons, h]

theorem gapFree_dropWhile (r : Str) (h : gapFree r = true) :
    gapFree (r.dropWhile (fun c => c == ' ')) = true := by
  induction r with
  | nil => rfl
  | cons a r ih =>
    by_cases ha : a = ' '
    · subst ha
      simp only [gapFree, Bool.and_eq_true] at h
      simpa [List.dropWhile_cons] using ih h.2
    · simpa [List.dropWhile_cons, ha] using h

theorem length_dropWhile_le (r : Str) :
    (r.dropWhile (fun c => c == ' ')).length ≤ r.length := by
  induction r with
  | nil => simp
  | cons a r ih =>
    simp only [List.dropWhile_cons]
    split
    · simp; omega
    · simp

theorem charAt_append_length (a b : Str) : charAt (a ++ b) a.length = charAt b 0 := by
  induction a with
  | nil => rfl
  | cons x a ih => simpa [charAt] using ih

theorem charAt_skip (pre r : Str) (c : Char) :
    charAt (pre ++ c :: r)
      (pre.length + 1 + (r.takeWhile (fun c => c == ' ')).length) = nextVisible r := by
  have h1 : pre ++ c :: r = (pre ++ c :: r.takeWhile (fun c => c == ' '))
      ++ r.dropWhile (fun c => c == ' ') := by
    simp [List.takeWhile_append_dropWhile]
  have h2 : pre.length + 1 + (r.takeWhile (fun c => c == ' ')).length
      = (pre ++ c :: r.takeWhile (fun c => c == ' ')).length := by simp; omega
  rw [h2]
  conv_lhs => rw [h1]
  rw [charAt_append_length]
  rfl

theorem takeWhile_space_zero (r : Str) (h : r.head? ≠ some ' ') :
    r.takeWhile (fun c => c == ' ') = [] := by
  cases r with
  | nil => rfl
  | cons a r =>
    have : a ≠ ' ' := by simpa using h
    simp [List.takeWhile_cons, this]

/-- On a text in which no space separates what has to stay apart, the loop of
`adj_expr` deletes every space. -/
theorem adj_loop_gapFree (fuel : Nat) :
    ∀ (pre rem : Str), gapFree rem = true → rem.length < fuel →
      adj_loop fuel (pre ++ rem) pre.length false
        = .ok (pre ++ rem.filter (fun c => c != ' ')) := by
  induction fuel with
  | zero => intro pre rem _ h; omega
  | succ fuel ih =>
    intro pre rem hg hlen
    cases rem with
    | nil => simp [adj_loop]
    | cons c r =>
      have hlt : pre.length < (pre ++ c :: r).length := by simp
      simp only [gapFree, Bool.and_eq_true, Bool.or_eq_true, beq_iff_eq] at hg
      obtain ⟨hc, hgr⟩ := hg
      by_cases hsp : c = ' '
      · subst hsp
        have hsub : adj_subst ' ' = ' ' := by decide
        rw [adj_loop]
        simp only [hlt, if_true, charAt_append_cons, hsub, set_append_cons]
        have he : erase (pre ++ ' ' :: r) pre.length 1 = pre ++ r := by
          simp [erase]
        simp only [he]
        have := ih pre r hgr (by simp at hlen; omega)
        simpa using this
      · rcases hc with hc | ⟨hsub, hsep⟩
        · exact absurd hc hsp
        · rw [adj_loop]
          simp only [hlt, if_true, charAt_append_cons, hsub, set_append_cons, hsp, if_false]
          have hdrop : List.drop (pre.length + 1) (pre ++ c :: r) = r := by
            have : pre ++ c :: r = (pre ++ [c]) ++ r := by simp
            rw [this]; exact List.drop_left' (by simp)
          simp only [hdrop, charAt_skip]
          have hk : (pre.length + 1 + (r.takeWhile (fun c => c == ' ')).length - pre.length) - 1
              = (r.takeWhile (fun c => c == ' ')).length := by omega
          simp only [hk]
          have hns : (decide ((r.takeWhile (fun c => c == ' ')).length > 0) &&
              (islower c && islower (nextVisible r) ||
                isdigit c && (isdigit (nextVisible r) || nextVisible r == '.'))) = false := by
            by_cases hm : mustSeparate c (nextVisible r) = true
            · have hh : r.head? ≠ some ' ' := by simpa [hm] using hsep
              simp [takeWhile_space_zero r hh]
            · have hm2 : (islower c && islower (nextVisible r) ||
                  isdigit c && (isdigit (nextVisible r) || nextVisible r == '.')) = false := by
                simpa [mustSeparate] using hm
              rw [hm2]; simp
          simp only [hns, Bool.or_false, Bool.false_eq_true, false_and, if_false, Nat.sub_zero]
          have he : (if (r.takeWhile (fun c => c == ' ')).length > 0 then
                erase (pre ++ c :: r) (pre.length + 1) (r.takeWhile (fun c => c == ' ')).length
              else pre ++ c :: r) = (pre ++ [c]) ++ r.dropWhile (fun c => c == ' ') := by
            have hr : r = r.takeWhile (fun c => c == ' ') ++ r.dropWhile (fun c => c == ' ') :=
              (List.takeWhile_append_dropWhile _ r).symm
            split
            · unfold erase
              have h1 : List.take (pre.length + 1) (pre ++ c :: r) = pre ++ [c] := by
                have : pre ++ c :: r = (pre ++ [c]) ++ r := by simp
                rw [this]; exact List.take_left' (by simp)
              have h2 : List.drop (pre.length + 1 + (r.takeWhile (fun c => c == ' ')).length)
                  (pre ++ c :: r) = r.dropWhile (fun c => c == ' ') := by
                have : pre ++ c :: r = (pre ++ c :: r.takeWhile (fun c => c == ' '))
                    ++ r.dropWhile (fun c => c == ' ') := by
                  simp [List.takeWhile_append_dropWhile]
                rw [this]
                exact List.drop_left' (by simp; omega)
              rw [h1, h2]
            · rename_i hz
              have hz2 : r.takeWhile (fun c => c == ' ') = [] := by
                simpa using hz
              have : r.dropWhile (fun c => c == ' ') = r := by
                conv_rhs => rw [hr, hz2]
                simp
              rw [this]; simp
          rw [he]
          have hlen2 : (pre ++ [c]).length = pre.length + 1 := by simp
          rw [← hlen2]
          have := ih (pre ++ [c]) (r.dropWhile (fun c => c == ' ')) (gapFree_dropWhile r hgr)
            (by have := length_dropWhile_le r; simp at hlen; omega)
          rw [this, filter_dropWhile_space]
          simp [hsp]

theorem adj_expr_gapFree (s : Str) (h : gapFree s = true) :
    adj_expr s = .ok (s.filter (fun c => c != ' ')) := by
  unfold adj_expr
  cases s with
  | nil => rfl
  | cons c r =>
    simp only [List.isEmpty_cons, Bool.false_eq_true, if_false]
    have := adj_loop_gapFree ((c :: r).length + 1) [] (c :: r) h (by omega)
    simpa using this

theorem nextVisible_append_char (x y : Str) (o : Char) (ho : o ≠ ' ') :
    nextVisible (x ++ o :: y) = nextVisible x ∨ nextVisible (x ++ o :: y) = o := by
  induction x with
  | nil => right; simp [nextVisible, List.dropWhile_cons, ho, charAt]
  | cons a x ih =>
    by_cases ha : a = ' '
    · subst ha
      simpa [nextVisible, List.dropWhile_cons] using ih
    · left; simp [nextVisible, List.dropWhile_cons, ha, charAt]

theorem nextVisible_append_space (x : Str) : nextVisible (x ++ [' ']) = nextVisible x := by
  induction x with
  | nil => rfl
  | cons a x ih =>
    by_cases ha : a = ' '
    · subst ha
      simpa [nextVisible, List.dropWhile_cons] using ih
    · simp [nextVisible, List.dropWhile_cons, ha, charAt]

theorem mustSeparate_nul (c : Char) : mustSeparate c '\x00' = false := by
  have h1 : islower '\x00' = false := by decide
  have h2 : isdigit '\x00' = false := by decide
  simp [mustSeparate, h1, h2]

theorem gapFree_append_char (x y : Str) (o : Char) (ho : o ≠ ' ')
    (hsep : ∀ c, mustSeparate c o = false) (hx : gapFree x = true)
    (hy : gapFree (o :: y) = true) : gapFree (x ++ o :: y) = true := by
  induction x with
  | nil => simpa using hy
  | cons c x ih =>
    simp only [gapFree, Bool.and_eq_true, Bool.or_eq_true, beq_iff_eq, bne_iff_ne,
      Bool.not_eq_true'] at hx
    obtain ⟨hc, hx2⟩ := hx
    simp only [List.cons_append, gapFree, Bool.and_eq_true, Bool.or_eq_true, beq_iff_eq,
      bne_iff_ne, Bool.not_eq_true']
    refine ⟨?_, ih hx2⟩
    rcases hc with hc | ⟨hsub, hc2⟩
    · exact Or.inl hc
    · refine Or.inr ⟨hsub, ?_⟩
      cases x with
      | nil => right; simpa using ho
      | cons a x =>
        simp only [List.append_eq]
        rcases hc2 with hc2 | hc2
        · rcases nextVisible_append_char (a :: x) y o ho with h | h
          · left; rw [h]; exact hc2
          · left; rw [h]; exact hsep c
        · right; simpa using hc2

theorem gapFree_append_space (x : Str) (hx : gapFree x = true) :
    gapFree (x ++ [' ']) = true := by
  induction x with
  | nil => rfl
  | cons c x ih =>
    simp only [gapFree, Bool.and_eq_true, Bool.or_eq_true, beq_iff_eq, bne_iff_ne,
      Bool.not_eq_true'] at hx
    obtain ⟨hc, hx2⟩ := hx
    simp only [List.cons_append, gapFree, Bool.and_eq_true, Bool.or_eq_true, beq_iff_eq,
      bne_iff_ne, Bool.not_eq_true']
    refine ⟨?_, ih hx2⟩
    rcases hc with hc | ⟨hsub, hc2⟩
    · exact Or.inl hc
    · refine Or.inr ⟨hsub, ?_⟩
      cases x with
      | nil => left; exact mustSeparate_nul c
      | cons a x =>
        simp only [List.append_eq]
        rw [nextVisible_append_space]
        rcases hc2 with hc2 | hc2
        · exact Or.inl hc2
        · right; simpa using hc2

theorem adj_subst_digit (c : Char) (h : (isdigit c || c == '.') = true) : adj_subst c = c := by
  rcases Bool.or_eq_true _ _ ▸ h with h | h
  · simp only [isdigit, Bool.and_eq_true, decide_eq_true_eq] at h
    have h1 : c ≠ '\t' := by rintro rfl; simp at h
    have h2 : c ≠ '{' := by rintro rfl; simp at h
    have h3 : c ≠ '[' := by rintro rfl; simp at h
    have h4 : c ≠ '}' := by rintro rfl; simp at h
    have h5 : c ≠ ']' := by rintro rfl; simp at h
    simp [adj_subst, h1, h2, h3, h4, h5]
  · have : c = '.' := by simpa using h
    subst this; decide

theorem gapFree_digits (l : Str) (h : l.all (fun c => isdigit c || c == '.') = true) :
    gapFree l = true := by
  induction l with
  | nil => rfl
  | cons c l ih =>
    simp only [List.all_cons, Bool.and_eq_true] at h
    simp only [gapFree, Bool.and_eq_true, Bool.or_eq_true, beq_iff_eq, bne_iff_ne,
      Bool.not_eq_true']
    refine ⟨Or.inr ⟨adj_subst_digit c h.1, Or.inr ?_⟩, ih h.2⟩
    cases l with
    | nil => simp
    | cons a l =>
      simp only [List.all_cons, Bool.and_eq_true] at h
      have := digit_not_space a h.2.1
      simpa using this

theorem mustSeparate_left_false (o c : Char) (h1 : islower o = false) (h2 : isdigit o = false) :
    mustSeparate o c = false := by
  simp [mustSeparate, h1, h2]

theorem mustSeparate_right_false (c o : Char) (h1 : islower o = false) (h2 : isdigit o = false)
    (h3 : o ≠ '.') : mustSeparate c o = false := by
  simp [mustSeparate, h1, h2, h3]

theorem gapFree_cons_plain (o : Char) (y : Str) (h0 : adj_subst o = o)
    (h1 : islower o = false) (h2 : isdigit o = false) (hy : gapFree y = true) :
    gapFree (o :: y) = true := by
  simp only [gapFree, Bool.and_eq_true, Bool.or_eq_true, beq_iff_eq, bne_iff_ne,
    Bool.not_eq_true']
  exact ⟨Or.inr ⟨h0, Or.inl (mustSeparate_left_false o _ h1 h2)⟩, hy⟩

/-- In a text of the grammar no two characters that `adj_expr` keeps apart are
separated by spaces. -/
theorem wellFormed_gapFree (s : Str) (h : WellFormedExpr s) : gapFree s = true := by
  induction h with
  | literal l hl =>
    simp only [isLiteral, Bool.and_eq_true] at hl
    exact gapFree_digits l hl.1.1
  | binary x o y _ ho _ ihx ihy =>
    have hy : gapFree (o :: y) = true := by
      rcases basic_char_cases o ho with rfl | rfl | rfl | rfl <;>
        exact gapFree_cons_plain _ y (by decide) (by decide) (by decide) ihy
    have hsep : ∀ c, mustSeparate c o = false := by
      intro c
      rcases basic_char_cases o ho with rfl | rfl | rfl | rfl <;>
        exact mustSeparate_right_false c _ (by decide) (by decide) (by decide)
    have hne : o ≠ ' ' := by
      rcases basic_char_cases o ho with rfl | rfl | rfl | rfl <;> decide
    exact gapFree_append_char x y o hne hsep ihx hy
  | paren x _ ih =>
    have h1 : gapFree (x ++ ')' :: []) = true :=
      gapFree_append_char x [] ')' (by decide)
        (fun c => mustSeparate_right_false c _ (by decide) (by decide) (by decide)) ih
        (by decide)
    exact gapFree_cons_plain '(' _ (by decide) (by decide) (by decide) h1
  | space_before x _ ih => simpa [gapFree] using ih
  | space_after x _ ih => exact gapFree_append_space x ih

theorem filter_digits (l : Str) (h : l.all (fun c => isdigit c || c == '.') = true) :
    l.filter (fun c => c != ' ') = l := by
  rw [List.filter_eq_self]
  intro a ha
  rw [List.all_eq_true] at h
  have := digit_not_space a (h a ha)
  simpa using this

/-- A text of the grammar without its spaces is the text of a token sequence
that the recognizer accepts. -/
theorem wellFormed_tokens (s : Str) (h : WellFormedExpr s) :
    ∃ ts : List Tok, s.filter (fun c => c != ' ') = tokText ts ∧ ts.length ≤ s.length ∧
      ∀ depth rest, accepts false depth (ts ++ rest) = accepts true depth rest := by
  induction h with
  | literal l hl =>
    refine ⟨[.lit l], ?_, ?_, ?_⟩
    · simp only [isLiteral, Bool.and_eq_true] at hl
      simp [tokText, Tok.text, filter_digits l hl.1.1]
    · obtain ⟨hne, -⟩ := literal_front l hl
      cases l with
      | nil => exact absurd rfl hne
      | cons _ _ => simp
    · intro depth rest
      simp [accepts, hl]
  | binary x o y _ ho _ ihx ihy =>
    obtain ⟨tx, hx1, hx2, hx3⟩ := ihx
    obtain ⟨ty, hy1, hy2, hy3⟩ := ihy
    refine ⟨tx ++ .oper o :: ty, ?_, ?_, ?_⟩
    · have hne : o ≠ ' ' := by
        rcases basic_char_cases o ho with rfl | rfl | rfl | rfl <;> decide
      simp [tokText, Tok.text, List.filter_cons, hne] at hx1 hy1 ⊢
      rw [hx1, hy1]
    · simp; omega
    · intro depth rest
      rw [List.append_assoc, hx3, List.cons_append]
      simp only [accepts, ho, Bool.true_and]
      exact hy3 depth rest
  | paren x _ ih =>
    obtain ⟨tx, hx1, hx2, hx3⟩ := ih
    refine ⟨.lparen :: (tx ++ [.rparen]), ?_, ?_, ?_⟩
    · simp [tokText, Tok.text, List.filter_cons] at hx1 ⊢
      rw [hx1]
    · simp; omega
    · intro depth rest
      have := hx3 (depth + 1) (.rparen :: rest)
      simp only [List.cons_append, List.append_assoc, List.nil_append, accepts] at this ⊢
      simpa [accepts] using this
  | space_before x _ ih =>
    obtain ⟨tx, hx1, hx2, hx3⟩ := ih
    exact ⟨tx, by simpa [List.filter_cons] using hx1, by simp; omega, hx3⟩
  | space_after x _ ih =>
    obtain ⟨tx, hx1, hx2, hx3⟩ := ih
    exact ⟨tx, by simpa [List.filter_append] using hx1, by simp; omega, hx3⟩

/-- On a text of the grammar `infix_to_rpn` returns true with the output that
`shunt` reads off its lexical units, and leaves the static `actual_val` empty. -/
theorem infix_to_rpn_tokens {D : Type} (reg : Registry D) (hreg : registryOk reg = true)
    (s : Str) (hs : WellFormedExpr s) (ts : List Tok)
    (h1 : s.filter (fun c => c != ' ') = tokText ts) (hacc : accepts false 0 ts = true)
    (actual_val : Str) (fuel : Nat) (hfuel : ts.length < fuel) :
    infix_to_rpn fuel reg actual_val s = ⟨.returned true, shunt ts [] [], []⟩ := by
  have hout := infix_to_rpn_loop_accepts reg hreg ts false 0 hacc [] actual_val [] []
    0 fuel (by simp) StackShape.nil (by simpa using runs_nil reg 0) hfuel
  unfold infix_to_rpn
  rw [adj_expr_gapFree s (wellFormed_gapFree s hs), h1]
  simp only []
  simpa using hout

/-- C1: on every text of the grammar `E ::= literal | E op E | ( E )` (unsigned
numeric literals, the operators `+ - * /`, spaces between the tokens), for any
registry of lowercase names and whatever the static `actual_val` holds,
`infix_to_rpn` returns true as soon as the fuel exceeds the length of the text:
it neither returns false nor raises. -/
theorem infix_to_rpn_wellFormed {D : Type} (reg : Registry D) (hreg : registryOk reg = true)
    (s : Str) (hs : WellFormedExpr s) (actual_val : Str) (fuel : Nat) (hfuel : s.length < fuel) :
    (infix_to_rpn fuel reg actual_val s).result = .returned true := by
  obtain ⟨ts, h1, h2, h3⟩ := wellFormed_tokens s hs
  have hacc : accepts false 0 ts = true := by
    have := h3 0 []
    simpa [accepts] using this
  rw [infix_to_rpn_tokens reg hreg s hs ts h1 hacc actual_val fuel (by omega)]

theorem infix_to_rpn_wellFormed_witness :
    registryOk ([] : Registry ℚ) = true ∧
    WellFormedExpr ['(', '1', ' ', '+', ' ', '2', ')', ' ', '*', ' ', '3'] ∧
    ['(', '1', ' ', '+', ' ', '2', ')', ' ', '*', ' ', '3'].length < 12 ∧
    (infix_to_rpn 12 ([] : Registry ℚ) []
      ['(', '1', ' ', '+', ' ', '2', ')', ' ', '*', ' ', '3']).result = .returned true :=
  have hwf : WellFormedExpr ['(', '1', ' ', '+', ' ', '2', ')', ' ', '*', ' ', '3'] :=
    WellFormedExpr.binary ['(', '1', ' ', '+', ' ', '2', ')', ' '] '*' [' ', '3']
      (WellFormedExpr.space_after ['(', '1', ' ', '+', ' ', '2', ')']
        (WellFormedExpr.paren ['1', ' ', '+', ' ', '2']
          (WellFormedExpr.binary ['1', ' '] '+' [' ', '2']
            (WellFormedExpr.space_after ['1'] (WellFormedExpr.literal ['1'] rfl)) rfl
            (WellFormedExpr.space_before ['2'] (WellFormedExpr.literal ['2'] rfl)))))
      rfl
      (WellFormedExpr.space_before ['3'] (WellFormedExpr.literal ['3'] rfl))
  ⟨rfl, hwf, by decide, infix_to_rpn_wellFormed [] rfl _ hwf [] 12 (by decide)⟩

theorem wellFormed_spaced (x y : Str) (o : Char) (hx : WellFormedExpr x)
    (ho : isBasicOperatorChar o = true) (hy : WellFormedExpr y) :
    WellFormedExpr (x ++ [' ', o, ' '] ++ y) := by
  have := WellFormedExpr.binary (x ++ [' ']) o (' ' :: y)
    (WellFormedExpr.space_after x hx) ho (WellFormedExpr.space_before y hy)
  simpa using this

theorem filter_literal (l : Str) (hl : isLiteral l = true) :
    l.filter (fun c => c != ' ') = l := by
  simp only [isLiteral, Bool.and_eq_true] at hl
  exact filter_digits l hl.1.1

theorem literal_length_pos (l : Str) (hl : isLiteral l = true) : 0 < l.length := by
  obtain ⟨hne, -⟩ := literal_front l hl
  cases l with
  | nil => exact absurd rfl hne
  | cons _ _ => simp

theorem isOperand_of_literal_reg {D : Type} (reg : Registry D) (hreg : registryOk reg = true)
    (l : Str) (hl : isLiteral l = true) : isAdditionalOperand reg l = false := by
  obtain ⟨hne, hfront⟩ := literal_front l hl
  cases l with
  | nil => exact absurd rfl hne
  | cons c l =>
    exact isAdditionalOperand_false_of_not_lower reg hreg c l (digit_not_lower c hfront)

/-- C7: for all unsigned numeric literals `a`, `b`, `c` the text `a + b * c` is
converted to `[a, b, c, *, +]` and `a * b + c` to `[a, b, *, c, +]`; the
sequence `[3, 4, 2, *, +]` evaluates to `3 + 4 * 2` in every arithmetic, which
is `(true, 11)` in exact arithmetic. -/
theorem infix_to_rpn_precedence {D : Type} (reg : Registry D) (hreg : registryOk reg = true)
    (a b c : Str) (ha : isLiteral a = true) (hb : isLiteral b = true) (hc : isLiteral c = true)
    (actual_val : Str) (fuel : Nat)
    (hfuel : (a ++ [' ', '+', ' '] ++ b ++ [' ', '*', ' '] ++ c).length < fuel) :
    infix_to_rpn fuel reg actual_val (a ++ [' ', '+', ' '] ++ b ++ [' ', '*', ' '] ++ c)
      = ⟨.returned true, [a, b, c, ['*'], ['+']], []⟩ ∧
    infix_to_rpn fuel reg actual_val (a ++ [' ', '*', ' '] ++ b ++ [' ', '+', ' '] ++ c)
      = ⟨.returned true, [a, b, ['*'], c, ['+']], []⟩ ∧
    (∀ (A : Arith D) (x3 x4 x2 : D), A.stod ['3'] = some x3 → A.stod ['4'] = some x4 →
      A.stod ['2'] = some x2 →
      evaluate A reg [['3'], ['4'], ['2'], ['*'], ['+']]
        = .returned true (A.add x3 (A.mul x4 x2))) ∧
    (∀ wfunc, evaluate (exactArith wfunc) [] [['3'], ['4'], ['2'], ['*'], ['+']]
      = .returned true 11) := by
  have hla := literal_length_pos a ha
  have hlb := literal_length_pos b hb
  have hlc := literal_length_pos c hc
  have hp1 : precedence ['+'] = .ok 1 := rfl
  have hp2 : precedence ['*'] = .ok 2 := rfl
  refine ⟨?_, ?_, ?_, ?_⟩
  · have hwf : WellFormedExpr (a ++ [' ', '+', ' '] ++ b ++ [' ', '*', ' '] ++ c) := by
      have h1 := wellFormed_spaced b c '*' (.literal b hb) rfl (.literal c hc)
      have h2 := wellFormed_spaced a _ '+' (.literal a ha) rfl h1
      simpa using h2
    rw [infix_to_rpn_tokens reg hreg _ hwf [.lit a, .oper '+', .lit b, .oper '*', .lit c]
      (by simp [tokText, Tok.text, filter_literal, ha, hb, hc, List.filter_cons])
      (by simp [accepts, ha, hb, hc, isBasicOperatorChar]) actual_val fuel
      (by simp at hfuel ⊢; omega)]
    simp [shunt, pop_operators, hp1, hp2]
  · have hwf : WellFormedExpr (a ++ [' ', '*', ' '] ++ b ++ [' ', '+', ' '] ++ c) := by
      have h1 := wellFormed_spaced b c '+' (.literal b hb) rfl (.literal c hc)
      have h2 := wellFormed_spaced a _ '*' (.literal a ha) rfl h1
      simpa using h2
    rw [infix_to_rpn_tokens reg hreg _ hwf [.lit a, .oper '*', .lit b, .oper '+', .lit c]
      (by simp [tokText, Tok.text, filter_literal, ha, hb, hc, List.filter_cons])
      (by simp [accepts, ha, hb, hc, isBasicOperatorChar]) actual_val fuel
      (by simp at hfuel ⊢; omega)]
    simp [shunt, pop_operators, hp1, hp2]
  · intro A x3 x4 x2 h3 h4 h2
    have o3 := isOperand_literal reg ['3'] rfl
    have o4 := isOperand_literal reg ['4'] rfl
    have o2 := isOperand_literal reg ['2'] rfl
    have r3 := isOperand_of_literal_reg reg hreg ['3'] rfl
    have r4 := isOperand_of_literal_reg reg hreg ['4'] rfl
    have r2 := isOperand_of_literal_reg reg hreg ['2'] rfl
    have om := isOperand_single reg hreg '*' (by decide) (by decide) (by decide)
    have op := isOperand_single reg hreg '+' (by decide) (by decide) (by decide)
    have bm : isBasicOperator ['*'] = true := rfl
    have bp : isBasicOperator ['+'] = true := rfl
    have hchk : checkRpn reg [['3'], ['4'], ['2'], ['*'], ['+']] = .ok true := by
      simp [checkRpn, checkRpn_loop, o3, o4, o2, om, op, bm, bp]
    simp [evaluate, hchk, evaluate_loop, evaluate_step, o3, o4, o2, r3, r4, r2, om, op, bm, bp,
      h3, h4, h2, front]
  · intro wfunc
    have h3 : exact_stod ['3'] = some 3 := by
      simp [exact_stod, front, isSign, isdigit, decimal_value, digit_value]
    have h4 : exact_stod ['4'] = some 4 := by
      simp [exact_stod, front, isSign, isdigit, decimal_value, digit_value]
    have h2 : exact_stod ['2'] = some 2 := by
      simp [exact_stod, front, isSign, isdigit, decimal_value, digit_value]
    have hchk : checkRpn ([] : Registry ℚ) [['3'], ['4'], ['2'], ['*'], ['+']] = .ok true := rfl
    simp [evaluate, hchk, evaluate_loop, evaluate_step, isOperand, isAdditionalOperand,
      isBasicOperator, front, isSign, isdigit, exactArith, h3, h4, h2]
    norm_num

theorem infix_to_rpn_precedence_witness :
    registryOk ([] : Registry ℚ) = true ∧ isLiteral ['3'] = true ∧ isLiteral ['4'] = true ∧
    isLiteral ['2'] = true ∧
    infix_to_rpn 10 ([] : Registry ℚ) [] ['3', ' ', '+', ' ', '4', ' ', '*', ' ', '2']
      = ⟨.returned true, [['3'], ['4'], ['2'], ['*'], ['+']], []⟩ ∧
    evaluate (exactArith (fun _ _ => (false, 0))) [] [['3'], ['4'], ['2'], ['*'], ['+']]
      = .returned true 11 :=
  ⟨rfl, rfl, rfl, rfl,
    (infix_to_rpn_precedence ([] : Registry ℚ) rfl ['3'] ['4'] ['2'] rfl rfl rfl [] 10
      (by decide)).1,
    (infix_to_rpn_precedence ([] : Registry ℚ) rfl ['3'] ['4'] ['2'] rfl rfl rfl [] 10
      (by decide)).2.2.2 _⟩

theorem chainToks_cons (o : Char) (a2 : Str) (rest : List (Char × Str)) :
    chainToks ((o, a2) :: rest) = .oper o :: .lit a2 :: chainToks rest := by
  simp [chainToks]

theorem chainText_cons (a1 : Str) (o : Char) (a2 : Str) (rest : List (Char × Str)) :
    chainText a1 ((o, a2) :: rest) = a1 ++ [' ', o, ' '] ++ chainText a2 rest := by
  simp [chainText]

theorem chainText_wellFormed (rest : List (Char × Str)) :
    ∀ a1 : Str, isLiteral a1 = true → (∀ p ∈ rest, isLiteral p.2 = true) →
      (∀ p ∈ rest, isBasicOperatorChar p.1 = true) → WellFormedExpr (chainText a1 rest) := by
  induction rest with
  | nil => intro a1 ha1 _ _; simpa [chainText] using WellFormedExpr.literal a1 ha1
  | cons p rest ih =>
    intro a1 ha1 hl ho
    obtain ⟨o, a2⟩ := p
    rw [chainText_cons]
    exact wellFormed_spaced a1 _ o (.literal a1 ha1) (ho (o, a2) (by simp))
      (ih a2 (hl (o, a2) (by simp)) (fun p hp => hl p (List.mem_cons_of_mem _ hp))
        (fun p hp => ho p (List.mem_cons_of_mem _ hp)))

theorem chainText_filter (rest : List (Char × Str)) :
    ∀ a1 : Str, isLiteral a1 = true → (∀ p ∈ rest, isLiteral p.2 = true) →
      (∀ p ∈ rest, isBasicOperatorChar p.1 = true) →
      (chainText a1 rest).filter (fun c => c != ' ') = tokText (.lit a1 :: chainToks rest) := by
  induction rest with
  | nil => intro a1 ha1 _ _; simp [chainText, chainToks, tokText, Tok.text, filter_literal a1 ha1]
  | cons p rest ih =>
    intro a1 ha1 hl ho
    obtain ⟨o, a2⟩ := p
    have hne : o ≠ ' ' := by
      rcases basic_char_cases o (ho (o, a2) (by simp)) with rfl | rfl | rfl | rfl <;> decide
    have := ih a2 (hl (o, a2) (by simp)) (fun p hp => hl p (List.mem_cons_of_mem _ hp))
      (fun p hp => ho p (List.mem_cons_of_mem _ hp))
    rw [chainText_cons]
    simp only [List.filter_append, filter_literal a1 ha1, this]
    simp [chainToks, tokText, Tok.text, List.filter_cons, hne]

theorem chainToks_accepts (rest : List (Char × Str)) (hl : ∀ p ∈ rest, isLiteral p.2 = true)
    (ho : ∀ p ∈ rest, isBasicOperatorChar p.1 = true) : accepts true 0 (chainToks rest) = true := by
  induction rest with
  | nil => rfl
  | cons p rest ih =>
    obtain ⟨o, a2⟩ := p
    have := ih (fun p hp => hl p (List.mem_cons_of_mem _ hp))
      (fun p hp => ho p (List.mem_cons_of_mem _ hp))
    have h1 : isBasicOperatorChar o = true := ho (o, a2) (by simp)
    have h2 : isLiteral a2 = true := hl (o, a2) (by simp)
    rw [chainToks_cons]
    simp only [accepts, h1, h2, Bool.true_and]
    exact this

theorem chainText_length (rest : List (Char × Str)) :
    ∀ a1 : Str, (chainToks rest).length + a1.length ≤ (chainText a1 rest).length := by
  induction rest with
  | nil => intro a1; simp [chainText, chainToks]
  | cons p rest ih =>
    intro a1
    obtain ⟨o, a2⟩ := p
    have := ih a2
    rw [chainText_cons, chainToks_cons]
    simp only [List.length_append, List.length_cons, List.length_nil] at this ⊢
    omega

/-- The stack moves on a chain of operators of one precedence tier: nothing is
popped, so the operators leave the stack in reverse at the end. -/
theorem shunt_chain (tier : Nat) (rest : List (Char × Str)) :
    ∀ (op rpn_expr : List Str),
      (∀ p ∈ rest, isBasicOperatorChar p.1 = true ∧
        (if p.1 = '+' ∨ p.1 = '-' then 1 else 2) = tier) →
      (∀ top op2, op = top :: op2 → ∃ o2, top = [o2] ∧ isBasicOperatorChar o2 = true ∧
        (if o2 = '+' ∨ o2 = '-' then 1 else 2) = tier) →
      shunt (chainToks rest) op rpn_expr
        = rpn_expr ++ rest.map (fun p => p.2) ++ (rest.map (fun p => [p.1])).reverse ++ op := by
  induction rest with
  | nil => intro op rpn_expr _ _; simp [chainToks, shunt]
  | cons p rest ih =>
    intro op rpn_expr ht hop
    obtain ⟨o, a2⟩ := p
    obtain ⟨ho, hto⟩ := ht (o, a2) (by simp)
    have hpop : pop_operators [o] op rpn_expr = .ok (op, rpn_expr) := by
      cases op with
      | nil => rfl
      | cons top op2 =>
        obtain ⟨o2, rfl, ho2, hto2⟩ := hop top op2 rfl
        simp only [pop_operators, precedence_basic o ho, precedence_basic o2 ho2]
        simp only [] at hto
        rw [hto, hto2]
        simp
    rw [chainToks_cons]
    simp only [shunt, hpop]
    have := ih ([o] :: op) (rpn_expr ++ [a2])
      (fun p hp => ht p (List.mem_cons_of_mem _ hp))
      (by
        intro top op2 h
        simp only [List.cons.injEq] at h
        exact ⟨o, h.1.symm, ho, hto⟩)
    rw [this]
    simp

/-- C6: operators of one precedence tier group to the right. For unsigned
numeric literals `a1, ..., an` joined by operators `o1, ..., o(n-1)` that are
all in `{+, -}` or all in `{*, /}`, the text `a1 o1 a2 ... o(n-1) an` is
converted to `[a1, ..., an, o(n-1), ..., o1]`; the sequence `[8, 3, 2, -, -]`
evaluates to `8 - (3 - 2)` in every arithmetic, which is `(true, 7)` in exact
arithmetic. -/
theorem infix_to_rpn_same_tier {D : Type} (reg : Registry D) (hreg : registryOk reg = true)
    (a1 : Str) (rest : List (Char × Str)) (ha1 : isLiteral a1 = true)
    (hrest : ∀ p ∈ rest, isLiteral p.2 = true)
    (htier : (∀ p ∈ rest, p.1 = '+' ∨ p.1 = '-') ∨ (∀ p ∈ rest, p.1 = '*' ∨ p.1 = '/'))
    (actual_val : Str) (fuel : Nat) (hfuel : (chainText a1 rest).length < fuel) :
    infix_to_rpn fuel reg actual_val (chainText a1 rest)
      = ⟨.returned true,
          a1 :: rest.map (fun p => p.2) ++ (rest.map (fun p => [p.1])).reverse, []⟩ ∧
    (∀ (A : Arith D) (x8 x3 x2 : D), A.stod ['8'] = some x8 → A.stod ['3'] = some x3 →
      A.stod ['2'] = some x2 →
      evaluate A reg [['8'], ['3'], ['2'], ['-'], ['-']]
        = .returned true (A.sub x8 (A.sub x3 x2))) ∧
    (∀ wfunc, evaluate (exactArith wfunc) [] [['8'], ['3'], ['2'], ['-'], ['-']]
      = .returned true 7) := by
  refine ⟨?_, ?_, ?_⟩
  · obtain ⟨tier, ht⟩ : ∃ tier, ∀ p ∈ rest, isBasicOperatorChar p.1 = true ∧
        (if p.1 = '+' ∨ p.1 = '-' then 1 else 2) = tier := by
      rcases htier with h | h
      · refine ⟨1, fun p hp => ?_⟩
        rcases h p hp with h2 | h2 <;> simp [h2, isBasicOperatorChar]
      · refine ⟨2, fun p hp => ?_⟩
        rcases h p hp with h2 | h2 <;> simp [h2, isBasicOperatorChar]
    have ho : ∀ p ∈ rest, isBasicOperatorChar p.1 = true := fun p hp => (ht p hp).1
    have hlen := chainText_length rest a1
    have hpos := literal_length_pos a1 ha1
    rw [infix_to_rpn_tokens reg hreg _ (chainText_wellFormed rest a1 ha1 hrest ho)
      (.lit a1 :: chainToks rest) (chainText_filter rest a1 ha1 hrest ho)
      (by simp [accepts, ha1, chainToks_accepts rest hrest ho]) actual_val fuel
      (by simp only [List.length_cons]; omega)]
    simp only [shunt]
    rw [shunt_chain tier rest [] ([] ++ [a1]) ht (by intro top op2 h; cases h)]
    simp
  · intro A x8 x3 x2 h8 h3 h2
    have o8 := isOperand_literal reg ['8'] rfl
    have o3 := isOperand_literal reg ['3'] rfl
    have o2 := isOperand_literal reg ['2'] rfl
    have r8 := isOperand_of_literal_reg reg hreg ['8'] rfl
    have r3 := isOperand_of_literal_reg reg hreg ['3'] rfl
    have r2 := isOperand_of_literal_reg reg hreg ['2'] rfl
    have om := isOperand_single reg hreg '-' (by decide) (by decide) (by decide)
    have bm : isBasicOperator ['-'] = true := rfl
    have hchk : checkRpn reg [['8'], ['3'], ['2'], ['-'], ['-']] = .ok true := by
      simp [checkRpn, checkRpn_loop, o8, o3, o2, om, bm]
    simp [evaluate, hchk, evaluate_loop, evaluate_step, o8, o3, o2, r8, r3, r2, om, bm,
      h8, h3, h2, front]
  · intro wfunc
    have h8 : exact_stod ['8'] = some 8 := by
      simp [exact_stod, front, isSign, isdigit, decimal_value, digit_value]
    have h3 : exact_stod ['3'] = some 3 := by
      simp [exact_stod, front, isSign, isdigit, decimal_value, digit_value]
    have h2 : exact_stod ['2'] = some 2 := by
      simp [exact_stod, front, isSign, isdigit, decimal_value, digit_value]
    have hchk : checkRpn ([] : Registry ℚ) [['8'], ['3'], ['2'], ['-'], ['-']] = .ok true := rfl
    simp [evaluate, hchk, evaluate_loop, evaluate_step, isOperand, isAdditionalOperand,
      isBasicOperator, front, isSign, isdigit, exactArith, h8, h3, h2]
    norm_num

theorem infix_to_rpn_same_tier_witness :
    registryOk ([] : Registry ℚ) = true ∧ isLiteral ['8'] = true ∧
    (∀ p ∈ [('-', ['3']), ('-', ['2'])], isLiteral p.2 = true) ∧
    ((∀ p ∈ [('-', ['3']), ('-', ['2'])], p.1 = '+' ∨ p.1 = '-') ∨
      (∀ p ∈ [('-', ['3']), ('-', ['2'])], p.1 = '*' ∨ p.1 = '/')) ∧
    chainText ['8'] [('-', ['3']), ('-', ['2'])] = ['8', ' ', '-', ' ', '3', ' ', '-', ' ', '2'] ∧
    infix_to_rpn 10 ([] : Registry ℚ) [] ['8', ' ', '-', ' ', '3', ' ', '-', ' ', '2']
      = ⟨.returned true, [['8'], ['3'], ['2'], ['-'], ['-']], []⟩ ∧
    evaluate (exactArith (fun _ _ => (false, 0))) [] [['8'], ['3'], ['2'], ['-'], ['-']]
      = .returned true 7 :=
  ⟨rfl, rfl, by decide, Or.inl (by decide), rfl,
    (infix_to_rpn_same_tier ([] : Registry ℚ) rfl ['8'] [('-', ['3']), ('-', ['2'])] rfl
      (by decide) (Or.inl (by decide)) [] 10 (by decide)).1,
    (infix_to_rpn_same_tier ([] : Registry ℚ) rfl ['8'] [('-', ['3']), ('-', ['2'])] rfl
      (by decide) (Or.inl (by decide)) [] 10 (by decide)).2.2 _⟩

/-- C8 (defect of the code): `infix_to_rpn` never calls `check_parenthesis`. On
`1 + 2)`, which `check_parenthesis` rejects, the closing parenthesis empties the
operator stack and the `op.pop()` behind the loop pops the empty stack, which is
undefined behaviour and not a failure of the call; on `(1 + 2` the opening
parenthesis reaches the output and the validator makes the call return false. -/
theorem infix_to_rpn_unbalanced_close_pops_empty_stack :
    check_parenthesis ['1', '+', '2', ')'] = false ∧
    infix_to_rpn 10 ([] : Registry ℚ) [] ['1', ' ', '+', ' ', '2', ')']
      = ⟨.undefined_behaviour, [['1'], ['2'], ['+']], [')']⟩ ∧
    check_parenthesis ['(', '1', '+', '2'] = false ∧
    infix_to_rpn 10 ([] : Registry ℚ) [] ['(', '1', ' ', '+', ' ', '2']
      = ⟨.returned false, [], []⟩ := by
  decide

theorem registryOk_filter {D : Type} (reg : Registry D) (p : Str × D → Bool)
    (h : registryOk reg = true) : registryOk (reg.filter p) = true := by
  unfold registryOk at *
  rw [List.all_eq_true] at *
  intro e he
  exact h e (List.mem_of_mem_filter he)

/-- The registry starts empty, and `add_operand`, `remove_operand` and
`clear_all_operands` keep every name in it made of lowercase letters. -/
theorem registryOk_preserved {D : Type} (A : Arith D) (reg : Registry D)
    (h : registryOk reg = true) (op_name : Str) (op_value : D) :
    registryOk ([] : Registry D) = true ∧
    registryOk (add_operand A reg op_name op_value).2 = true ∧
    registryOk (remove_operand reg op_name).2 = true ∧
    registryOk (clear_all_operands reg) = true := by
  refine ⟨rfl, ?_, ?_, rfl⟩
  · unfold add_operand
    split
    · exact h
    · split
      · exact h
      · rename_i hl
        have hl2 : op_name.all islower = true := by simpa using hl
        have := registryOk_filter reg (fun e => e.1 != op_name) h
        simp only [registryOk, List.all_cons, Bool.and_eq_true] at this ⊢
        exact ⟨hl2, this⟩
  · unfold remove_operand
    split
    · exact h
    · exact registryOk_filter reg _ h

theorem drop_eq_charAt_cons (expr : Str) (index : Nat) (h : index < expr.length) :
    expr.drop index = charAt expr index :: expr.drop (index + 1) := by
  induction expr generalizing index with
  | nil => simp at h
  | cons a expr ih =>
    cases index with
    | zero => simp [charAt]
    | succ n =>
      have := ih n (by simpa using h)
      simpa [charAt] using this

theorem charAt_length_add (a b : Str) : charAt (a ++ b) a.length = charAt b 0 :=
  charAt_append_length a b

theorem charAt_after_takeWhile (p : Char → Bool) (hnul : p '\x00' = false) (l : Str) :
    p (charAt l (l.takeWhile p).length) = false := by
  induction l with
  | nil => simpa [charAt] using hnul
  | cons a l ih =>
    by_cases ha : p a = true
    · simpa [List.takeWhile_cons, ha, charAt] using ih
    · have ha2 : p a = false := by simpa using ha
      simp [List.takeWhile_cons, ha2, charAt]

theorem charAt_drop (expr : Str) (index k : Nat) :
    charAt (expr.drop index) k = charAt expr (index + k) := by
  simp [charAt, List.getD_eq_getElem?_getD]

/-- C14: with the cursor on a digit or a dot, `fetch_val` yields the maximal run
of digits and dots that starts there (every character of the run is a digit or
a dot and the character behind it is not) and moves the cursor just past it,
and it raises the invalid-operand error exactly when the run has more than one
dot; `infix_to_rpn` on `1.2.3` raises that error. -/
theorem fetch_val_numeric_run (expr : Str) (index : Nat) (h : index < expr.length)
    (hc : isdigit (charAt expr index) = true ∨ charAt expr index = '.') :
    fetch_val expr index =
      (if ((expr.drop index).takeWhile (fun c => isdigit c || c == '.')).count '.' > 1 then
        .error (.invalid_operand ((expr.drop index).takeWhile (fun c => isdigit c || c == '.')))
      else .ok (true, (expr.drop index).takeWhile (fun c => isdigit c || c == '.'),
        index + ((expr.drop index).takeWhile (fun c => isdigit c || c == '.')).length)) ∧
    (∀ c ∈ (expr.drop index).takeWhile (fun c => isdigit c || c == '.'),
      isdigit c = true ∨ c = '.') ∧
    (expr.drop index).takeWhile (fun c => isdigit c || c == '.') ≠ [] ∧
    expr.drop index = (expr.drop index).takeWhile (fun c => isdigit c || c == '.')
      ++ expr.drop
        (index + ((expr.drop index).takeWhile (fun c => isdigit c || c == '.')).length) ∧
    ¬ (isdigit (charAt expr
        (index + ((expr.drop index).takeWhile (fun c => isdigit c || c == '.')).length)) = true ∨
      charAt expr
        (index + ((expr.drop index).takeWhile (fun c => isdigit c || c == '.')).length) = '.') ∧
    (infix_to_rpn 10 ([] : Registry ℚ) [] ['1', '.', '2', '.', '3']).result
      = .threw (.invalid_operand ['1', '.', '2', '.', '3']) := by
  have hd := drop_eq_charAt_cons expr index h
  have hcb : (isdigit (charAt expr index) || charAt expr index == '.') = true := by
    rcases hc with hc | hc <;> simp [hc]
  have hrun : (expr.drop index).takeWhile (fun c => isdigit c || c == '.')
      = charAt expr index ::
        (expr.drop (index + 1)).takeWhile (fun c => isdigit c || c == '.') := by
    rw [hd, List.takeWhile_cons]
    simp only [hcb, if_true]
  refine ⟨?_, ?_, ?_, ?_, ?_, by decide⟩
  · have hns := digit_not_space _ hcb
    have hnl := digit_not_lower _ hcb
    rw [hrun]
    unfold fetch_val
    simp only [hns, and_false, if_false, ge_iff_le, Nat.not_le.mpr h, hnl, Bool.false_eq_true,
      hc, if_true]
  · intro c hcmem
    have := List.mem_takeWhile_imp hcmem
    simpa using this
  · rw [hrun]; simp
  · have h1 := (List.takeWhile_append_dropWhile (fun c => isdigit c || c == '.')
      (expr.drop index)).symm
    have h2 : List.dropWhile (fun c => isdigit c || c == '.') (expr.drop index)
        = expr.drop (index + ((expr.drop index).takeWhile
            (fun c => isdigit c || c == '.')).length) := by
      rw [← List.drop_drop]
      generalize expr.drop index = l
      induction l with
      | nil => rfl
      | cons a l ih =>
        by_cases ha : (isdigit a || a == '.') = true
        · simp only [List.dropWhile_cons, ha, if_true, List.takeWhile_cons, List.length_cons,
            List.drop_succ_cons]
          exact ih
        · have ha2 : (isdigit a || a == '.') = false := by simpa using ha
          simp [List.dropWhile_cons, List.takeWhile_cons, ha2]
    rw [← h2]; exact h1
  · have := charAt_after_takeWhile (fun c => isdigit c || c == '.') (by decide) (expr.drop index)
    rw [charAt_drop] at this
    simpa using this

theorem fetch_val_numeric_run_witness :
    4 < ['1', '+', '2', '.', '5', '+'].length ∧
    (isdigit (charAt ['1', '+', '2', '.', '5', '+'] 2) = true ∨
      charAt ['1', '+', '2', '.', '5', '+'] 2 = '.') ∧
    fetch_val ['1', '+', '2', '.', '5', '+'] 2 = .ok (true, ['2', '.', '5'], 5) :=
  ⟨by decide, Or.inl (by decide),
    (fetch_val_numeric_run ['1', '+', '2', '.', '5', '+'] 2 (by decide) (Or.inl (by decide))).1⟩

/-- C16: `add_operand` returns false, leaving the registry as it was, exactly
when the name has a character that is not a lowercase letter or the value is
NaN or infinite; otherwise it returns true and the name is assigned the value.
So `add_operand("X", 1.0)` fails and the registry is as before. -/
theorem add_operand_result {D : Type} (A : Arith D) (reg : Registry D) (op_name : Str)
    (op_value : D) :
    ((add_operand A reg op_name op_value = (false, reg) ∧
        ((∃ c ∈ op_name, islower c = false) ∨ A.isnan op_value = true ∨
          A.isinf op_value = true)) ∨
      (add_operand A reg op_name op_value
          = (true, (op_name, op_value) :: reg.filter (fun e => e.1 != op_name)) ∧
        ¬ ((∃ c ∈ op_name, islower c = false) ∨ A.isnan op_value = true ∨
          A.isinf op_value = true))) ∧
    add_operand A reg ['X'] op_value = (false, reg) := by
  constructor
  · by_cases h1 : (A.isinf op_value || A.isnan op_value) = true
    · left
      refine ⟨by simp [add_operand, h1], ?_⟩
      simp only [Bool.or_eq_true] at h1
      tauto
    · have h1b : (A.isinf op_value || A.isnan op_value) = false := by simpa using h1
      by_cases h2 : op_name.all islower = false
      · left
        refine ⟨by simp [add_operand, h1b, h2], Or.inl ?_⟩
        have : ¬ (op_name.all islower = true) := by simp [h2]
        rw [List.all_eq_true] at this
        push_neg at this
        obtain ⟨c, hc1, hc2⟩ := this
        exact ⟨c, hc1, by simpa using hc2⟩
      · right
        have h3 : op_name.all islower = true := by simpa using h2
        refine ⟨by simp [add_operand, h1b, h3], ?_⟩
        rw [List.all_eq_true] at h3
        simp only [Bool.or_eq_false_iff] at h1b
        rintro (⟨c, hc1, hc2⟩ | h | h)
        · rw [h3 c hc1] at hc2; simp at hc2
        · rw [h1b.2] at h; simp at h
        · rw [h1b.1] at h; simp at h
  · unfold add_operand
    split
    · rfl
    · rfl

/-- C20: on a sequence accepted by `checkRpn`, when the evaluator reaches a
function-operator whose evaluation function signals a domain or range error on
the values it pops, `evaluate` returns `(false, 0.0)` whatever tokens follow.
The wrapper of `^` signals an error when base and exponent are both zero, so
`[0, 0, ^]` evaluates to `(false, 0.0)`. -/
theorem evaluate_undefined_function {D : Type} (A : Arith D) (reg : Registry D)
    (pre post : List Str) (f : Str) (operands : List D) (n : Nat) (value : D)
    (hacc : checkRpn reg (pre ++ f :: post) = .ok true)
    (hf : isOperand reg f = false) (hb : isBasicOperator f = false)
    (hn : get_operands_func_operator f = .ok n)
    (hreach : stack_after A reg pre [] = some operands)
    (hundef : eval_func_operator A f (operands.take n).reverse = .ok (false, value)) :
    evaluate A reg (pre ++ f :: post) = .returned false A.zero ∧
    (∀ (libm : WFunc → List D → Bool × D) (base exponent : D),
      A.eq_zero base = true → A.eq_zero exponent = true →
      eval_func_operator (withWrappers A libm) ['^'] [base, exponent]
        = .ok (false, (libm .wfunc_pow [base, exponent]).2)) ∧
    (∀ (libm : WFunc → List D → Bool × D) (z : D), registryOk reg = true →
      A.stod ['0'] = some z → A.eq_zero z = true →
      evaluate (withWrappers A libm) reg [['0'], ['0'], ['^']]
        = .returned false (withWrappers A libm).zero) := by
  refine ⟨?_, ?_, ?_⟩
  · have hev : evaluate A reg (pre ++ f :: post)
        = evaluate_loop A reg (pre ++ f :: post) [] := by simp [evaluate, hacc]
    rw [hev, evaluate_loop_append A reg pre _ [] _ hreach]
    have hc := checkRpn_loop_append A reg pre (f :: post) [] _ hreach
      (by simpa [checkRpn] using hacc)
    rw [checkRpn_loop_cons] at hc
    obtain ⟨e, he⟩ : ∃ e, additional_operators_find f = some e := by
      unfold get_operands_func_operator at hn
      cases h : additional_operators_find f with
      | none => simp [h] at hn
      | some e => exact ⟨e, rfl⟩
    have hn2 : e.1 = n := by
      simpa [get_operands_func_operator, he] using hn
    have hfo : isFuncOperator f = true := by
      cases f with
      | nil => simp [additional_operators_find, additional_operators_init] at he
      | cons c f => simp [isFuncOperator, he]
    have hd : counterDelta reg f = some (-((n : Int) - 1)) := by
      simp [counterDelta, hf, hb, hfo, he, hn2]
    simp only [hd] at hc
    have hlen : ¬ (operands.length < n) := by
      by_contra hlt
      have : (operands.length : Int) + -((n : Int) - 1) ≤ 0 := by omega
      rw [if_pos this] at hc
      simp at hc
    rw [evaluate_loop]
    have hs : evaluate_step A reg f operands = .stop (.returned false A.zero) := by
      simp only [evaluate_step, hf, hb, hfo, hn, hlen, hundef]
      simp
    rw [hs]
  · intro libm base exponent hb0 he0
    have hfind : additional_operators_find ['^'] = some (2, 0, .wfunc_pow) := by decide
    simp [eval_func_operator, hfind, withWrappers, wfunc_pow, hb0, he0]
  · intro libm z hreg hz hz0
    have o0 := isOperand_literal reg ['0'] rfl
    have r0 := isOperand_of_literal_reg reg hreg ['0'] rfl
    have op := isOperand_single reg hreg '^' (by decide) (by decide) (by decide)
    have bp : isBasicOperator ['^'] = false := rfl
    have fp : isFuncOperator ['^'] = true := rfl
    have hfind : additional_operators_find ['^'] = some (2, 0, .wfunc_pow) := by decide
    have hchk : checkRpn reg [['0'], ['0'], ['^']] = .ok true := by
      simp [checkRpn, checkRpn_loop, o0, op, bp, fp, get_operands_func_operator, hfind]
    have hstod : (withWrappers A libm).stod ['0'] = some z := hz
    have hw : (withWrappers A libm).wfunc .wfunc_pow [z, z]
        = (false, (libm .wfunc_pow [z, z]).2) := by
      simp [withWrappers, wfunc_pow, hz0]
    simp [evaluate, hchk, evaluate_loop, evaluate_step, o0, r0, op, bp, fp, hstod,
      get_operands_func_operator, eval_func_operator, hfind, hw]

theorem evaluate_undefined_function_witness :
    checkRpn ([] : Registry ℚ) ([['0'], ['0']] ++ ['^'] :: [['1'], ['+']]) = .ok true ∧
    isOperand ([] : Registry ℚ) ['^'] = false ∧ isBasicOperator ['^'] = false ∧
    get_operands_func_operator ['^'] = .ok 2 ∧
    stack_after (withWrappers (exactArith (fun _ _ => (true, 1))) (fun _ _ => (true, 1))) []
      [['0'], ['0']] [] = some [0, 0] ∧
    eval_func_operator (withWrappers (exactArith (fun _ _ => (true, 1))) (fun _ _ => (true, 1)))
      ['^'] ([0, 0].take 2).reverse = .ok (false, 1) ∧
    evaluate (withWrappers (exactArith (fun _ _ => (true, 1))) (fun _ _ => (true, 1))) []
      ([['0'], ['0']] ++ ['^'] :: [['1'], ['+']]) = .returned false 0 :=
  have hst : stack_after (withWrappers (exactArith (fun _ _ => (true, 1)))
      (fun _ _ => (true, 1))) [] [['0'], ['0']] [] = some [0, 0] := by
    simp [stack_after, evaluate_step, isOperand, isAdditionalOperand, front, isSign, isdigit,
      exactArith, withWrappers, exact_stod_0]
  have hun : eval_func_operator (withWrappers (exactArith (fun _ _ => (true, 1)))
      (fun _ _ => (true, 1))) ['^'] ([0, 0].take 2).reverse = .ok (false, 1) := by
    have hfind : additional_operators_find ['^'] = some (2, 0, .wfunc_pow) := by decide
    simp [eval_func_operator, hfind, withWrappers, wfunc_pow, exactArith]
  ⟨rfl, rfl, rfl, rfl, hst, hun,
    (evaluate_undefined_function
      (withWrappers (exactArith (fun _ _ => (true, 1))) (fun _ _ => (true, 1)))
      ([] : Registry ℚ) [['0'], ['0']] [['1'], ['+']] ['^'] [0, 0] 2 1
      rfl rfl rfl rfl hst hun).1⟩

theorem lookup_filter_ne {D : Type} (reg : Registry D) (n m : Str) (h : m ≠ n) :
    (reg.filter (fun e => e.1 != n)).lookup m = reg.lookup m := by
  induction reg with
  | nil => rfl
  | cons e reg ih =>
    obtain ⟨k, d⟩ := e
    by_cases hk : k = n
    · subst hk
      have hmk : (m == k) = false := by simpa using h
      simp [List.filter_cons, List.lookup, hmk, ih]
    · have hkn : (k != n) = true := by simpa using hk
      simp only [List.filter_cons, hkn, if_true, List.lookup]
      split <;> simp_all

/-- C17, as stated, fails for the empty name: `add_operand("", 1.0)` succeeds,
and the evaluator does not resolve the token `""` (`isOperand` rejects the
empty string first): the sequence `[""]` evaluates to `(false, 0.0)`. -/
theorem add_operand_empty_name_not_resolved :
    add_operand (exactArith (fun _ _ => (true, 1))) [] [] 1 = (true, [([], 1)]) ∧
    evaluate (exactArith (fun _ _ => (true, 1))) [([], 1)] [[]] = .returned false 0 ∧
    evaluate_step (exactArith (fun _ _ => (true, 1))) [([], 1)] [] [] = .next [] := by
  refine ⟨?_, ?_, ?_⟩
  · simp [add_operand, exactArith]
  · have h : checkRpn ([([], 1)] : Registry ℚ) [[]] = .ok false := rfl
    simp [evaluate, h, exactArith]
  · simp [evaluate_step, isOperand, isBasicOperator, isFuncOperator]

/-- C17, amended: after a successful `add_operand(n, v)` the registry maps `n`
to `v`, every other name's entry is unchanged and `get_operand(n)` is `v`; when
`n` is not empty the evaluator resolves the token `n` to `v`. After
`add_operand("x", 5.0)` the text `x + 1` is converted to `[x, 1, +]`, which
evaluates to `(true, 6)`. -/
theorem add_operand_success {D : Type} (A : Arith D) (reg : Registry D) (n : Str) (v : D)
    (h : (add_operand A reg n v).1 = true) :
    (add_operand A reg n v).2.lookup n = some v ∧
    (∀ m, m ≠ n → (add_operand A reg n v).2.lookup m = reg.lookup m) ∧
    get_operand A (add_operand A reg n v).2 n = v ∧
    (n ≠ [] → ∀ operands,
      evaluate_step A (add_operand A reg n v).2 n operands = .next (v :: operands)) ∧
    (n ≠ [] → evaluate A (add_operand A reg n v).2 [n] = .returned true v) ∧
    (∀ wfunc, add_operand (exactArith wfunc) [] ['x'] 5 = (true, [(['x'], 5)]) ∧
      infix_to_rpn 10 [(['x'], (5 : ℚ))] [] ['x', ' ', '+', ' ', '1']
        = ⟨.returned true, [['x'], ['1'], ['+']], []⟩ ∧
      evaluate (exactArith wfunc) [(['x'], 5)] [['x'], ['1'], ['+']] = .returned true 6) := by
  have hreg : (add_operand A reg n v).2 = (n, v) :: reg.filter (fun e => e.1 != n) := by
    unfold add_operand at h ⊢
    split at h
    · simp at h
    · split at h
      · simp at h
      · rename_i h1 h2
        simp [h1, h2]
  have hl : (add_operand A reg n v).2.lookup n = some v := by
    rw [hreg]; simp [List.lookup]
  have hop : n ≠ [] → isOperand (add_operand A reg n v).2 n = true := by
    intro hne
    have hempty : n.isEmpty = false := by
      cases n with
      | nil => exact absurd rfl hne
      | cons _ _ => rfl
    simp [isOperand, hempty, isAdditionalOperand, hl]
  refine ⟨hl, ?_, ?_, ?_, ?_, ?_⟩
  · intro m hm
    rw [hreg]
    have hmn : (m == n) = false := by simpa using hm
    simp only [List.lookup, hmn]
    exact lookup_filter_ne reg n m hm
  · simp [get_operand, hl]
  · intro hne operands
    simp [evaluate_step, hop hne, isAdditionalOperand, hl, get_value_additionalOperand]
  · intro hne
    have hchk : checkRpn (add_operand A reg n v).2 [n] = .ok true := by
      simp [checkRpn, checkRpn_loop, hop hne]
    simp [evaluate, hchk, evaluate_loop, evaluate_step, hop hne, isAdditionalOperand, hl,
      get_value_additionalOperand]
  · intro wfunc
    refine ⟨by simp [add_operand, exactArith, islower], by decide, ?_⟩
    have h1 : exact_stod ['1'] = some 1 := by
      simp [exact_stod, front, isSign, isdigit, decimal_value, digit_value]
    have hchk : checkRpn ([(['x'], 5)] : Registry ℚ) [['x'], ['1'], ['+']] = .ok true := rfl
    have hx : isOperand ([(['x'], 5)] : Registry ℚ) ['x'] = true := rfl
    have hx2 : isAdditionalOperand ([(['x'], 5)] : Registry ℚ) ['x'] = true := rfl
    have h1o : isOperand ([(['x'], 5)] : Registry ℚ) ['1'] = true := rfl
    have h1a : isAdditionalOperand ([(['x'], 5)] : Registry ℚ) ['1'] = false := rfl
    have hpo : isOperand ([(['x'], 5)] : Registry ℚ) ['+'] = false := rfl
    have hpb : isBasicOperator ['+'] = true := rfl
    simp [evaluate, hchk, evaluate_loop, evaluate_step, hx, hx2, h1o, h1a, hpo, hpb,
      get_value_additionalOperand, List.lookup, exactArith, h1, front]
    norm_num

theorem add_operand_success_witness :
    (add_operand (exactArith (fun _ _ => (true, 1))) [(['y'], 2)] ['x'] 5).1 = true ∧
    (add_operand (exactArith (fun _ _ => (true, 1))) [(['y'], 2)] ['x'] 5).2.lookup ['x']
      = some 5 ∧
    get_operand (exactArith (fun _ _ => (true, 1)))
      (add_operand (exactArith (fun _ _ => (true, 1))) [(['y'], 2)] ['x'] 5).2 ['x'] = 5 :=
  have h : (add_operand (exactArith (fun _ _ => (true, 1))) [(['y'], 2)] ['x'] 5).1 = true := by
    simp [add_operand, exactArith, islower]
  ⟨h, (add_operand_success _ _ _ _ h).1, (add_operand_success _ _ _ _ h).2.2.1⟩

theorem gapFree_no_space (s : Str) (h : ∀ c ∈ s, adj_subst c = c ∧ c ≠ ' ') :
    gapFree s = true := by
  induction s with
  | nil => rfl
  | cons c s ih =>
    simp only [gapFree, Bool.and_eq_true, Bool.or_eq_true, beq_iff_eq, bne_iff_ne,
      Bool.not_eq_true']
    refine ⟨Or.inr ⟨(h c (by simp)).1, Or.inr ?_⟩, ih (fun a ha => h a (List.mem_cons_of_mem _ ha))⟩
    cases s with
    | nil => simp
    | cons a s =>
      have := (h a (by simp)).2
      simpa using this

theorem filter_no_space (s : Str) (h : ∀ c ∈ s, c ≠ ' ') :
    s.filter (fun c => c != ' ') = s := by
  rw [List.filter_eq_self]
  intro a ha
  simpa using h a ha

/-- A text without a space, a tab or a bracket to replace is left as it is by
`adj_expr`. -/
theorem adj_expr_plain (s : Str) (h : ∀ c ∈ s, adj_subst c = c ∧ c ≠ ' ') :
    adj_expr s = .ok s := by
  rw [adj_expr_gapFree s (gapFree_no_space s h), filter_no_space s (fun c hc => (h c hc).2)]

theorem literal_chars (a : Str) (ha : isLiteral a = true) :
    ∀ c ∈ a, (isdigit c || c == '.') = true := by
  simp only [isLiteral, Bool.and_eq_true] at ha
  exact List.all_eq_true.mp ha.1.1

theorem literal_plain (a : Str) (ha : isLiteral a = true) :
    ∀ c ∈ a, adj_subst c = c ∧ c ≠ ' ' := fun c hc =>
  ⟨adj_subst_digit c (literal_chars a ha c hc), digit_not_space c (literal_chars a ha c hc)⟩

theorem isOperand_negative_literal {D : Type} (reg : Registry D) (a : Str)
    (ha : isLiteral a = true) : isOperand reg ('-' :: a) = true := by
  have hpos := literal_length_pos a ha
  have hall : a.all (fun c => isdigit c || c == '.') = true := by
    simp only [isLiteral, Bool.and_eq_true] at ha; exact ha.1.1
  have hs : isSign (front ('-' :: a)) = true := rfl
  have hgt : decide (('-' :: a).length > 1) = true := by simp; omega
  unfold isOperand
  simp only [List.isEmpty_cons, Bool.false_eq_true, if_false, hs, Bool.true_and, hgt, if_true,
    List.drop_succ_cons, List.drop_zero, hall]
  split <;> rfl

/-- From a state in which the static `actual_val` is not an operand nor a closing
parenthesis (the state at program start), a minus in front of an unsigned
numeric literal is fused with it into one operand token. -/
theorem infix_to_rpn_negative_literal {D : Type} (reg : Registry D)
    (hreg : registryOk reg = true) (a : Str) (ha : isLiteral a = true) (actual_val : Str)
    (hav : getType reg actual_val = .OPERATOR ∨ getType reg actual_val = .OPEN_PARENTHESIS
      ∨ getType reg actual_val = .NO_TYPE)
    (fuel : Nat) (hfuel : 2 ≤ fuel) :
    infix_to_rpn fuel reg actual_val ('-' :: a) = ⟨.returned true, [('-' :: a)], []⟩ := by
  obtain ⟨fuel, rfl⟩ : ∃ f, fuel = f + 2 := ⟨fuel - 2, by omega⟩
  have hplain : ∀ c ∈ ('-' :: a), adj_subst c = c ∧ c ≠ ' ' := by
    intro c hc
    rcases List.mem_cons.mp hc with rfl | hc
    · exact ⟨by decide, by decide⟩
    · exact literal_plain a ha c hc
  have hf0 := fetch_val_single [] a '-' (by decide) (by decide) (by decide) (by decide)
  have hf1 : fetch_val ('-' :: a) 1 = .ok (true, a, 1 + a.length) := by
    have := fetch_val_literal ['-'] a [] ha (by intro c r h; cases h)
    simpa using this
  have ho := isOperand_single reg hreg '-' (by decide) (by decide) (by decide)
  have hs : isSign (front ['-']) = true := by decide
  have hns := digit_not_sign _ (literal_front a ha).2
  have hopn := isOperand_negative_literal reg a ha
  have hty : getType reg ('-' :: a) = .OPERAND := by
    simp [getType, hopn]
  have hg : getOp reg ('-' :: a) 0 actual_val
      = ⟨.ok (.OPERAND, '-' :: a, '-' :: a, 1 + a.length), '-' :: a⟩ := by
    have hf0b : fetch_val ('-' :: a) 0 = .ok (true, ['-'], 1) := by simpa using hf0
    have hfr : front ['-'] ≠ '+' := by decide
    have hopa := isOperand_literal reg a ha
    simp only [getOp, hf0b, ho, hs, getOp_sign, hf1, hns, hav]
    simp [hty, hfr, hopa]
  have hend := getOp_end reg ('-' :: a) ('-' :: a)
  have hlen : ('-' :: a).length = 1 + a.length := by simp; omega
  rw [hlen] at hend
  have hchk : checkRpn reg [('-' :: a)] = .ok true := by
    simp [checkRpn, checkRpn_loop, hopn]
  unfold infix_to_rpn
  rw [adj_expr_plain _ hplain]
  simp only []
  rw [infix_to_rpn_loop, hg]
  simp only []
  rw [infix_to_rpn_loop, hend]
  simp [infix_to_rpn_finish, hchk]

/-- C12 (defect of the code): a minus in front of a numeric literal is fused into
one operand token, so `-5` is converted to `[-5]`; in front of a registered name
the fused token `-x` is no operand for `isOperand` and `getType`, although `x`
is, so `getOp` returns `NO_TYPE`, the token loop ends as if the text had ended,
and `infix_to_rpn` returns false on `-x` and on `2 * -x`. -/
theorem infix_to_rpn_negative_name_rejected :
    infix_to_rpn 10 ([] : Registry ℚ) [] ['-', '5'] = ⟨.returned true, [['-', '5']], []⟩ ∧
    isOperand ([(['x'], 5)] : Registry ℚ) ['x'] = true ∧
    getType ([(['x'], 5)] : Registry ℚ) ['-', 'x'] = .NO_TYPE ∧
    infix_to_rpn 10 ([(['x'], 5)] : Registry ℚ) [] ['-', 'x']
      = ⟨.returned false, [], ['-', 'x']⟩ ∧
    infix_to_rpn 10 ([(['x'], 5)] : Registry ℚ) [] ['2', ' ', '*', ' ', '-', 'x']
      = ⟨.returned false, [], ['-', 'x']⟩ := by
  decide

/-- C15 (defect of the code): behind a unary plus an unknown unit is not
reported. On `5 sin +$` and on `5 sin +foo` the plus is dropped, `getType` gives
`NO_TYPE` for the unit behind it, the token loop ends as if the text had ended,
and `infix_to_rpn` returns true with `[5, sin]`; without the plus, on `5 sin $`,
the unknown-component error is raised. -/
theorem infix_to_rpn_unknown_after_plus_accepted :
    infix_to_rpn 10 ([] : Registry ℚ) [] ['5', ' ', 's', 'i', 'n', ' ', '+', '$']
      = ⟨.returned true, [['5'], ['s', 'i', 'n']], ['$']⟩ ∧
    infix_to_rpn 10 ([] : Registry ℚ) [] ['5', ' ', 's', 'i', 'n', ' ', '+', 'f', 'o', 'o']
      = ⟨.returned true, [['5'], ['s', 'i', 'n']], ['f', 'o', 'o']⟩ ∧
    isOperand ([] : Registry ℚ) ['f', 'o', 'o'] = false ∧ isFuncOperator ['f', 'o', 'o'] = false ∧
    infix_to_rpn 10 ([] : Registry ℚ) [] ['5', ' ', 's', 'i', 'n', ' ', '$']
      = ⟨.threw (.unknown_component ['$']), [['5']], ['$']⟩ := by
  decide

/-- C18 (defect of the code): the static `actual_val` of `getOp` is not reset
when a call begins. The call on `1 1.2.3` raises and leaves `actual_val = "1"`;
of two calls on `-5` in succession behind it, the first takes the minus for a
binary operator and returns false, the second returns true with `[-5]`. From
program start, two calls on `-5 1.2.3` in succession both raise, the first with
`[-5]` in the output and the second with `[5]`. -/
theorem infix_to_rpn_twice_differs :
    infix_to_rpn 10 ([] : Registry ℚ) [] ['1', ' ', '1', '.', '2', '.', '3']
      = ⟨.threw (.invalid_operand ['1', '.', '2', '.', '3']), [['1']], ['1']⟩ ∧
    infix_to_rpn_twice 10 ([] : Registry ℚ) ['1'] ['-', '5']
      = (⟨.returned false, [], []⟩, ⟨.returned true, [['-', '5']], []⟩) ∧
    infix_to_rpn_twice 10 ([] : Registry ℚ) [] ['-', '5', ' ', '1', '.', '2', '.', '3']
      = (⟨.threw (.invalid_operand ['1', '.', '2', '.', '3']), [['-', '5']], ['-', '5']⟩,
         ⟨.threw (.invalid_operand ['1', '.', '2', '.', '3']), [['5']], ['5']⟩) := by
  decide

theorem adj_spec_dropWhile (r : Str) :
    adj_spec (r.dropWhile (fun c => c == ' ')) = adj_spec r := by
  induction r with
  | nil => rfl
  | cons a r ih =>
    by_cases ha : a = ' '
    · subst ha
      have hs : adj_subst ' ' = ' ' := by decide
      simp only [List.dropWhile_cons, beq_self_eq_true, if_true, adj_spec, hs]
      exact ih
    · simp [List.dropWhile_cons, ha]

theorem takeWhile_space_pos (r : Str) :
    0 < (r.takeWhile (fun c => c == ' ')).length ↔ r.head? = some ' ' := by
  cases r with
  | nil => simp
  | cons a r =>
    by_cases ha : a = ' '
    · subst ha; simp [List.takeWhile_cons]
    · simp [List.takeWhile_cons, ha]

theorem erase_spaces (pre r : Str) (c : Char) (m : Nat) :
    erase (pre ++ c :: r) (pre.length + 1) m = pre ++ c :: r.drop m := by
  unfold erase
  have h1 : List.take (pre.length + 1) (pre ++ c :: r) = pre ++ [c] := by
    have : pre ++ c :: r = (pre ++ [c]) ++ r := by simp
    rw [this]; exact List.take_left' (by simp)
  have h2 : List.drop (pre.length + 1 + m) (pre ++ c :: r) = r.drop m := by
    have : pre ++ c :: r = (pre ++ [c]) ++ r := by simp
    rw [this, ← List.drop_drop]
    congr 1
    exact List.drop_left' (by simp)
  rw [h1, h2]; simp

theorem drop_takeWhile_length (r : Str) :
    r.drop (r.takeWhile (fun c => c == ' ')).length = r.dropWhile (fun c => c == ' ') := by
  induction r with
  | nil => rfl
  | cons a r ih =>
    by_cases ha : a = ' '
    · subst ha; simpa [List.takeWhile_cons, List.dropWhile_cons] using ih
    · simp [List.takeWhile_cons, List.dropWhile_cons, ha]

theorem drop_pred_takeWhile (r : Str) (h : 0 < (r.takeWhile (fun c => c == ' ')).length) :
    r.drop ((r.takeWhile (fun c => c == ' ')).length - 1)
      = ' ' :: r.dropWhile (fun c => c == ' ') := by
  induction r with
  | nil => simp at h
  | cons a r ih =>
    by_cases ha : a = ' '
    · subst ha
      simp only [List.takeWhile_cons, beq_self_eq_true, if_true, List.length_cons,
        Nat.add_sub_cancel, List.dropWhile_cons]
      by_cases hr : 0 < (r.takeWhile (fun c => c == ' ')).length
      · have := ih hr
        obtain ⟨k, hk⟩ : ∃ k, (r.takeWhile (fun c => c == ' ')).length = k + 1 :=
          ⟨_, (Nat.succ_pred_eq_of_pos hr).symm⟩
        rw [hk] at this ⊢
        simpa using this
      · have hz : (r.takeWhile (fun c => c == ' ')).length = 0 := by omega
        rw [hz]
        have h0 : r.takeWhile (fun c => c == ' ') = [] := by simpa using hz
        have hd : r.dropWhile (fun c => c == ' ') = r := by
          conv_rhs => rw [← List.takeWhile_append_dropWhile (fun c => c == ' ') r, h0]
          simp
        simp [hd]
    · simp [List.takeWhile_cons, ha] at h

/-- The loop of `adj_expr` from a cursor with `need_space` clear computes
`adj_spec` of the text behind the cursor. -/
theorem adj_loop_spec (fuel : Nat) :
    ∀ (pre rem : Str), rem.length < fuel →
      adj_loop fuel (pre ++ rem) pre.length false = .ok (pre ++ adj_spec rem) := by
  induction fuel using Nat.strong_induction_on with
  | _ fuel ih =>
    intro pre rem hlen
    obtain ⟨fuel, rfl⟩ : ∃ f, fuel = f + 1 := ⟨fuel - 1, by omega⟩
    cases rem with
    | nil => simp [adj_loop, adj_spec]
    | cons c r =>
      have hlt : pre.length < (pre ++ c :: r).length := by simp
      by_cases hsp : adj_subst c = ' '
      · rw [adj_loop]
        simp only [hlt, if_true, charAt_append_cons, hsp, set_append_cons]
        have he : erase (pre ++ ' ' :: r) pre.length 1 = pre ++ r := by simp [erase]
        simp only [he, adj_spec, hsp, if_true]
        exact ih fuel (by omega) pre r (by simp at hlen; omega)
      · rw [adj_loop]
        simp only [hlt, if_true, charAt_append_cons, set_append_cons, hsp, if_false]
        have hdrop : List.drop (pre.length + 1) (pre ++ adj_subst c :: r) = r := by
          have : pre ++ adj_subst c :: r = (pre ++ [adj_subst c]) ++ r := by simp
          rw [this]; exact List.drop_left' (by simp)
        simp only [hdrop, charAt_skip]
        have hk : (pre.length + 1 + (r.takeWhile (fun c => c == ' ')).length - pre.length) - 1
            = (r.takeWhile (fun c => c == ' ')).length := by omega
        simp only [hk, Bool.false_or]
        have hms : (islower (adj_subst c) && islower (nextVisible r) ||
            isdigit (adj_subst c) && (isdigit (nextVisible r) || nextVisible r == '.'))
            = mustSeparate (adj_subst c) (nextVisible r) := rfl
        simp only [hms]
        by_cases hns : (decide ((r.takeWhile (fun c => c == ' ')).length > 0) &&
            mustSeparate (adj_subst c) (nextVisible r)) = true
        · simp only [hns, true_and, if_true]
          simp only [Bool.and_eq_true, decide_eq_true_eq] at hns
          obtain ⟨hpos, hm⟩ := hns
          have hne : ¬ ((r.takeWhile (fun c => c == ' ')).length = 0) := by omega
          simp only [hne, if_false]
          have he : (if (r.takeWhile (fun c => c == ' ')).length - 1 > 0 then
                erase (pre ++ adj_subst c :: r) (pre.length + 1)
                  ((r.takeWhile (fun c => c == ' ')).length - 1)
              else pre ++ adj_subst c :: r)
              = pre ++ adj_subst c :: ' ' :: r.dropWhile (fun c => c == ' ') := by
            split
            · rw [erase_spaces pre r _ _, drop_pred_takeWhile r hpos]
            · rename_i hz
              have h1 : (r.takeWhile (fun c => c == ' ')).length - 1 = 0 := by omega
              have := drop_pred_takeWhile r hpos
              rw [h1] at this
              simp only [List.drop_zero] at this
              rw [← this]
          rw [he]
          have hrlen : (r.dropWhile (fun c => c == ' ')).length + 1 ≤ r.length := by
            have h1 := congrArg List.length (drop_pred_takeWhile r hpos)
            simp only [List.length_drop, List.length_cons] at h1
            omega
          obtain ⟨fuel, rfl⟩ : ∃ f, fuel = f + 1 :=
            ⟨fuel - 1, by simp at hlen; omega⟩
          have hlt2 : pre.length + 1
              < (pre ++ adj_subst c :: ' ' :: r.dropWhile (fun c => c == ' ')).length := by simp
          have hat : charAt (pre ++ adj_subst c :: ' ' :: r.dropWhile (fun c => c == ' '))
              (pre.length + 1) = ' ' := by
            have := charAt_append_cons (pre ++ [adj_subst c])
              (r.dropWhile (fun c => c == ' ')) ' '
            simpa using this
          have hset : (pre ++ adj_subst c :: ' ' :: r.dropWhile (fun c => c == ' ')).set
              (pre.length + 1) ' ' = pre ++ adj_subst c :: ' ' :: r.dropWhile (fun c => c == ' ') := by
            have := set_append_cons (pre ++ [adj_subst c])
              (r.dropWhile (fun c => c == ' ')) ' ' ' '
            simp
          have hs : adj_subst ' ' = ' ' := by decide
          rw [adj_loop]
          simp only [hlt2, if_true, hat, hs, hset, Bool.true_eq_false, if_false]
          have := ih fuel (by omega) (pre ++ [adj_subst c, ' '])
            (r.dropWhile (fun c => c == ' ')) (by simp at hlen; omega)
          have hl : (pre ++ [adj_subst c, ' ']).length = pre.length + 1 + 1 := by simp
          rw [hl] at this
          have hh := (takeWhile_space_pos r).mp hpos
          simp only [List.append_assoc, List.cons_append, List.nil_append] at this
          rw [this, adj_spec_dropWhile]
          simp [adj_spec, hsp, hh, hm]
        · have hns2 : (decide ((r.takeWhile (fun c => c == ' ')).length > 0) &&
              mustSeparate (adj_subst c) (nextVisible r)) = false := by simpa using hns
          simp only [hns2, Bool.false_eq_true, false_and, if_false, Nat.sub_zero]
          have he : (if (r.takeWhile (fun c => c == ' ')).length > 0 then
                erase (pre ++ adj_subst c :: r) (pre.length + 1)
                  (r.takeWhile (fun c => c == ' ')).length
              else pre ++ adj_subst c :: r)
              = (pre ++ [adj_subst c]) ++ r.dropWhile (fun c => c == ' ') := by
            split
            · rw [erase_spaces pre r _ _, drop_takeWhile_length]; simp
            · rename_i hz
              have h0 : (r.takeWhile (fun c => c == ' ')).length = 0 := by omega
              have := drop_takeWhile_length r
              rw [h0] at this
              simp only [List.drop_zero] at this
              rw [← this]; simp
          rw [he]
          have hl : (pre ++ [adj_subst c]).length = pre.length + 1 := by simp
          rw [← hl]
          have := ih fuel (by omega) (pre ++ [adj_subst c]) (r.dropWhile (fun c => c == ' '))
            (by have := length_dropWhile_le r; simp at hlen; omega)
          rw [this, adj_spec_dropWhile]
          have hcond : ¬ (r.head? = some ' ' ∧
              mustSeparate (adj_subst c) (nextVisible r) = true) := by
            rintro ⟨h1, h2⟩
            have := (takeWhile_space_pos r).mpr h1
            simp [this, h2] at hns2
          simp [adj_spec, hsp, hcond]

/-- On every text `adj_expr` ends, with the text `adj_spec` describes. -/
theorem adj_expr_eq_spec (s : Str) : adj_expr s = .ok (adj_spec s) := by
  unfold adj_expr
  cases s with
  | nil => rfl
  | cons c r =>
    simp only [List.isEmpty_cons, Bool.false_eq_true, if_false]
    have := adj_loop_spec ((c :: r).length + 1) [] (c :: r) (by omega)
    simpa using this

theorem nextVisible_append_visible (pre rest : Str) (c : Char) (hc : c ≠ ' ') :
    nextVisible (pre ++ c :: rest) = nextVisible (pre ++ [c]) ∧
    (pre ++ c :: rest).head? = (pre ++ [c]).head? := by
  induction pre with
  | nil => simp [nextVisible, List.dropWhile_cons, hc, charAt]
  | cons a pre ih =>
    refine ⟨?_, by simp⟩
    by_cases ha : a = ' '
    · subst ha
      simpa [nextVisible, List.dropWhile_cons] using ih.1
    · simp [nextVisible, List.dropWhile_cons, ha, charAt]

theorem adj_spec_cons_visible (a : Char) (r : Str) (ha : adj_subst a ≠ ' ') :
    adj_spec (a :: r) = adj_subst a ::
      (if r.head? = some ' ' ∧ mustSeparate (adj_subst a) (nextVisible r) = true then
        ' ' :: adj_spec r
      else adj_spec r) := by
  simp [adj_spec, ha]

theorem adj_spec_cons_blank (a : Char) (r : Str) (ha : adj_subst a = ' ') :
    adj_spec (a :: r) = adj_spec r := by
  simp [adj_spec, ha]

/-- What `adj_expr` makes of the text before a character that is neither a space
nor a tab does not depend on the text behind that character. -/
theorem adj_spec_split (pre : Str) (c : Char) (hc : adj_subst c ≠ ' ') :
    ∃ done, ∀ rest, adj_spec (pre ++ c :: rest) = done ++ adj_spec (c :: rest) := by
  have hcs : c ≠ ' ' := by
    rintro rfl
    exact hc (by decide)
  induction pre with
  | nil => exact ⟨[], fun rest => rfl⟩
  | cons a pre ih =>
    obtain ⟨done, hd⟩ := ih
    by_cases ha : adj_subst a = ' '
    · refine ⟨done, fun rest => ?_⟩
      rw [List.cons_append, adj_spec_cons_blank _ _ ha]
      exact hd rest
    · by_cases hsep : (pre ++ [c]).head? = some ' ' ∧
          mustSeparate (adj_subst a) (nextVisible (pre ++ [c])) = true
      · refine ⟨adj_subst a :: ' ' :: done, fun rest => ?_⟩
        obtain ⟨h1, h2⟩ := nextVisible_append_visible pre rest c hcs
        rw [List.cons_append, adj_spec_cons_visible _ _ ha, h1, h2, if_pos hsep, hd rest]
        rfl
      · refine ⟨adj_subst a :: done, fun rest => ?_⟩
        obtain ⟨h1, h2⟩ := nextVisible_append_visible pre rest c hcs
        rw [List.cons_append, adj_spec_cons_visible _ _ ha, h1, h2, if_neg hsep, hd rest]
        rfl

theorem mustSeparate_subst (c1 c2 : Char) :
    mustSeparate (adj_subst c1) c2 = mustSeparate c1 c2 ∨ adj_subst c1 = ' ' := by
  unfold adj_subst
  split
  · right; rfl
  · split
    · rename_i h
      left
      rcases h with rfl | rfl <;>
        rw [mustSeparate_left_false _ c2 (by decide) (by decide),
          mustSeparate_left_false _ c2 (by decide) (by decide)]
    · split
      · rename_i h
        left
        rcases h with rfl | rfl <;>
          rw [mustSeparate_left_false _ c2 (by decide) (by decide),
            mustSeparate_left_false _ c2 (by decide) (by decide)]
      · left; rfl

/-- C19 (defect of the code): `adj_expr` does not keep lexical units apart in
two cases. The scan for the next character stops at a tab, which the `switch`
turns into a space only when the cursor reaches it, so a gap with a tab is
deleted: `1 \t 2` is normalized to `12` and `a\tb` to `ab`, and `1 \t 2 + 3` is
converted to `[12, 3, +]`, while `1 2 + 3` is rejected. And the test for digits
takes a dot on the right of the gap but not on the left, so `1. 5` is normalized
to `1.5` and converted to the one operand `[1.5]`, while `1 .5` keeps its space
and is rejected. -/
theorem adj_expr_merges_units :
    adj_expr ['1', ' ', '\t', ' ', '2'] = .ok ['1', '2'] ∧
    adj_expr ['1', '.', ' ', '5'] = .ok ['1', '.', '5'] ∧
    adj_expr ['a', '\t', 'b'] = .ok ['a', 'b'] ∧
    adj_expr ['1', ' ', ' ', '2'] = .ok ['1', ' ', '2'] ∧
    adj_expr ['1', ' ', '.', '5'] = .ok ['1', ' ', '.', '5'] ∧
    infix_to_rpn 10 ([] : Registry ℚ) [] ['1', ' ', '\t', ' ', '2', ' ', '+', ' ', '3']
      = ⟨.returned true, [['1', '2'], ['3'], ['+']], []⟩ ∧
    infix_to_rpn 10 ([] : Registry ℚ) [] ['1', ' ', '2', ' ', '+', ' ', '3']
      = ⟨.returned false, [], []⟩ ∧
    infix_to_rpn 10 ([] : Registry ℚ) [] ['1', '.', ' ', '5']
      = ⟨.returned true, [['1', '.', '5']], []⟩ ∧
    infix_to_rpn 10 ([] : Registry ℚ) [] ['1', ' ', '.', '5']
      = ⟨.returned false, [], []⟩ := by
  decide

/-- Gaps of spaces only: in every text in which two characters `c1` and `c2`,
neither a space nor a tab, are separated only by one or more spaces, `adj_expr`
leaves exactly one space between them if `mustSeparate c1 c2` holds, and none
otherwise; the text on either side is normalized as it is without the other
side. -/
theorem adj_expr_gap (pre post : Str) (c1 c2 : Char) (k : Nat) (hk : 0 < k)
    (h1 : adj_subst c1 ≠ ' ') (h2 : adj_subst c2 ≠ ' ') :
    (∃ done rest, adj_expr (pre ++ [c1]) = .ok (done ++ [adj_subst c1]) ∧
      adj_expr (c2 :: post) = .ok (adj_subst c2 :: rest) ∧
      adj_expr (pre ++ c1 :: (List.replicate k ' ' ++ c2 :: post))
        = .ok (done ++ adj_subst c1 ::
            ((if mustSeparate c1 c2 = true then [' '] else []) ++ adj_subst c2 :: rest))) ∧
    adj_expr ['1', ' ', ' ', '2'] = .ok ['1', ' ', '2'] ∧
    adj_expr ['1', '.', ' ', '5'] = .ok ['1', '.', '5'] := by
  refine ⟨?_, by decide, by decide⟩
  obtain ⟨done, hd⟩ := adj_spec_split pre c1 h1
  have hc2 : c2 ≠ ' ' := by
    rintro rfl
    exact h2 (by decide)
  have hrest : ∃ rest, adj_spec (c2 :: post) = adj_subst c2 :: rest :=
    ⟨_, adj_spec_cons_visible c2 post h2⟩
  obtain ⟨rest, hr⟩ := hrest
  refine ⟨done, rest, ?_, ?_, ?_⟩
  · rw [adj_expr_eq_spec, hd [], adj_spec_cons_visible _ _ h1]
    simp [adj_spec]
  · rw [adj_expr_eq_spec, hr]
  · rw [adj_expr_eq_spec, hd]
    obtain ⟨m, rfl⟩ : ∃ m, k = m + 1 := ⟨k - 1, by omega⟩
    have hnv : nextVisible (List.replicate (m + 1) ' ' ++ c2 :: post) = c2 := by
      have : ∀ n, nextVisible (List.replicate n ' ' ++ c2 :: post) = c2 := by
        intro n
        induction n with
        | zero => simp [nextVisible, List.dropWhile_cons, hc2, charAt]
        | succ n ih => simpa [nextVisible, List.replicate_succ, List.dropWhile_cons] using ih
      exact this _
    have hhd : (List.replicate (m + 1) ' ' ++ c2 :: post).head? = some ' ' := by
      simp [List.replicate_succ]
    have hsp : adj_spec (List.replicate (m + 1) ' ' ++ c2 :: post) = adj_spec (c2 :: post) := by
      have : ∀ n, adj_spec (List.replicate n ' ' ++ c2 :: post) = adj_spec (c2 :: post) := by
        intro n
        induction n with
        | zero => simp
        | succ n ih =>
          have hs : adj_subst ' ' = ' ' := by decide
          simpa [List.replicate_succ, adj_spec, hs] using ih
      exact this _
    have hms : mustSeparate (adj_subst c1) c2 = mustSeparate c1 c2 := by
      rcases mustSeparate_subst c1 c2 with h | h
      · exact h
      · exact absurd h h1
    rw [adj_spec_cons_visible _ _ h1, hnv, hhd, hsp, hr, hms]
    split <;> simp_all

theorem adj_expr_gap_witness :
    0 < 3 ∧ adj_subst 'a' ≠ ' ' ∧ adj_subst 'b' ≠ ' ' ∧
    ∃ done rest, adj_expr (['x', ' '] ++ ['a']) = .ok (done ++ [adj_subst 'a']) ∧
      adj_expr ('b' :: ['+', ' ', '1']) = .ok (adj_subst 'b' :: rest) ∧
      adj_expr (['x', ' '] ++ 'a' :: (List.replicate 3 ' ' ++ 'b' :: ['+', ' ', '1']))
        = .ok (done ++ adj_subst 'a' ::
            ((if mustSeparate 'a' 'b' = true then [' '] else []) ++ adj_subst 'b' :: rest)) :=
  ⟨by decide, by decide, by decide,
    (adj_expr_gap ['x', ' '] ['+', ' ', '1'] 'a' 'b' 3 (by decide) (by decide) (by decide)).1⟩

theorem isSign_cases (c : Char) (h : isSign c = true) : c = '+' ∨ c = '-' := by
  simpa [isSign] using h

theorem foldSign_isSign (more : Str) : ∀ cs : Char, isSign cs = true →
    isSign (foldSign cs more) = true := by
  induction more with
  | nil => intro cs h; exact h
  | cons n more ih =>
    intro cs _
    simp only [foldSign]
    apply ih
    split <;> decide

theorem foldSign_parity (more : Str) : ∀ cs : Char, isSign cs = true →
    (∀ c ∈ more, isSign c = true) → foldSign cs more = paritySign (cs :: more) := by
  induction more with
  | nil =>
    intro cs h _
    rcases isSign_cases cs h with rfl | rfl <;> decide
  | cons n more ih =>
    intro cs h hall
    have hn := hall n (by simp)
    simp only [foldSign]
    rw [ih _ (by split <;> decide) (fun c hc => hall c (List.mem_cons_of_mem _ hc))]
    have key : List.count '-' ((if cs = n then '+' else '-') :: more) % 2
        = List.count '-' (cs :: n :: more) % 2 := by
      rcases isSign_cases cs h with rfl | rfl <;> rcases isSign_cases n hn with rfl | rfl <;>
        (simp [List.count_cons]; try omega)
    unfold paritySign
    rw [key]

theorem sign_facts (c : Char) (h : isSign c = true) :
    c ≠ ' ' ∧ islower c = false ∧ isdigit c = false ∧ c ≠ '.' ∧ adj_subst c = c ∧
    isBasicOperatorChar c = true := by
  rcases isSign_cases c h with rfl | rfl <;> decide

/-- The loop that folds a run of signs in front of a numeric literal `b`: the
run is replaced in the text by the one sign `foldSign` gives, and the unit
behind it is `b`. -/
theorem fold_signs_run (pre b : Str) (hb : isLiteral b = true) (more : Str) :
    ∀ (cs s1 : Char) (fuel : Nat), isSign s1 = true → (∀ c ∈ more, isSign c = true) →
      more.length < fuel →
      fold_signs fuel (pre ++ cs :: s1 :: (more ++ b)) (pre.length + 1) cs [s1] (pre.length + 2)
        = .ok (pre ++ foldSign cs (s1 :: more) :: b, b, pre.length + 1 + b.length,
            foldSign cs (s1 :: more)) := by
  induction more with
  | nil =>
    intro cs s1 fuel _ _ hfuel
    obtain ⟨fuel, rfl⟩ : ∃ f, fuel = f + 1 := ⟨fuel - 1, by omega⟩
    have h11 : pre.length + 1 - 1 = pre.length := by omega
    have hni : pre.length + 2 - 1 = pre.length + 1 := by omega
    have he : insert (erase (pre ++ cs :: s1 :: ([] ++ b)) pre.length 2)
        pre.length (if cs = front [s1] then ['+'] else ['-'])
        = pre ++ (if cs = s1 then '+' else '-') :: b := by
      have h1 : erase (pre ++ cs :: s1 :: ([] ++ b)) pre.length 2 = pre ++ b := by
        simp [erase]
      simp only [h1, front, List.headD_cons]
      unfold insert
      split <;> simp
    have hf : fetch_val (pre ++ (if cs = s1 then '+' else '-') :: b) (pre.length + 1)
        = .ok (true, b, pre.length + 1 + b.length) := by
      have := fetch_val_literal (pre ++ [if cs = s1 then '+' else '-']) b [] hb
        (by intro c r h; cases h)
      simpa using this
    have hns := digit_not_sign _ (literal_front b hb).2
    have hat : charAt (pre ++ (if cs = s1 then '+' else '-') :: b) pre.length
        = (if cs = s1 then '+' else '-') :=
      charAt_append_cons pre b (if cs = s1 then '+' else '-')
    rw [fold_signs]
    simp only [h11, hni, he, hat, hf, hns, foldSign]
    simp
  | cons s2 more ih =>
    intro cs s1 fuel hs1 hall hfuel
    obtain ⟨fuel, rfl⟩ : ∃ f, fuel = f + 1 := ⟨fuel - 1, by omega⟩
    have hs2 := hall s2 (by simp)
    have h11 : pre.length + 1 - 1 = pre.length := by omega
    have hni : pre.length + 2 - 1 = pre.length + 1 := by omega
    have he : insert (erase (pre ++ cs :: s1 :: (s2 :: more ++ b)) pre.length 2)
        pre.length (if cs = front [s1] then ['+'] else ['-'])
        = pre ++ (if cs = s1 then '+' else '-') :: s2 :: (more ++ b) := by
      have h1 : erase (pre ++ cs :: s1 :: (s2 :: more ++ b)) pre.length 2
          = pre ++ s2 :: (more ++ b) := by
        simp [erase]
      simp only [h1, front, List.headD_cons]
      unfold insert
      split <;> simp
    obtain ⟨f1, f2, f3, f4, -, -⟩ := sign_facts s2 hs2
    have hf : fetch_val (pre ++ (if cs = s1 then '+' else '-') :: s2 :: (more ++ b))
        (pre.length + 1) = .ok (true, [s2], pre.length + 2) := by
      have := fetch_val_single (pre ++ [if cs = s1 then '+' else '-']) (more ++ b) s2 f1 f2 f3 f4
      simpa using this
    have hat : charAt (pre ++ (if cs = s1 then '+' else '-') :: s2 :: (more ++ b)) pre.length
        = (if cs = s1 then '+' else '-') :=
      charAt_append_cons pre (s2 :: (more ++ b)) (if cs = s1 then '+' else '-')
    have hfr : isSign (front [s2]) = true := by simpa [front] using hs2
    rw [fold_signs]
    simp only [h11, hni, he, hat, hf, hfr, Bool.and_self, if_true]
    have := ih (if cs = s1 then '+' else '-') s2 fuel hs2
      (fun c hc => hall c (List.mem_cons_of_mem _ hc)) (by simp at hfuel; omega)
    rw [this]
    simp [foldSign]

/-- A run of signs behind an operand and in front of a numeric literal `b` is
returned by `getOp` as one binary operator, the sign the run folds to, and the
run is replaced by that sign in the text. -/
theorem getOp_sign_run {D : Type} (reg : Registry D) (hreg : registryOk reg = true)
    (a b : Str) (hb : isLiteral b = true) (s0 : Char) (srest : Str) (hs0 : isSign s0 = true)
    (hall : ∀ c ∈ srest, isSign c = true) (av : Str)
    (hav : getType reg av = .OPERAND ∨ getType reg av = .CLOSE_PARENTHESIS) :
    getOp reg (a ++ s0 :: (srest ++ b)) a.length av
      = ⟨.ok (.OPERATOR, [foldSign s0 srest], a ++ foldSign s0 srest :: b, a.length + 1),
          [s0]⟩ := by
  cases srest with
  | nil =>
    have hf : fetch_val (a ++ s0 :: ([] ++ b)) (a.length + 1)
        = .ok (true, b, a.length + 1 + b.length) := by
      have := fetch_val_literal (a ++ [s0]) b [] hb (by intro c r h; cases h)
      simpa using this
    exact getOp_binary_sign reg hreg a ([] ++ b) av s0 (isSign_cases s0 hs0) b _ hf
      (digit_not_sign _ (literal_front b hb).2) hav
  | cons s1 more =>
    have hs1 := hall s1 (by simp)
    obtain ⟨f1, f2, f3, f4, -, -⟩ := sign_facts s0 hs0
    obtain ⟨g1, g2, g3, g4, -, -⟩ := sign_facts s1 hs1
    have hf0 := fetch_val_single a (s1 :: more ++ b) s0 f1 f2 f3 f4
    have hf1 : fetch_val (a ++ s0 :: (s1 :: more ++ b)) (a.length + 1)
        = .ok (true, [s1], a.length + 2) := by
      have := fetch_val_single (a ++ [s0]) (more ++ b) s1 g1 g2 g3 g4
      simpa using this
    have ho : isOperand reg [s0] = false := isOperand_single reg hreg s0 f2 f3 f4
    have hfr0 : isSign (front [s0]) = true := by simpa [front] using hs0
    have hfr1 : isSign (front [s1]) = true := by simpa [front] using hs1
    have hfold := fold_signs_run a b hb more s0 s1
      ((a ++ s0 :: (s1 :: more ++ b)).length + 1) hs1
      (fun c hc => hall c (List.mem_cons_of_mem _ hc)) (by simp; omega)
    have hfront : front [s0] = s0 := rfl
    have hprev : ¬ (getType reg av = .OPERATOR ∨ getType reg av = .OPEN_PARENTHESIS
        ∨ getType reg av = .NO_TYPE) := by
      rcases hav with h | h <;> simp [h]
    have hfs := foldSign_isSign (s1 :: more) s0 hs0
    have hty := getType_basic reg hreg _ (sign_facts _ hfs).2.2.2.2.2
    simp only [List.cons_append] at hfold hf0 hf1 ⊢
    simp only [getOp, hf0, ho, hfr0, getOp_sign, hf1, hfr1, hfront, hfold, hprev, hty]
    simp [hs0, hty]

theorem nextVisible_append (x y : Str) :
    nextVisible (x ++ y) = nextVisible x ∨ nextVisible (x ++ y) = nextVisible y := by
  induction x with
  | nil => right; rfl
  | cons a x ih =>
    by_cases ha : a = ' '
    · subst ha
      simpa [nextVisible, List.dropWhile_cons] using ih
    · left; simp [nextVisible, List.dropWhile_cons, ha, charAt]

theorem gapFree_append (x y : Str) (hx : gapFree x = true) (hy : gapFree y = true)
    (hsep : ∀ c, mustSeparate c (nextVisible y) = false) : gapFree (x ++ y) = true := by
  induction x with
  | nil => simpa using hy
  | cons c x ih =>
    simp only [gapFree, Bool.and_eq_true, Bool.or_eq_true, beq_iff_eq, bne_iff_ne,
      Bool.not_eq_true'] at hx
    obtain ⟨hc, hx2⟩ := hx
    simp only [List.cons_append, gapFree, Bool.and_eq_true, Bool.or_eq_true, beq_iff_eq,
      bne_iff_ne, Bool.not_eq_true']
    refine ⟨?_, ih hx2⟩
    rcases hc with hc | ⟨hsub, hc2⟩
    · exact Or.inl hc
    · refine Or.inr ⟨hsub, ?_⟩
      cases x with
      | nil => left; simpa using hsep c
      | cons a x =>
        simp only [List.append_eq]
        rcases hc2 with hc2 | hc2
        · rcases nextVisible_append (a :: x) y with h | h
          · left; rw [h]; exact hc2
          · left; rw [h]; exact hsep c
        · right; simpa using hc2

theorem signs_nextVisible (s y : Str) (hs : ∀ c ∈ s, isSign c = true ∨ c = ' ')
    (hne : ∃ c ∈ s, c ≠ ' ') : isSign (nextVisible (s ++ y)) = true := by
  induction s with
  | nil => obtain ⟨c, hc, -⟩ := hne; simp at hc
  | cons a s ih =>
    by_cases ha : a = ' '
    · subst ha
      have : ∃ c ∈ s, c ≠ ' ' := by
        obtain ⟨c, hc, hc2⟩ := hne
        rcases List.mem_cons.mp hc with rfl | hc
        · exact absurd rfl hc2
        · exact ⟨c, hc, hc2⟩
      simpa [nextVisible, List.dropWhile_cons] using
        ih (fun c hc => hs c (List.mem_cons_of_mem _ hc)) this
    · rcases hs a (by simp) with h | h
      · simpa [nextVisible, List.dropWhile_cons, ha, charAt] using h
      · exact absurd h ha

theorem gapFree_signs (s y : Str) (hs : ∀ c ∈ s, isSign c = true ∨ c = ' ')
    (hy : gapFree y = true) : gapFree (s ++ y) = true := by
  induction s with
  | nil => simpa using hy
  | cons a s ih =>
    have ih2 := ih (fun c hc => hs c (List.mem_cons_of_mem _ hc))
    rcases hs a (by simp) with h | h
    · obtain ⟨-, f2, f3, -, f5, -⟩ := sign_facts a h
      exact gapFree_cons_plain a _ f5 f2 f3 ih2
    · subst h
      simpa [gapFree] using ih2

theorem count_minus_filter (s : Str) :
    List.count '-' (s.filter (fun c => c != ' ')) = List.count '-' s := by
  induction s with
  | nil => rfl
  | cons a s ih =>
    by_cases ha : a = ' '
    · subst ha
      simp [List.filter_cons, List.count_cons, ih]
    · simp [List.filter_cons, ha, List.count_cons, ih]

theorem filter_signs (s : Str) (hs : ∀ c ∈ s, isSign c = true ∨ c = ' ')
    (hne : ∃ c ∈ s, c ≠ ' ') :
    ∃ s0 srest, s.filter (fun c => c != ' ') = s0 :: srest ∧ isSign s0 = true ∧
      (∀ c ∈ srest, isSign c = true) ∧ paritySign s = paritySign (s0 :: srest) := by
  have hall : ∀ c ∈ s.filter (fun c => c != ' '), isSign c = true := by
    intro c hc
    rw [List.mem_filter] at hc
    rcases hs c hc.1 with h | h
    · exact h
    · simp [h] at hc
  have hpar : paritySign s = paritySign (s.filter (fun c => c != ' ')) := by
    unfold paritySign
    rw [count_minus_filter]
  cases hf : s.filter (fun c => c != ' ') with
  | nil =>
    obtain ⟨c, hc, hc2⟩ := hne
    have : c ∈ s.filter (fun c => c != ' ') := by
      rw [List.mem_filter]; exact ⟨hc, by simpa using hc2⟩
    rw [hf] at this
    simp at this
  | cons s0 srest =>
    rw [hf] at hall hpar
    exact ⟨s0, srest, rfl, hall s0 (by simp), fun c hc => hall c (List.mem_cons_of_mem _ hc),
      hpar⟩

/-- C13: a run of signs between two operands stands for one sign, by the parity
of its minus signs. For unsigned numeric literals `a` and `b` and every text
`s` made of signs and spaces with at least one sign, `infix_to_rpn` on
`a ++ s ++ b` gives what it gives on `a ++ c ++ b`, where `c` is `-` when `s`
holds an odd number of `-` and `+` otherwise: it returns true with `[a, b, c]`. -/
theorem infix_to_rpn_sign_run {D : Type} (reg : Registry D) (hreg : registryOk reg = true)
    (a b s : Str) (ha : isLiteral a = true) (hb : isLiteral b = true)
    (hs : ∀ c ∈ s, isSign c = true ∨ c = ' ') (hne : ∃ c ∈ s, c ≠ ' ')
    (actual_val : Str) (fuel : Nat) (hfuel : (a ++ s ++ b).length < fuel) :
    infix_to_rpn fuel reg actual_val (a ++ s ++ b)
      = infix_to_rpn fuel reg actual_val (a ++ [paritySign s] ++ b) ∧
    infix_to_rpn fuel reg actual_val (a ++ s ++ b)
      = ⟨.returned true, [a, b, [paritySign s]], []⟩ := by
  have hla := literal_length_pos a ha
  have hlb := literal_length_pos b hb
  have hls : 0 < s.length := by
    obtain ⟨c, hc, -⟩ := hne
    exact List.length_pos_of_mem hc
  obtain ⟨s0, srest, hfil, hs0, hall, hpar⟩ := filter_signs s hs hne
  have hfold := foldSign_parity srest s0 hs0 hall
  have hps : isSign (paritySign s) = true := by
    unfold paritySign; split <;> decide
  obtain ⟨p1, p2, p3, p4, p5, p6⟩ := sign_facts _ hps
  -- the text with the one sign
  have h2 : infix_to_rpn fuel reg actual_val (a ++ [paritySign s] ++ b)
      = ⟨.returned true, [a, b, [paritySign s]], []⟩ := by
    have hwf : WellFormedExpr (a ++ [paritySign s] ++ b) := by
      have := WellFormedExpr.binary a (paritySign s) b (.literal a ha) p6 (.literal b hb)
      simpa using this
    rw [infix_to_rpn_tokens reg hreg _ hwf [.lit a, .oper (paritySign s), .lit b]
      (by simp [tokText, Tok.text, filter_literal, ha, hb, List.filter_cons, p1])
      (by simp [accepts, ha, hb, p6]) actual_val fuel
      (by simp at hfuel ⊢; omega)]
    simp [shunt, pop_operators]
  -- the text with the run
  have h1 : infix_to_rpn fuel reg actual_val (a ++ s ++ b)
      = ⟨.returned true, [a, b, [paritySign s]], []⟩ := by
    obtain ⟨fuel, rfl⟩ : ∃ f, fuel = f + 2 := ⟨fuel - 2, by simp at hfuel; omega⟩
    have hgap : gapFree (a ++ s ++ b) = true := by
      rw [List.append_assoc]
      refine gapFree_append a (s ++ b) (gapFree_digits a ?_)
        (gapFree_signs s b hs (gapFree_digits b ?_)) ?_
      · simp only [isLiteral, Bool.and_eq_true] at ha; exact ha.1.1
      · simp only [isLiteral, Bool.and_eq_true] at hb; exact hb.1.1
      · intro c
        obtain ⟨-, f2, f3, f4, -, -⟩ := sign_facts _ (signs_nextVisible s b hs hne)
        exact mustSeparate_right_false c _ f2 f3 f4
    have hfilt : (a ++ s ++ b).filter (fun c => c != ' ') = a ++ s0 :: (srest ++ b) := by
      simp [List.filter_append, filter_literal a ha, filter_literal b hb, hfil]
    have hg1 := getOp_literal reg [] a (s0 :: (srest ++ b)) actual_val ha
      (by
        intro c r h
        simp only [List.cons.injEq] at h
        rw [← h.1]
        obtain ⟨-, -, f3, f4, -, -⟩ := sign_facts s0 hs0
        simp [f3, f4])
    have hg2 := getOp_sign_run reg hreg a b hb s0 srest hs0 hall a
      (Or.inl (getType_literal reg a ha))
    have hrun : Runs reg [a] 0 (((1 : Nat) : Int) + (if false then 1 else 0)) := by
      have := runs_snoc reg [] a 0 0 1 (runs_nil reg 0) (counterDelta_literal reg a ha)
        (by omega)
      simpa using this
    have hshape : StackShape [[foldSign s0 srest]] 1 0 := by
      have hfs := foldSign_isSign srest s0 hs0
      exact StackShape.oper _ [] 0 0 (sign_facts _ hfs).2.2.2.2.2 StackShape.nil
    have hrest := infix_to_rpn_loop_accepts reg hreg [.lit b] false 0
      (by simp [accepts, hb]) (a ++ [foldSign s0 srest]) [s0] [[foldSign s0 srest]] [a] 1 fuel
      (by simp) hshape hrun (by simp at hfuel ⊢; omega)
    unfold infix_to_rpn
    rw [adj_expr_gapFree _ hgap, hfilt]
    simp only []
    simp only [List.nil_append, List.length_nil] at hg1
    rw [infix_to_rpn_loop, hg1]
    simp only [Nat.zero_add]
    rw [infix_to_rpn_loop, hg2]
    simp only [pop_operators, List.nil_append]
    have he : a ++ foldSign s0 srest :: b = (a ++ [foldSign s0 srest]) ++ tokText [.lit b] := by
      simp [tokText, Tok.text]
    have hl : a.length + 1 = (a ++ [foldSign s0 srest]).length := by simp
    rw [he, hl, hrest]
    simp [shunt, hfold, hpar]
  exact ⟨h1.trans h2.symm, h1⟩

theorem infix_to_rpn_sign_run_witness :
    registryOk ([] : Registry ℚ) = true ∧ isLiteral ['1'] = true ∧ isLiteral ['2'] = true ∧
    (∀ c ∈ ['-', ' ', '-', '+', ' ', '-'], isSign c = true ∨ c = ' ') ∧
    (∃ c ∈ ['-', ' ', '-', '+', ' ', '-'], c ≠ ' ') ∧
    paritySign ['-', ' ', '-', '+', ' ', '-'] = '-' ∧
    infix_to_rpn 10 ([] : Registry ℚ) [] ['1', '-', ' ', '-', '+', ' ', '-', '2']
      = ⟨.returned true, [['1'], ['2'], ['-']], []⟩ :=
  ⟨rfl, rfl, rfl, by decide, by decide, by decide,
    (infix_to_rpn_sign_run ([] : Registry ℚ) rfl ['1'] ['2'] ['-', ' ', '-', '+', ' ', '-']
      rfl rfl (by decide) (by decide) [] 10 (by decide)).2⟩

theorem find_arity_one (f : Str) (p : Nat) (w : WFunc)
    (hf : additional_operators_find f = some (1, p, w)) :
    f ≠ [] ∧ f.all islower = true ∧ p = 1 := by
  unfold additional_operators_find additional_operators_init at hf
  simp only [List.find?_cons] at hf
  repeat' split at hf
  all_goals first
    | (simp at hf; done)
    | (rename_i h
       have hf2 : _ = f := LawfulBEq.eq_of_beq h
       subst hf2
       simp only [Option.map_some', Option.some.injEq, Prod.mk.injEq] at hf
       exact ⟨by simp, by decide, by omega⟩)
    | simp_all

theorem lower_facts (c : Char) (h : islower c = true) :
    c ≠ ' ' ∧ isdigit c = false ∧ c ≠ '.' ∧ isSign c = false ∧ c ≠ '(' ∧ c ≠ ')' := by
  simp only [islower, Bool.and_eq_true, decide_eq_true_eq] at h
  refine ⟨?_, ?_, ?_, ?_, ?_, ?_⟩
  · rintro rfl; simp at h
  · simp only [isdigit, Bool.and_eq_false_iff, decide_eq_false_iff_not]; omega
  · rintro rfl; simp at h
  · by_contra hs
    rcases isSign_cases c (by simpa using hs) with rfl | rfl <;> simp at h
  · rintro rfl; simp at h
  · rintro rfl; simp at h

theorem fetch_val_word (pre f rest : Str) (hne : f ≠ []) (hlow : f.all islower = true)
    (hrest : ∀ c r, rest = c :: r → islower c = false) :
    fetch_val (pre ++ f ++ rest) pre.length = .ok (true, f, pre.length + f.length) := by
  cases f with
  | nil => exact absurd rfl hne
  | cons c f =>
    simp only [List.all_cons, Bool.and_eq_true] at hlow
    obtain ⟨hc, hf⟩ := hlow
    obtain ⟨h1, -, -, -, -, -⟩ := lower_facts c hc
    have hat : charAt (pre ++ (c :: f) ++ rest) pre.length = c := by
      have : pre ++ (c :: f) ++ rest = pre ++ c :: (f ++ rest) := by simp
      rw [this]; exact charAt_append_cons _ _ _
    have hlen : pre.length < (pre ++ (c :: f) ++ rest).length := by simp
    have hdrop : List.drop pre.length (pre ++ (c :: f) ++ rest) = (c :: f) ++ rest := by
      rw [List.append_assoc]; exact List.drop_left _ _
    have htw : List.takeWhile islower ((c :: f) ++ rest) = c :: f := by
      have hall : ∀ a ∈ c :: f, islower a = true := by
        intro a ha
        rcases List.mem_cons.mp ha with rfl | ha
        · exact hc
        · exact List.all_eq_true.mp hf a ha
      rw [List.takeWhile_append_of_pos hall]
      cases rest with
      | nil => simp
      | cons a r =>
        have := hrest a r rfl
        simp [List.takeWhile_cons, this]
    unfold fetch_val
    simp only [hat, h1, and_false, if_false, ge_iff_le, Nat.not_le.mpr hlen, hc, if_true, hdrop,
      htw]

theorem isOperand_word {D : Type} (reg : Registry D) (f : Str) (hne : f ≠ [])
    (hlow : f.all islower = true) (hreg : isAdditionalOperand reg f = false) :
    isOperand reg f = false := by
  cases f with
  | nil => exact absurd rfl hne
  | cons c f =>
    simp only [List.all_cons, Bool.and_eq_true] at hlow
    obtain ⟨-, h2, h3, h4, -, -⟩ := lower_facts c hlow.1
    simp [isOperand, hreg, front, h4, h2, h3]

theorem getType_open {D : Type} (reg : Registry D) (hreg : registryOk reg = true) :
    getType reg ['('] = .OPEN_PARENTHESIS := by
  have h := isOperand_single reg hreg '(' (by decide) (by decide) (by decide)
  simp only [getType, h]; decide

theorem getType_func {D : Type} (reg : Registry D) (f : Str) (h1 : isOperand reg f = false)
    (h2 : isFuncOperator f = true) : getType reg f = .OPERATOR := by
  have hne : f.isEmpty = false := by
    cases f with
    | nil => simp [isFuncOperator] at h2
    | cons _ _ => rfl
  simp [getType, hne, h1, h2]

theorem getOp_func {D : Type} (reg : Registry D) (pre f rest av : Str) (hne : f ≠ [])
    (hlow : f.all islower = true) (hrest : ∀ c r, rest = c :: r → islower c = false)
    (hop : isOperand reg f = false) (hfo : isFuncOperator f = true) :
    getOp reg (pre ++ f ++ rest) pre.length av
      = ⟨.ok (.OPERATOR, f, pre ++ f ++ rest, pre.length + f.length), f⟩ := by
  have hs : isSign (front f) = false := by
    cases f with
    | nil => exact absurd rfl hne
    | cons c f =>
      simp only [List.all_cons, Bool.and_eq_true] at hlow
      exact (lower_facts c hlow.1).2.2.2.1
  simp only [getOp, fetch_val_word pre f rest hne hlow hrest, hop, hs, hfo]
  simp

theorem skipParenthesis_loop_plain (a rest : Str) (h : ∀ c ∈ a, c ≠ '(' ∧ c ≠ ')') :
    ∀ index, skipParenthesis_loop (a ++ ')' :: rest) 0 index = index + a.length := by
  induction a with
  | nil => intro index; simp [skipParenthesis_loop]
  | cons c a ih =>
    intro index
    obtain ⟨h1, h2⟩ := h c (by simp)
    simp only [List.cons_append, skipParenthesis_loop, h1, h2, ne_eq, not_false_eq_true,
      true_or, if_true, if_false, List.append_eq]
    rw [ih (fun c hc => h c (List.mem_cons_of_mem _ hc))]
    simp; omega

theorem literal_no_paren (a : Str) (ha : isLiteral a = true) :
    ∀ c ∈ a, c ≠ '(' ∧ c ≠ ')' := by
  intro c hc
  have := literal_chars a ha c hc
  constructor <;> (rintro rfl; simp [isdigit] at this)

/-- The rewriting of a unary minus in front of a parenthesised numeric literal:
`( 0` goes in front of the minus and `)` behind the group. -/
theorem enclose_negative_paren {D : Type} (reg : Registry D) (hreg : registryOk reg = true)
    (a : Str) (ha : isLiteral a = true) :
    enclose_negative reg ('-' :: '(' :: (a ++ [')'])) 0 ['(']
      = .ok ('(' :: '0' :: '-' :: '(' :: (a ++ [')', ')'])) := by
  have hins : insert ('-' :: '(' :: (a ++ [')'])) 0 ['(', '0']
      = '(' :: '0' :: '-' :: '(' :: (a ++ [')']) := by simp [insert]
  have hskip : skipParenthesis ('(' :: '0' :: '-' :: '(' :: (a ++ [')'])) (0 + (2 + 1))
      = 4 + a.length := by
    have hat : charAt ('(' :: '0' :: '-' :: '(' :: (a ++ [')'])) (0 + (2 + 1)) = '(' := rfl
    have hd : List.drop (0 + (2 + 1) + 1) ('(' :: '0' :: '-' :: '(' :: (a ++ [')']))
        = a ++ ')' :: [] := rfl
    simp only [skipParenthesis, hat, ne_eq, not_true_eq_false, if_false, hd]
    rw [skipParenthesis_loop_plain a [] (literal_no_paren a ha)]
  have hfin : insert ('(' :: '0' :: '-' :: '(' :: (a ++ [')'])) (4 + a.length) [')']
      = '(' :: '0' :: '-' :: '(' :: (a ++ [')', ')']) := by
    have h1 : '(' :: '0' :: '-' :: '(' :: (a ++ [')']) = (['(', '0', '-', '('] ++ a) ++ [')'] := by
      simp
    have h2 : 4 + a.length = (['(', '0', '-', '('] ++ a).length := by simp; omega
    rw [h1, h2]
    unfold insert
    rw [List.take_left, List.drop_left]
    simp
  simp only [enclose_negative, hins, getType_open reg hreg, if_true, hskip, hfin]

theorem word_facts {D : Type} (reg : Registry D) (f : Str) (p : Nat) (w : WFunc)
    (hf : additional_operators_find f = some (1, p, w))
    (hop : isAdditionalOperand reg f = false) :
    f ≠ [] ∧ f.all islower = true ∧ p = 1 ∧ isOperand reg f = false ∧
    isFuncOperator f = true ∧ isBasicOperator f = false ∧ getType reg f = .OPERATOR ∧
    f ≠ ['('] ∧ isSign (front f) = false ∧ precedence f = .ok 4 := by
  obtain ⟨hne, hlow, hp⟩ := find_arity_one f p w hf
  have hisop := isOperand_word reg f hne hlow hop
  have hfo : isFuncOperator f = true := by
    cases f with
    | nil => exact absurd rfl hne
    | cons c f => simp [isFuncOperator, hf]
  have hfront : islower (front f) = true := by
    cases f with
    | nil => exact absurd rfl hne
    | cons c f =>
      simp only [List.all_cons, Bool.and_eq_true] at hlow
      exact hlow.1
  have hb : isBasicOperator f = false := by
    have h1 : front f ≠ '+' := by intro h; rw [h] at hfront; simp [islower] at hfront
    have h2 : front f ≠ '-' := by intro h; rw [h] at hfront; simp [islower] at hfront
    have h3 : front f ≠ '*' := by intro h; rw [h] at hfront; simp [islower] at hfront
    have h4 : front f ≠ '/' := by intro h; rw [h] at hfront; simp [islower] at hfront
    simp [isBasicOperator, h1, h2, h3, h4]
  refine ⟨hne, hlow, hp, hisop, hfo, hb, getType_func reg f hisop hfo, ?_,
    (lower_facts _ hfront).2.2.2.1, ?_⟩
  · rintro rfl; simp [islower] at hlow
  · subst hp
    simp [precedence, hfo, get_precedence_func_operator, hf, PRECEDENCE_VAL_FUNC_OPERATOR,
      PRECEDENCE_VAL_MULTIPLICATION, PRECEDENCE_VAL_SUM, PRECEDENCE_VAL_OTHER]

/-- The rewriting of a unary minus in front of the application of an arity-1
function-operator to a parenthesised numeric literal. -/
theorem enclose_negative_func {D : Type} (reg : Registry D) (hreg : registryOk reg = true)
    (f a : Str) (p : Nat) (w : WFunc) (hf : additional_operators_find f = some (1, p, w))
    (hop : isAdditionalOperand reg f = false) (ha : isLiteral a = true) :
    enclose_negative reg ('-' :: (f ++ '(' :: (a ++ [')']))) 0 f
      = .ok ('(' :: '0' :: '-' :: (f ++ '(' :: (a ++ [')', ')']))) := by
  obtain ⟨hne, hlow, -, hisop, hfo, -, hty, -, -, -⟩ := word_facts reg f p w hf hop
  have hins : insert ('-' :: (f ++ '(' :: (a ++ [')']))) 0 ['(', '0']
      = '(' :: '0' :: '-' :: (f ++ '(' :: (a ++ [')'])) := by simp [insert]
  have hfw : fetch_val ('(' :: '0' :: '-' :: (f ++ '(' :: (a ++ [')']))) (0 + (2 + 1))
      = .ok (true, f, 3 + f.length) := by
    have := fetch_val_word ['(', '0', '-'] f ('(' :: (a ++ [')'])) hne hlow
      (by intro c r h; cases h; rfl)
    simpa using this
  have hfs : fetch_val ('(' :: '0' :: '-' :: (f ++ '(' :: (a ++ [')']))) (3 + f.length)
      = .ok (true, ['('], 3 + f.length + 1) := by
    have := fetch_val_single (['(', '0', '-'] ++ f) (a ++ [')']) '('
      (by decide) (by decide) (by decide) (by decide)
    have hl : (['(', '0', '-'] ++ f).length = 3 + f.length := by simp; omega
    rw [hl] at this
    simpa using this
  have hfind : find_argument reg (('(' :: '0' :: '-' :: (f ++ '(' :: (a ++ [')']))).length + 1)
      ('(' :: '0' :: '-' :: (f ++ '(' :: (a ++ [')']))) (0 + (2 + 1))
      = .ok (some .OPEN_PARENTHESIS, 3 + f.length + 1) := by
    obtain ⟨n, hn⟩ : ∃ n, ('(' :: '0' :: '-' :: (f ++ '(' :: (a ++ [')']))).length + 1 = n + 2 :=
      ⟨f.length + a.length + 4, by simp; omega⟩
    rw [hn]
    simp only [find_argument, hfw, hty, hfs, getType_open reg hreg]
    simp
  have hskip : skipParenthesis ('(' :: '0' :: '-' :: (f ++ '(' :: (a ++ [')'])))
      (3 + f.length + 1 - 1) = 3 + f.length + 1 + a.length := by
    have hat : charAt ('(' :: '0' :: '-' :: (f ++ '(' :: (a ++ [')']))) (3 + f.length + 1 - 1)
        = '(' := by
      have := charAt_append_cons (['(', '0', '-'] ++ f) (a ++ [')']) '('
      have hl : (['(', '0', '-'] ++ f).length = 3 + f.length + 1 - 1 := by simp; omega
      rw [hl] at this
      simpa using this
    have hd : List.drop (3 + f.length + 1 - 1 + 1) ('(' :: '0' :: '-' :: (f ++ '(' :: (a ++ [')'])))
        = a ++ ')' :: [] := by
      have h1 : '(' :: '0' :: '-' :: (f ++ '(' :: (a ++ [')']))
          = (['(', '0', '-'] ++ f ++ ['(']) ++ (a ++ [')']) := by simp
      have h2 : 3 + f.length + 1 - 1 + 1 = (['(', '0', '-'] ++ f ++ ['(']).length := by
        simp; omega
      rw [h1, h2, List.drop_left]
    simp only [skipParenthesis, hat, ne_eq, not_true_eq_false, if_false, hd]
    rw [skipParenthesis_loop_plain a [] (literal_no_paren a ha)]
    omega
  have hfin : insert ('(' :: '0' :: '-' :: (f ++ '(' :: (a ++ [')']))) (3 + f.length + 1 + a.length)
      [')'] = '(' :: '0' :: '-' :: (f ++ '(' :: (a ++ [')', ')'])) := by
    have h1 : '(' :: '0' :: '-' :: (f ++ '(' :: (a ++ [')']))
        = (['(', '0', '-'] ++ f ++ ['('] ++ a) ++ [')'] := by simp
    have h2 : 3 + f.length + 1 + a.length = (['(', '0', '-'] ++ f ++ ['('] ++ a).length := by
      simp; omega
    rw [h1, h2]
    unfold insert
    rw [List.take_left, List.drop_left]
    simp
  have hty2 : ¬ getType reg f = .OPEN_PARENTHESIS := by rw [hty]; decide
  have hn1 : get_operands_func_operator f = .ok 1 := by
    simp [get_operands_func_operator, hf]
  simp only [enclose_negative, hins, hty2, if_false, hn1, enclose_arguments, hfind, if_true,
    hskip, hfin]

/-- The call of `getOp` at a leading unary minus whose following unit is not an
operand: the text is rewritten and an opening parenthesis is reported. -/
theorem getOp_unary_minus {D : Type} (reg : Registry D) (hreg : registryOk reg = true)
    (rest av next_val new_expr : Str) (next_index : Nat)
    (hnext : fetch_val ('-' :: rest) 1 = .ok (true, next_val, next_index))
    (hns : isSign (front next_val) = false) (hno : isOperand reg next_val = false)
    (hav : getType reg av = .OPERATOR ∨ getType reg av = .OPEN_PARENTHESIS
      ∨ getType reg av = .NO_TYPE)
    (hen : enclose_negative reg ('-' :: rest) 0 next_val = .ok new_expr) :
    getOp reg ('-' :: rest) 0 av = ⟨.ok (.OPEN_PARENTHESIS, ['-'], new_expr, 1), ['(']⟩ := by
  have hf0 : fetch_val ('-' :: rest) 0 = .ok (true, ['-'], 1) := by
    simpa using fetch_val_single [] rest '-' (by decide) (by decide) (by decide) (by decide)
  have ho := isOperand_single reg hreg '-' (by decide) (by decide) (by decide)
  have hs : isSign (front ['-']) = true := by decide
  have hfr : front ['-'] ≠ '+' := by decide
  simp only [getOp, hf0, ho, hs, getOp_sign, hnext, hns, hav]
  simp [hfr, hno, hen]

theorem getOp_literal_at {D : Type} (reg : Registry D) (expr pre l rest av : Str) (i j : Nat)
    (he : expr = pre ++ l ++ rest) (hi : i = pre.length) (hj : j = pre.length + l.length)
    (hl : isLiteral l = true)
    (hrest : ∀ c r, rest = c :: r → (isdigit c || c == '.') = false) :
    getOp reg expr i av = ⟨.ok (.OPERAND, l, expr, j), l⟩ := by
  subst he hi hj; exact getOp_literal reg pre l rest av hl hrest

theorem getOp_open_at {D : Type} (reg : Registry D) (hreg : registryOk reg = true)
    (expr pre rest av : Str) (i j : Nat)
    (he : expr = pre ++ '(' :: rest) (hi : i = pre.length) (hj : j = pre.length + 1) :
    getOp reg expr i av = ⟨.ok (.OPEN_PARENTHESIS, ['('], expr, j), ['(']⟩ := by
  subst he hi hj; exact getOp_open reg hreg pre rest av

theorem getOp_close_at {D : Type} (reg : Registry D) (hreg : registryOk reg = true)
    (expr pre rest av : Str) (i j : Nat)
    (he : expr = pre ++ ')' :: rest) (hi : i = pre.length) (hj : j = pre.length + 1) :
    getOp reg expr i av = ⟨.ok (.CLOSE_PARENTHESIS, [')'], expr, j), [')']⟩ := by
  subst he hi hj; exact getOp_close reg hreg pre rest av

theorem getOp_func_at {D : Type} (reg : Registry D) (expr pre f rest av : Str) (i j : Nat)
    (he : expr = pre ++ f ++ rest) (hi : i = pre.length) (hj : j = pre.length + f.length)
    (hne : f ≠ [])
    (hlow : f.all islower = true) (hrest : ∀ c r, rest = c :: r → islower c = false)
    (hop : isOperand reg f = false) (hfo : isFuncOperator f = true) :
    getOp reg expr i av = ⟨.ok (.OPERATOR, f, expr, j), f⟩ := by
  subst he hi hj; exact getOp_func reg pre f rest av hne hlow hrest hop hfo

theorem getOp_end_at {D : Type} (reg : Registry D) (expr av : Str) (i : Nat)
    (hi : i = expr.length) :
    getOp reg expr i av = ⟨.ok (.NO_TYPE, [], expr, i), []⟩ := by
  subst hi; exact getOp_end reg expr av

/-- The token loop on the rewritten text `(0-f(a))` from behind its first
parenthesis. -/
theorem infix_to_rpn_loop_zero_minus_func {D : Type} (reg : Registry D)
    (hreg : registryOk reg = true)
    (f a : Str) (p : Nat) (w : WFunc) (hf : additional_operators_find f = some (1, p, w))
    (hop : isAdditionalOperand reg f = false) (ha : isLiteral a = true) (fuel : Nat) :
    infix_to_rpn_loop reg (fuel + 8) ('(' :: '0' :: '-' :: (f ++ '(' :: (a ++ [')', ')'])))
      1 ['('] [['(']] [] = ⟨.returned true, [['0'], a, f, ['-']], []⟩ := by
  obtain ⟨hne, hlow, -, hisop, hfo, hb, hty, hfp, hfs, hprec⟩ := word_facts reg f p w hf hop
  have hn1 : get_operands_func_operator f = .ok 1 := by
    simp [get_operands_func_operator, hf]
  have hlp : islower '(' = false := by decide
  have hg1 := getOp_literal_at reg ('(' :: '0' :: '-' :: (f ++ '(' :: (a ++ [')', ')'])))
    ['('] ['0'] ('-' :: (f ++ '(' :: (a ++ [')', ')']))) ['('] 1 2 (by simp) (by simp) (by simp)
    (by decide) (by intro c r h; cases h; rfl)
  have hg2 : getOp reg ('(' :: '0' :: '-' :: (f ++ '(' :: (a ++ [')', ')']))) 2 ['0']
      = ⟨.ok (.OPERATOR, ['-'], '(' :: '0' :: '-' :: (f ++ '(' :: (a ++ [')', ')'])), 3),
          ['-']⟩ := by
    have hnext := fetch_val_word ['(', '0', '-'] f ('(' :: (a ++ [')', ')'])) hne hlow
      (by intro c r h; cases h; exact hlp)
    have := getOp_binary_sign reg hreg ['(', '0'] (f ++ '(' :: (a ++ [')', ')'])) ['0'] '-'
      (Or.inr rfl) f (3 + f.length) (by simpa using hnext) hfs
      (Or.inl (getType_literal reg ['0'] (by decide)))
    simpa using this
  have hg3 := getOp_func_at reg ('(' :: '0' :: '-' :: (f ++ '(' :: (a ++ [')', ')'])))
    ['(', '0', '-'] f ('(' :: (a ++ [')', ')'])) ['-'] 3 (3 + f.length) (by simp) (by simp)
    (by simp) hne hlow (by intro c r h; cases h; exact hlp) hisop hfo
  have hg4 := getOp_open_at reg hreg ('(' :: '0' :: '-' :: (f ++ '(' :: (a ++ [')', ')'])))
    (['(', '0', '-'] ++ f) (a ++ [')', ')']) f (3 + f.length) (3 + f.length + 1)
    (by simp) (by simp; omega) (by simp; omega)
  have hg5 := getOp_literal_at reg ('(' :: '0' :: '-' :: (f ++ '(' :: (a ++ [')', ')'])))
    (['(', '0', '-'] ++ f ++ ['(']) a [')', ')'] ['('] (3 + f.length + 1)
    (3 + f.length + 1 + a.length) (by simp) (by simp; omega) (by simp; omega) ha
    (by intro c r h; cases h; rfl)
  have hg6 := getOp_close_at reg hreg ('(' :: '0' :: '-' :: (f ++ '(' :: (a ++ [')', ')'])))
    (['(', '0', '-'] ++ f ++ ['('] ++ a) [')'] a (3 + f.length + 1 + a.length)
    (3 + f.length + 1 + a.length + 1) (by simp) (by simp; omega) (by simp; omega)
  have hg7 := getOp_close_at reg hreg ('(' :: '0' :: '-' :: (f ++ '(' :: (a ++ [')', ')'])))
    (['(', '0', '-'] ++ f ++ ['('] ++ a ++ [')']) [] [')'] (3 + f.length + 1 + a.length + 1)
    (3 + f.length + 1 + a.length + 1 + 1) (by simp) (by simp; omega) (by simp; omega)
  have hg8 := getOp_end_at reg ('(' :: '0' :: '-' :: (f ++ '(' :: (a ++ [')', ')']))) [')']
    (3 + f.length + 1 + a.length + 1 + 1) (by simp; omega)
  have hp2 : pop_operators ['-'] [['(']] [['0']] = .ok ([['(']], [['0']]) := rfl
  have hpm : precedence ['-'] = .ok 1 := rfl
  have hp3 : pop_operators f [['-'], ['(']] [['0']] = .ok ([['-'], ['(']], [['0']]) := by
    simp [pop_operators, hprec, hpm]
  have hu6 : pop_until_open [['('], f, ['-'], ['(']] [['0'], a]
      = ([['('], f, ['-'], ['(']], [['0'], a]) := by simp [pop_until_open]
  have hu7 : pop_until_open [f, ['-'], ['(']] [['0'], a]
      = ([['(']], [['0'], a, f, ['-']]) := by simp [pop_until_open, hfp]
  have hchk : checkRpn reg [['0'], a, f, ['-']] = .ok true := by
    have o0 := isOperand_literal reg ['0'] (by decide)
    have oa := isOperand_literal reg a ha
    have om := isOperand_single reg hreg '-' (by decide) (by decide) (by decide)
    have bm : isBasicOperator ['-'] = true := by decide
    simp [checkRpn, checkRpn_loop, o0, oa, om, bm, hisop, hb, hfo, hn1]
  rw [infix_to_rpn_loop, hg1]
  simp only []
  rw [infix_to_rpn_loop, hg2]
  simp only [hp2, List.nil_append]
  rw [infix_to_rpn_loop, hg3]
  simp only [hp3]
  rw [infix_to_rpn_loop, hg4]
  simp only []
  rw [infix_to_rpn_loop, hg5]
  simp only [List.cons_append, List.nil_append]
  rw [infix_to_rpn_loop, hg6]
  simp only [hu6]
  rw [infix_to_rpn_loop, hg7]
  simp only [hu7]
  rw [infix_to_rpn_loop, hg8]
  simp [infix_to_rpn_finish, hchk]

theorem lower_plain (c : Char) (h : islower c = true) : adj_subst c = c ∧ c ≠ ' ' := by
  refine ⟨?_, (lower_facts c h).1⟩
  simp only [islower, Bool.and_eq_true, decide_eq_true_eq] at h
  have h1 : c ≠ '\t' := by rintro rfl; simp at h
  have h2 : c ≠ '{' := by rintro rfl; simp at h
  have h3 : c ≠ '[' := by rintro rfl; simp at h
  have h4 : c ≠ '}' := by rintro rfl; simp at h
  have h5 : c ≠ ']' := by rintro rfl; simp at h
  simp [adj_subst, h1, h2, h3, h4, h5]

/-- A text made of lowercase letters, digits, dots and the characters `-`, `(`
and `)` is left as it is by `adj_expr`. -/
theorem adj_expr_block (s : Str)
    (h : ∀ c ∈ s, islower c = true ∨ (isdigit c || c == '.') = true ∨ c = '-' ∨ c = '('
      ∨ c = ')') : adj_expr s = .ok s := by
  apply adj_expr_plain
  intro c hc
  rcases h c hc with h | h | rfl | rfl | rfl
  · exact lower_plain c h
  · exact ⟨adj_subst_digit c h, digit_not_space c h⟩
  · exact ⟨by decide, by decide⟩
  · exact ⟨by decide, by decide⟩
  · exact ⟨by decide, by decide⟩

/-- C11: a unary minus in front of a parenthesised group or of a
function-operator application is rewritten to a subtraction from zero that
encloses the whole following sub-expression. For every arity-1 function-operator
name `f` that is not shadowed by a registered operand and every unsigned numeric
literal `a`, called when the static `actual_val` of `getOp` is not an operand nor
a closing parenthesis (as at program start) and with fuel for nine calls of
`getOp`: `-f(a)` and `(0-f(a))` both return true with the output `[0, a, f, -]`,
`-(a)` and `(0-(a))` both return true with `[0, a, -]`, and `[0, a, f, -]`
evaluates to `(true, 0 - y)` where `y` is the value the wrapper of `f` returns
without error on the value of `a`. -/
theorem infix_to_rpn_unary_minus_block {D : Type} (A : Arith D) (reg : Registry D)
    (hreg : registryOk reg = true) (f a : Str) (p : Nat) (w : WFunc)
    (hf : additional_operators_find f = some (1, p, w))
    (hop : isAdditionalOperand reg f = false) (ha : isLiteral a = true)
    (actual_val : Str)
    (hav : getType reg actual_val = .OPERATOR ∨ getType reg actual_val = .OPEN_PARENTHESIS
      ∨ getType reg actual_val = .NO_TYPE)
    (fuel : Nat) (hfuel : 9 ≤ fuel) :
    infix_to_rpn fuel reg actual_val ('-' :: (f ++ '(' :: (a ++ [')'])))
      = ⟨.returned true, [['0'], a, f, ['-']], []⟩ ∧
    infix_to_rpn fuel reg actual_val ('(' :: '0' :: '-' :: (f ++ '(' :: (a ++ [')', ')'])))
      = ⟨.returned true, [['0'], a, f, ['-']], []⟩ ∧
    infix_to_rpn fuel reg actual_val ('-' :: '(' :: (a ++ [')']))
      = ⟨.returned true, [['0'], a, ['-']], []⟩ ∧
    infix_to_rpn fuel reg actual_val ('(' :: '0' :: '-' :: '(' :: (a ++ [')', ')']))
      = ⟨.returned true, [['0'], a, ['-']], []⟩ ∧
    (∀ x0 xa y : D, A.stod ['0'] = some x0 → A.stod a = some xa →
      A.wfunc w [xa] = (true, y) →
      evaluate A reg [['0'], a, f, ['-']] = .returned true (A.sub x0 y)) := by
  obtain ⟨k, rfl⟩ : ∃ k, fuel = k + 9 := ⟨fuel - 9, by omega⟩
  obtain ⟨hne, hlow, -, hisop, hfo, hb, hty, hfp, hfs, hprec⟩ := word_facts reg f p w hf hop
  have hlowc : ∀ c ∈ f, islower c = true := fun c hc => List.all_eq_true.mp hlow c hc
  have hlit := literal_chars a ha
  have o0 := isOperand_literal reg ['0'] (by decide)
  have oa := isOperand_literal reg a ha
  have om := isOperand_single reg hreg '-' (by decide) (by decide) (by decide)
  have bm : isBasicOperator ['-'] = true := by decide
  have hacc6 : accepts false 1 [.lit ['0'], .oper '-', .lparen, .lit a, .rparen, .rparen]
      = true := by
    have h0 : isLiteral ['0'] = true := by decide
    have hm : isBasicOperatorChar '-' = true := by decide
    simp [accepts, ha, h0, hm]
  have hsh : shunt [.lit ['0'], .oper '-', .lparen, .lit a, .rparen, .rparen] [['(']] []
      = [['0'], a, ['-']] := by
    have hp2 : pop_operators ['-'] [['(']] [['0']] = .ok ([['(']], [['0']]) := rfl
    simp [shunt, hp2, pop_until_open]
  have hloop6 : ∀ av, infix_to_rpn_loop reg (k + 8)
      ('(' :: '0' :: '-' :: '(' :: (a ++ [')', ')'])) 1 av [['(']] []
      = ⟨.returned true, [['0'], a, ['-']], []⟩ := by
    intro av
    have := infix_to_rpn_loop_accepts reg hreg
      [.lit ['0'], .oper '-', .lparen, .lit a, .rparen, .rparen] false 1 hacc6 ['('] av
      [['(']] [] 0 (k + 8) (by simp) (StackShape.paren [] 0 0 StackShape.nil)
      (by simpa using runs_nil reg 0) (by simp)
    rw [hsh] at this
    simpa [tokText, Tok.text] using this
  refine ⟨?_, ?_, ?_, ?_, ?_⟩
  · have hplain : adj_expr ('-' :: (f ++ '(' :: (a ++ [')'])))
        = .ok ('-' :: (f ++ '(' :: (a ++ [')']))) := by
      apply adj_expr_block
      intro c hc
      simp only [List.mem_cons, List.mem_append, List.mem_singleton, List.not_mem_nil,
        or_false] at hc
      rcases hc with rfl | hc | rfl | hc | rfl
      · simp
      · exact Or.inl (hlowc c hc)
      · simp
      · exact Or.inr (Or.inl (hlit c hc))
      · simp
    have hnext : fetch_val ('-' :: (f ++ '(' :: (a ++ [')']))) 1
        = .ok (true, f, 1 + f.length) := by
      have := fetch_val_word ['-'] f ('(' :: (a ++ [')'])) hne hlow
        (by intro c r h; cases h; rfl)
      simpa using this
    have hg := getOp_unary_minus reg hreg (f ++ '(' :: (a ++ [')'])) actual_val f _ _
      hnext hfs hisop hav (enclose_negative_func reg hreg f a p w hf hop ha)
    unfold infix_to_rpn
    rw [hplain]
    simp only []
    rw [infix_to_rpn_loop, hg]
    simp only []
    exact infix_to_rpn_loop_zero_minus_func reg hreg f a p w hf hop ha k
  · have hplain : adj_expr ('(' :: '0' :: '-' :: (f ++ '(' :: (a ++ [')', ')'])))
        = .ok ('(' :: '0' :: '-' :: (f ++ '(' :: (a ++ [')', ')']))) := by
      apply adj_expr_block
      intro c hc
      simp only [List.mem_cons, List.mem_append, List.mem_singleton, List.not_mem_nil,
        or_false] at hc
      rcases hc with rfl | rfl | rfl | hc | rfl | hc | rfl | rfl
      · simp
      · right; left; decide
      · simp
      · exact Or.inl (hlowc c hc)
      · simp
      · exact Or.inr (Or.inl (hlit c hc))
      · simp
      · simp
    have hg := getOp_open_at reg hreg ('(' :: '0' :: '-' :: (f ++ '(' :: (a ++ [')', ')'])))
      [] ('0' :: '-' :: (f ++ '(' :: (a ++ [')', ')']))) actual_val 0 1 (by simp) (by simp)
      (by simp)
    unfold infix_to_rpn
    rw [hplain]
    simp only []
    rw [infix_to_rpn_loop, hg]
    simp only []
    exact infix_to_rpn_loop_zero_minus_func reg hreg f a p w hf hop ha k
  · have hplain : adj_expr ('-' :: '(' :: (a ++ [')'])) = .ok ('-' :: '(' :: (a ++ [')'])) := by
      apply adj_expr_block
      intro c hc
      simp only [List.mem_cons, List.mem_append, List.mem_singleton, List.not_mem_nil,
        or_false] at hc
      rcases hc with rfl | rfl | hc | rfl
      · simp
      · simp
      · exact Or.inr (Or.inl (hlit c hc))
      · simp
    have hnext : fetch_val ('-' :: '(' :: (a ++ [')'])) 1 = .ok (true, ['('], 2) := by
      have := fetch_val_single ['-'] (a ++ [')']) '(' (by decide) (by decide) (by decide)
        (by decide)
      simpa using this
    have hg := getOp_unary_minus reg hreg ('(' :: (a ++ [')'])) actual_val ['('] _ _
      hnext (by decide) (isOperand_single reg hreg '(' (by decide) (by decide) (by decide))
      hav (enclose_negative_paren reg hreg a ha)
    unfold infix_to_rpn
    rw [hplain]
    simp only []
    rw [infix_to_rpn_loop, hg]
    simp only []
    exact hloop6 _
  · have hplain : adj_expr ('(' :: '0' :: '-' :: '(' :: (a ++ [')', ')']))
        = .ok ('(' :: '0' :: '-' :: '(' :: (a ++ [')', ')'])) := by
      apply adj_expr_block
      intro c hc
      simp only [List.mem_cons, List.mem_append, List.mem_singleton, List.not_mem_nil,
        or_false] at hc
      rcases hc with rfl | rfl | rfl | rfl | hc | rfl | rfl
      · simp
      · right; left; decide
      · simp
      · simp
      · exact Or.inr (Or.inl (hlit c hc))
      · simp
      · simp
    have hg := getOp_open_at reg hreg ('(' :: '0' :: '-' :: '(' :: (a ++ [')', ')']))
      [] ('0' :: '-' :: '(' :: (a ++ [')', ')'])) actual_val 0 1 (by simp) (by simp)
      (by simp)
    unfold infix_to_rpn
    rw [hplain]
    simp only []
    rw [infix_to_rpn_loop, hg]
    simp only []
    exact hloop6 _
  · intro x0 xa y h0 h1 h2
    have hn1 : get_operands_func_operator f = .ok 1 := by
      simp [get_operands_func_operator, hf]
    have hchk : checkRpn reg [['0'], a, f, ['-']] = .ok true := by
      simp [checkRpn, checkRpn_loop, o0, oa, om, bm, hisop, hb, hfo, hn1]
    have r0 : isAdditionalOperand reg ['0'] = false :=
      isAdditionalOperand_false_of_not_lower reg hreg '0' [] (by decide)
    have ra : isAdditionalOperand reg a = false := by
      obtain ⟨c, r, rfl⟩ : ∃ c r, a = c :: r := by
        cases a with
        | nil => simp [isLiteral] at ha
        | cons c r => exact ⟨c, r, rfl⟩
      exact isAdditionalOperand_false_of_not_lower reg hreg c r
        (digit_not_lower c (hlit c (by simp)))
    have hfm : front ['-'] = '-' := rfl
    simp [evaluate, hchk, evaluate_loop, evaluate_step, o0, oa, om, bm, hisop, hb, hfo, hn1, r0,
      ra, h0, h1, eval_func_operator, hf, h2, hfm]

theorem infix_to_rpn_unary_minus_block_witness :
    registryOk ([] : Registry ℚ) = true ∧
    additional_operators_find ['s', 'q', 'r', 't'] = some (1, 1, .wfunc_sqrt) ∧
    isAdditionalOperand ([] : Registry ℚ) ['s', 'q', 'r', 't'] = false ∧
    isLiteral ['9'] = true ∧ getType ([] : Registry ℚ) [] = .NO_TYPE ∧
    infix_to_rpn 9 ([] : Registry ℚ) [] ['-', 's', 'q', 'r', 't', '(', '9', ')']
      = ⟨.returned true, [['0'], ['9'], ['s', 'q', 'r', 't'], ['-']], []⟩ ∧
    infix_to_rpn 9 ([] : Registry ℚ) [] ['(', '0', '-', 's', 'q', 'r', 't', '(', '9', ')', ')']
      = ⟨.returned true, [['0'], ['9'], ['s', 'q', 'r', 't'], ['-']], []⟩ ∧
    evaluate (exactArith (fun g argv => if g = .wfunc_sqrt ∧ argv = [9] then (true, 3)
        else (false, 0))) ([] : Registry ℚ) [['0'], ['9'], ['s', 'q', 'r', 't'], ['-']]
      = .returned true (-3) :=
  have h := infix_to_rpn_unary_minus_block
    (exactArith (fun g argv => if g = .wfunc_sqrt ∧ argv = [9] then (true, 3) else (false, 0)))
    ([] : Registry ℚ) rfl ['s', 'q', 'r', 't'] ['9'] 1 .wfunc_sqrt rfl rfl rfl []
    (Or.inr (Or.inr rfl)) 9 (by decide)
  have h9 : exact_stod ['9'] = some 9 := by
    simp [exact_stod, front, isSign, isdigit, decimal_value, digit_value]
  ⟨rfl, rfl, rfl, rfl, rfl, h.1, h.2.1, by
    have he := h.2.2.2.2 0 9 3 exact_stod_0 h9 (by simp [exactArith])
    simpa [exactArith] using he⟩

theorem find_not_basic (f : Str) (e : Nat × Nat × WFunc)
    (hf : additional_operators_find f = some e) :
    isBasicOperator f = false ∧ isFuncOperator f = true := by
  have hfo : isFuncOperator f = true := by
    cases f with
    | nil =>
      have h0 : additional_operators_find [] = none := by decide
      rw [h0] at hf; cases hf
    | cons c f => simp [isFuncOperator, hf]
  refine ⟨?_, hfo⟩
  unfold additional_operators_find additional_operators_init at hf
  simp only [List.find?_cons] at hf
  repeat' split at hf
  all_goals first
    | (simp at hf; done)
    | (rename_i h
       have hf2 : _ = f := LawfulBEq.eq_of_beq h
       subst hf2
       decide)
    | simp_all

theorem stack_after_append {D : Type} (A : Arith D) (reg : Registry D) (pre rest : List Str) :
    ∀ operands operands2 : List D, stack_after A reg pre operands = some operands2 →
      stack_after A reg (pre ++ rest) operands = stack_after A reg rest operands2 := by
  induction pre with
  | nil => intro operands operands2 h; simp [stack_after] at h; simp [h]
  | cons t pre ih =>
    intro operands operands2 h
    simp only [List.cons_append, stack_after] at h ⊢
    cases hs : evaluate_step A reg t operands with
    | next o2 => rw [hs] at h; simp only [] at h ⊢; exact ih o2 operands2 h
    | stop r => rw [hs] at h; simp at h

/-- The pass of the loop of `evaluate` at a function-operator of `n` operands
over a stack whose top `n` values were pushed in the order `vs`. -/
theorem evaluate_step_func {D : Type} (A : Arith D) (reg : Registry D) (f : Str)
    (n p : Nat) (w : WFunc) (vs rest : List D)
    (hf : isOperand reg f = false) (hfind : additional_operators_find f = some (n, p, w))
    (hlen : vs.length = n) :
    evaluate_step A reg f (vs.reverse ++ rest) =
      (match A.wfunc w vs with
       | (true, value) => .next (value :: rest)
       | (false, _) => .stop (.returned false A.zero)) := by
  obtain ⟨hb, hfo⟩ := find_not_basic f _ hfind
  have hn : get_operands_func_operator f = .ok n := by
    simp [get_operands_func_operator, hfind]
  have htake : List.take n (vs.reverse ++ rest) = vs.reverse := by
    rw [← hlen, ← List.length_reverse vs, List.take_left]
  have hdrop : List.drop n (vs.reverse ++ rest) = rest := by
    rw [← hlen, ← List.length_reverse vs, List.drop_left]
  have hlt : ¬ (vs.reverse ++ rest).length < n := by simp [hlen]
  simp only [evaluate_step, hf, hb, hfo, hn, hlt, htake, hdrop, List.reverse_reverse,
    eval_func_operator, hfind, if_false, Bool.false_eq_true, if_true]
  rcases A.wfunc w vs with ⟨b, y⟩
  cases b <;> rfl

/-- C21: a function-operator receives its arguments in the order they were
pushed. In a sequence `pre ++ f :: post` accepted by `checkRpn`, when the loop of
`evaluate` reaches the function-operator `f` of `n` operands (a name of the
table that is not classified as an operand) with a stack whose top `n` values
were pushed in the order `vs = [v1, ..., vn]` above `rest`, the wrapper is called
on the array `vs`; when it signals no error with value `y` the `n` values are
replaced by `y` alone (the stack is `y :: rest`) and the loop goes on, and when it
signals an error the call returns `(false, 0.0)`. A basic operator over a stack
on which `a` and then `b` were pushed leaves `a op b` in their place (`/` when
`b` is not zero). -/
theorem evaluate_argument_order {D : Type} (A : Arith D) (reg : Registry D)
    (hreg : registryOk reg = true) (pre post : List Str)
    (f : Str) (n p : Nat) (w : WFunc) (vs rest : List D)
    (hacc : checkRpn reg (pre ++ f :: post) = .ok true)
    (hf : isOperand reg f = false) (hfind : additional_operators_find f = some (n, p, w))
    (hlen : vs.length = n)
    (hreach : stack_after A reg pre [] = some (vs.reverse ++ rest)) :
    (∀ y, A.wfunc w vs = (true, y) →
      stack_after A reg (pre ++ [f]) [] = some (y :: rest) ∧
      evaluate A reg (pre ++ f :: post) = evaluate_loop A reg post (y :: rest)) ∧
    (∀ y, A.wfunc w vs = (false, y) →
      evaluate A reg (pre ++ f :: post) = .returned false A.zero) ∧
    (∀ (a b : D) (below : List D),
      evaluate_step A reg ['+'] (b :: a :: below) = .next (A.add a b :: below) ∧
      evaluate_step A reg ['-'] (b :: a :: below) = .next (A.sub a b :: below) ∧
      evaluate_step A reg ['*'] (b :: a :: below) = .next (A.mul a b :: below) ∧
      (A.eq_zero b = false →
        evaluate_step A reg ['/'] (b :: a :: below) = .next (A.div a b :: below))) := by
  have hev : evaluate A reg (pre ++ f :: post)
      = evaluate_loop A reg (pre ++ f :: post) [] := by simp [evaluate, hacc]
  have hstep := evaluate_step_func A reg f n p w vs rest hf hfind hlen
  refine ⟨?_, ?_, ?_⟩
  · intro y hy
    rw [hy] at hstep
    refine ⟨?_, ?_⟩
    · rw [stack_after_append A reg pre [f] [] _ hreach]
      simp [stack_after, hstep]
    · rw [hev, evaluate_loop_append A reg pre _ [] _ hreach]
      simp [evaluate_loop, hstep]
  · intro y hy
    rw [hy] at hstep
    rw [hev, evaluate_loop_append A reg pre _ [] _ hreach]
    simp [evaluate_loop, hstep]
  · intro a b below
    have op := isOperand_single reg hreg '+' (by decide) (by decide) (by decide)
    have om := isOperand_single reg hreg '-' (by decide) (by decide) (by decide)
    have ot := isOperand_single reg hreg '*' (by decide) (by decide) (by decide)
    have od := isOperand_single reg hreg '/' (by decide) (by decide) (by decide)
    have bp : isBasicOperator ['+'] = true := by decide
    have bm : isBasicOperator ['-'] = true := by decide
    have bt : isBasicOperator ['*'] = true := by decide
    have bd : isBasicOperator ['/'] = true := by decide
    refine ⟨?_, ?_, ?_, ?_⟩
    · simp [evaluate_step, op, bp, front]
    · simp [evaluate_step, om, bm, front]
    · simp [evaluate_step, ot, bt, front]
    · intro hz
      simp [evaluate_step, od, bd, front, hz]

theorem evaluate_argument_order_witness :
    registryOk ([] : Registry ℚ) = true ∧
    checkRpn ([] : Registry ℚ) ([['5'], ['0']] ++ ['l', 'o', 'g', 'b'] :: []) = .ok true ∧
    isOperand ([] : Registry ℚ) ['l', 'o', 'g', 'b'] = false ∧
    additional_operators_find ['l', 'o', 'g', 'b'] = some (2, 1, .wfunc_logb) ∧
    stack_after (exactArith (fun _ argv => (true, argv.headD 0))) [] [['5'], ['0']] []
      = some ([5, 0].reverse ++ []) ∧
    stack_after (exactArith (fun _ argv => (true, argv.headD 0))) []
      ([['5'], ['0']] ++ [['l', 'o', 'g', 'b']]) [] = some [5] :=
  have hst : stack_after (exactArith (fun _ argv => (true, argv.headD 0))) [] [['5'], ['0']] []
      = some ([5, 0].reverse ++ []) := by
    simp [stack_after, evaluate_step, isOperand, isAdditionalOperand, front, isSign, isdigit,
      exactArith, exact_stod_0, exact_stod_5]
  ⟨rfl, rfl, rfl, rfl, hst,
    ((evaluate_argument_order (exactArith (fun _ argv => (true, argv.headD 0)))
      ([] : Registry ℚ) rfl [['5'], ['0']] [] ['l', 'o', 'g', 'b'] 2 1 .wfunc_logb [5, 0] []
      rfl rfl rfl rfl hst).1 5 (by simp [exactArith])).1⟩

theorem takeWhile_append_drop (p : Char → Bool) (l : Str) :
    l = l.takeWhile p ++ l.drop (l.takeWhile p).length := by
  induction l with
  | nil => rfl
  | cons a l ih =>
    cases h : p a
    · simp [List.takeWhile_cons, h]
    · simp only [List.takeWhile_cons, h, if_true, List.length_cons, List.drop_succ_cons,
        List.cons_append]
      rw [← ih]

/-- What a successful call of `fetch_val` returns: the unit starts at `index` or
one character further (behind a space), is not empty, lies in the text, and is
one character long when it starts with a sign. -/
theorem fetch_val_true (expr : Str) (index : Nat) (v : Str) (j : Nat)
    (h : fetch_val expr index = .ok (true, v, j)) :
    ∃ i2, index ≤ i2 ∧ i2 ≤ index + 1 ∧ i2 < expr.length ∧ v ≠ [] ∧ j = i2 + v.length ∧
      j ≤ expr.length ∧ front v = charAt expr i2 ∧ expr.drop i2 = v ++ expr.drop j ∧
      (isSign (front v) = true → v = [charAt expr i2]) ∧
      (i2 = index + 1 → charAt expr index = ' ') := by
  unfold fetch_val at h
  simp only at h
  generalize hi2 : (if index < expr.length ∧ charAt expr index = ' ' then index + 1 else index)
    = i2 at h
  have hle : index ≤ i2 ∧ i2 ≤ index + 1 ∧ (i2 = index + 1 → charAt expr index = ' ') := by
    split at hi2
    · rename_i hc; subst hi2; exact ⟨by omega, by omega, fun _ => hc.2⟩
    · subst hi2; exact ⟨by omega, by omega, fun h => by omega⟩
  have key : ∀ v j, j = i2 + v.length → i2 < expr.length → expr.drop i2 = v ++ expr.drop j →
      j ≤ expr.length := by
    intro v j hj hlt hd
    have := congrArg List.length hd
    simp only [List.length_drop, List.length_append] at this
    omega
  refine ⟨i2, hle.1, hle.2.1, ?_⟩
  split at h
  · simp at h
  · rename_i hlt
    have hlt : i2 < expr.length := by omega
    have hd := drop_eq_charAt_cons expr i2 hlt
    split at h
    · rename_i hlow
      simp only [Except.ok.injEq, Prod.mk.injEq, true_and] at h
      obtain ⟨hv, hj⟩ := h
      have hsplit := takeWhile_append_drop islower (expr.drop i2)
      rw [List.drop_drop] at hsplit
      rw [hv] at hsplit hj
      have hv2 : v = charAt expr i2 :: (expr.drop (i2 + 1)).takeWhile islower := by
        rw [← hv, hd, List.takeWhile_cons, hlow]; rfl
      have hne : v ≠ [] := by rw [hv2]; simp
      have hfront : front v = charAt expr i2 := by rw [hv2]; rfl
      have hdd : List.drop i2 expr = v ++ List.drop j expr := by
        rw [← hj]; exact hsplit
      refine ⟨hlt, hne, hj.symm, key v j hj.symm hlt hdd, hfront, hdd, ?_, hle.2.2⟩
      intro hs
      rw [hfront] at hs
      have := (sign_facts _ hs).2.1
      rw [this] at hlow; cases hlow
    · rename_i hlow
      split at h
      · rename_i hdig
        split at h
        · cases h
        · simp only [Except.ok.injEq, Prod.mk.injEq, true_and] at h
          obtain ⟨hv, hj⟩ := h
          have hsplit := takeWhile_append_drop (fun c => isdigit c || c == '.')
            (expr.drop (i2 + 1))
          rw [List.drop_drop] at hsplit
          have hne : v ≠ [] := by rw [← hv]; simp
          have hfront : front v = charAt expr i2 := by rw [← hv]; rfl
          have hlen : v.length
              = ((expr.drop (i2 + 1)).takeWhile (fun c => isdigit c || c == '.')).length + 1 := by
            rw [← hv]; simp
          have hdd : List.drop i2 expr = v ++ List.drop j expr := by
            rw [hd, ← hv, List.cons_append]
            congr 1
            have hjj : j = i2 + 1 + ((expr.drop (i2 + 1)).takeWhile
                (fun c => isdigit c || c == '.')).length := by
              rw [← hj]; simp; omega
            rw [hjj]; exact hsplit
          have hj2 : j = i2 + v.length := by rw [← hv]; exact hj.symm
          refine ⟨hlt, hne, hj2, key v j hj2 hlt hdd, hfront, hdd, ?_, hle.2.2⟩
          intro hs
          rw [hfront] at hs
          have hf := sign_facts _ hs
          rcases hdig with hdig | hdig
          · rw [hf.2.2.1] at hdig; cases hdig
          · exact absurd hdig hf.2.2.2.1
      · simp only [Except.ok.injEq, Prod.mk.injEq, true_and] at h
        obtain ⟨hv, hj⟩ := h
        have hdd : List.drop i2 expr = v ++ List.drop j expr := by
          rw [hd, ← hv, ← hj]; rfl
        refine ⟨hlt, by rw [← hv]; simp, by rw [← hv, ← hj]; rfl,
          key v j (by rw [← hv, ← hj]; rfl) hlt hdd, by rw [← hv]; rfl, hdd, ?_, hle.2.2⟩
        intro _; exact hv.symm

theorem fetch_val_false (expr : Str) (index : Nat) (v : Str) (j : Nat)
    (h : fetch_val expr index = .ok (false, v, j)) : v = [] ∧ expr.length ≤ j := by
  unfold fetch_val at h
  simp only at h
  generalize (if index < expr.length ∧ charAt expr index = ' ' then index + 1 else index)
    = i2 at h
  split at h
  · rename_i hge
    simp only [Except.ok.injEq, Prod.mk.injEq, true_and] at h
    exact ⟨h.1.symm, by rw [← h.2]; exact hge⟩
  · split at h
    · simp at h
    · split at h
      · split at h <;> simp at h
      · simp at h

theorem getType_sign_token {D : Type} (reg : Registry D) (c : Char) (hs : isSign c = true)
    (ho : isOperand reg [c] = false) : getType reg [c] = .OPERATOR := by
  have hb : isBasicOperator [c] = true := by
    rcases isSign_cases c hs with rfl | rfl <;> decide
  simp [getType, ho, hb]

/-- When `getOp` reports `NO_TYPE`, the static `actual_val` it leaves is the
empty string, a unit of no type, or a sign. -/
theorem getOp_no_type {D : Type} (reg : Registry D) (expr : Str) (index : Nat) (av : Str)
    (obj_val expr2 : Str) (index2 : Nat) (av2 : Str)
    (h : getOp reg expr index av = ⟨.ok (.NO_TYPE, obj_val, expr2, index2), av2⟩) :
    getType reg av2 = .NO_TYPE ∨ getType reg av2 = .OPERATOR := by
  unfold getOp at h
  cases hf : fetch_val expr index with
  | error e => rw [hf] at h; simp at h
  | ok r =>
    obtain ⟨res, v, j⟩ := r
    rw [hf] at h
    simp only at h
    cases res with
    | false =>
      simp only [if_true, GetOp.mk.injEq, Res.ok.injEq, Prod.mk.injEq, true_and] at h
      obtain ⟨hv, -⟩ := fetch_val_false expr index v j hf
      left; rw [← h.2, hv]; rfl
    | true =>
      simp only [Bool.true_eq_false, if_false] at h
      split at h
      · simp at h
      · rename_i hop
        split at h
        · rename_i hs
          obtain ⟨i2, -, -, -, -, -, -, -, -, hsingle, -⟩ := fetch_val_true expr index v j hf
          have hv := hsingle hs
          have hty : getType reg v = .OPERATOR := by
            rw [hv] at hop hs ⊢
            exact getType_sign_token reg _ (by simpa [front] using hs) (by simpa using hop)
          unfold getOp_sign at h
          cases hn : fetch_val expr j with
          | error e => rw [hn] at h; simp at h
          | ok r2 =>
            obtain ⟨res2, nv, nj⟩ := r2
            rw [hn] at h
            cases res2 with
            | false =>
              simp only [GetOp.mk.injEq] at h
              right; rw [← h.2]; exact hty
            | true =>
              simp only at h
              split at h
              · simp at h
              · simp at h
              · rename_i e3 nv3 ni3 sv3 hfold
                split at h
                · split at h
                  · simp only [GetOp.mk.injEq, Res.ok.injEq, Prod.mk.injEq] at h
                    left; rw [← h.2]; exact h.1.1
                  · split at h
                    · simp only [GetOp.mk.injEq, Res.ok.injEq, Prod.mk.injEq] at h
                      left; rw [← h.2]; exact h.1.1
                    · split at h <;> simp at h
                · simp only [GetOp.mk.injEq, Res.ok.injEq, Prod.mk.injEq] at h
                  right; rw [← h.2]; exact hty
        · split at h
          · simp at h
          · split at h
            · simp at h
            · split at h <;> simp at h

/-- When the token loop ends by a `return`, the static `actual_val` it leaves is
the empty string, a unit of no type, or a sign: the next call takes a leading
sign for a unary one. -/
theorem infix_to_rpn_loop_returned_state {D : Type} (reg : Registry D) :
    ∀ (fuel : Nat) (expr : Str) (index : Nat) (av : Str) (op rpn_expr : List Str) (b : Bool),
      (infix_to_rpn_loop reg fuel expr index av op rpn_expr).result = .returned b →
      getType reg (infix_to_rpn_loop reg fuel expr index av op rpn_expr).actual_val = .NO_TYPE ∨
      getType reg (infix_to_rpn_loop reg fuel expr index av op rpn_expr).actual_val
        = .OPERATOR := by
  intro fuel
  induction fuel with
  | zero => intro expr index av op rpn_expr b h; simp [infix_to_rpn_loop] at h
  | succ fuel ih =>
    intro expr index av op rpn_expr b h
    rw [infix_to_rpn_loop] at h ⊢
    generalize hg : getOp reg expr index av = g at h ⊢
    obtain ⟨res, av2⟩ := g
    cases res with
    | threw e => simp at h
    | out_of_fuel => simp at h
    | ok r =>
      obtain ⟨type, obj_val, expr2, index2⟩ := r
      cases type with
      | NO_TYPE =>
        simp only at h ⊢
        have hav := getOp_no_type reg expr index av obj_val expr2 index2 av2 hg
        have hact : (infix_to_rpn_finish reg op rpn_expr av2).actual_val = av2 := by
          unfold infix_to_rpn_finish
          simp only []
          split <;> rfl
        rw [hact]; exact hav
      | OPERAND => simp only at h ⊢; exact ih _ _ _ _ _ b h
      | OPERATOR =>
        simp only at h ⊢
        generalize hp : pop_operators obj_val op rpn_expr = r2 at h ⊢
        cases r2 with
        | error e => simp at h
        | ok r3 =>
          obtain ⟨op2, rpn2⟩ := r3
          exact ih _ _ _ _ _ b h
      | OPEN_PARENTHESIS => simp only at h ⊢; exact ih _ _ _ _ _ b h
      | CLOSE_PARENTHESIS =>
        simp only at h ⊢
        generalize hp : pop_until_open op rpn_expr = r2 at h ⊢
        obtain ⟨op2, rpn2⟩ := r2
        cases op2 with
        | nil => simp at h
        | cons t op3 => exact ih _ _ _ _ _ b h

theorem infix_to_rpn_returned_state {D : Type} (reg : Registry D) (fuel : Nat) (av s : Str)
    (b : Bool) (h : (infix_to_rpn fuel reg av s).result = .returned b) :
    getType reg (infix_to_rpn fuel reg av s).actual_val = .NO_TYPE ∨
    getType reg (infix_to_rpn fuel reg av s).actual_val = .OPERATOR := by
  unfold infix_to_rpn at h ⊢
  rw [adj_expr_eq_spec] at h ⊢
  exact infix_to_rpn_loop_returned_state reg fuel _ 0 av [] [] b h

/-- From a state in which the static `actual_val` is an operand or a closing
parenthesis, a minus in front of an unsigned numeric literal is taken for a
binary operator and the call returns false. -/
theorem infix_to_rpn_minus_literal_binary {D : Type} (reg : Registry D)
    (hreg : registryOk reg = true) (a : Str) (ha : isLiteral a = true) (actual_val : Str)
    (hav : getType reg actual_val = .OPERAND ∨ getType reg actual_val = .CLOSE_PARENTHESIS)
    (fuel : Nat) (hfuel : 3 ≤ fuel) :
    infix_to_rpn fuel reg actual_val ('-' :: a) = ⟨.returned false, [], []⟩ := by
  obtain ⟨fuel, rfl⟩ : ∃ f, fuel = f + 3 := ⟨fuel - 3, by omega⟩
  have hplain : ∀ c ∈ ('-' :: a), adj_subst c = c ∧ c ≠ ' ' := by
    intro c hc
    rcases List.mem_cons.mp hc with rfl | hc
    · exact ⟨by decide, by decide⟩
    · exact literal_plain a ha c hc
  have hf1 : fetch_val ('-' :: a) 1 = .ok (true, a, 1 + a.length) := by
    have := fetch_val_literal ['-'] a [] ha (by intro c r h; cases h)
    simpa using this
  have hns := digit_not_sign _ (literal_front a ha).2
  have hg1 : getOp reg ('-' :: a) 0 actual_val
      = ⟨.ok (.OPERATOR, ['-'], '-' :: a, 1), ['-']⟩ := by
    have := getOp_binary_sign reg hreg [] a actual_val '-' (Or.inr rfl) a (1 + a.length)
      (by simpa using hf1) hns hav
    simpa using this
  have hg2 := getOp_literal_at reg ('-' :: a) ['-'] a [] ['-'] 1 (1 + a.length) (by simp)
    (by simp) (by simp) ha (by intro c r h; cases h)
  have hg3 := getOp_end_at reg ('-' :: a) a (1 + a.length) (by simp; omega)
  have hp : pop_operators ['-'] [] [] = .ok ([], []) := rfl
  have oa := isOperand_literal reg a ha
  have om := isOperand_single reg hreg '-' (by decide) (by decide) (by decide)
  have bm : isBasicOperator ['-'] = true := by decide
  have hchk : checkRpn reg [a, ['-']] = .ok false := by
    simp [checkRpn, checkRpn_loop, oa, om, bm]
  unfold infix_to_rpn
  rw [adj_expr_plain _ hplain]
  simp only []
  rw [infix_to_rpn_loop, hg1]
  simp only [hp]
  rw [infix_to_rpn_loop, hg2]
  simp only [List.nil_append]
  rw [infix_to_rpn_loop, hg3]
  simp [infix_to_rpn_finish, hchk]

/-- C22 (defect of the code): a leading sign is classified against the static
`actual_val` that the call before left, not against the start of the
expression. For every unsigned numeric literal `a`: behind a call that ended by
a `return` (true or false) the call on `-a` returns true with `[-a]`; but from a
state in which `actual_val` is an operand or a closing parenthesis the minus is
taken for a binary operator and the call returns false. A call that raises
leaves such a state: the call on `(1) 1.2.3` raises with `actual_val = ")"`. -/
theorem infix_to_rpn_leading_minus_depends_on_history {D : Type} (reg : Registry D)
    (hreg : registryOk reg = true) (a : Str) (ha : isLiteral a = true)
    (fuel : Nat) (hfuel : 3 ≤ fuel) :
    (∀ (fuel0 : Nat) (av s : Str) (b : Bool),
      (infix_to_rpn fuel0 reg av s).result = .returned b →
      infix_to_rpn fuel reg (infix_to_rpn fuel0 reg av s).actual_val ('-' :: a)
        = ⟨.returned true, [('-' :: a)], []⟩) ∧
    (∀ av : Str, getType reg av = .OPERAND ∨ getType reg av = .CLOSE_PARENTHESIS →
      infix_to_rpn fuel reg av ('-' :: a) = ⟨.returned false, [], []⟩) ∧
    infix_to_rpn 10 ([] : Registry ℚ) [] ['(', '1', ')', ' ', '1', '.', '2', '.', '3']
      = ⟨.threw (.invalid_operand ['1', '.', '2', '.', '3']), [['1']], [')']⟩ ∧
    infix_to_rpn 10 ([] : Registry ℚ) [')'] ['-', '5'] = ⟨.returned false, [], []⟩ := by
  refine ⟨?_, ?_, by decide, by decide⟩
  · intro fuel0 av s b h
    have hst := infix_to_rpn_returned_state reg fuel0 av s b h
    exact infix_to_rpn_negative_literal reg hreg a ha _
      (by rcases hst with h1 | h1
          · exact Or.inr (Or.inr h1)
          · exact Or.inl h1) fuel (by omega)
  · intro av hav
    exact infix_to_rpn_minus_literal_binary reg hreg a ha av hav fuel hfuel

theorem infix_to_rpn_leading_minus_depends_on_history_witness :
    registryOk ([] : Registry ℚ) = true ∧ isLiteral ['5'] = true ∧
    (infix_to_rpn 10 ([] : Registry ℚ) [] ['1', '+']).result = .returned true ∧
    infix_to_rpn 10 ([] : Registry ℚ) (infix_to_rpn 10 ([] : Registry ℚ) [] ['1', '+']).actual_val
      ['-', '5'] = ⟨.returned true, [['-', '5']], []⟩ ∧
    getType ([] : Registry ℚ) ['1'] = .OPERAND ∧
    infix_to_rpn 10 ([] : Registry ℚ) ['1'] ['-', '5'] = ⟨.returned false, [], []⟩ :=
  have h := infix_to_rpn_leading_minus_depends_on_history ([] : Registry ℚ) rfl ['5'] rfl 10
    (by decide)
  ⟨rfl, rfl, by decide, h.1 10 [] ['1', '+'] true (by decide), rfl, h.2.1 ['1'] (Or.inl rfl)⟩

/-- The call of `getOp` at a sign that is the last character of the text: the
second `fetch_val` finds nothing and `NO_TYPE` is returned. -/
theorem getOp_trailing_sign {D : Type} (reg : Registry D) (hreg : registryOk reg = true)
    (pre av : Str) (o : Char) (ho : isSign o = true) :
    getOp reg (pre ++ [o]) pre.length av
      = ⟨.ok (.NO_TYPE, [o], pre ++ [o], pre.length + 1), [o]⟩ := by
  obtain ⟨h1, h2, h3, h4, -, -⟩ := sign_facts o ho
  have hf := fetch_val_single pre [] o h1 h2 h3 h4
  have hop := isOperand_single reg hreg o h2 h3 h4
  have hs : isSign (front [o]) = true := by simpa [front] using ho
  have hend : fetch_val (pre ++ [o]) (pre.length + 1) = .ok (false, [], pre.length + 1) := by
    have := fetch_val_end (pre ++ [o])
    simpa using this
  simp only [getOp, hf, hop, hs, getOp_sign, hend]
  simp

/-- C23 (defect of the code): a sign with nothing behind it is not reported.
`getOp` returns `NO_TYPE` at such a sign ("there is an error in the infix
expression"), which the token loop takes for the end of the text: for every
unsigned numeric literal `a` and sign `o` the call on `a o` returns true with
`[a]`, as the call on `a` does; so `5 +` gives `[5]` and `3 + 4 -` gives
`[3, 4, +]`. -/
theorem infix_to_rpn_trailing_sign_accepted {D : Type} (reg : Registry D)
    (hreg : registryOk reg = true) (a : Str) (ha : isLiteral a = true) (o : Char)
    (ho : isSign o = true) (actual_val : Str) (fuel : Nat) (hfuel : 2 ≤ fuel) :
    infix_to_rpn fuel reg actual_val (a ++ [o]) = ⟨.returned true, [a], [o]⟩ ∧
    infix_to_rpn 10 ([] : Registry ℚ) [] ['5', ' ', '+'] = ⟨.returned true, [['5']], ['+']⟩ ∧
    infix_to_rpn 10 ([] : Registry ℚ) [] ['3', ' ', '+', ' ', '4', ' ', '-']
      = ⟨.returned true, [['3'], ['4'], ['+']], ['-']⟩ ∧
    infix_to_rpn 10 ([] : Registry ℚ) [] ['3', ' ', '+', ' ', '4']
      = ⟨.returned true, [['3'], ['4'], ['+']], []⟩ := by
  refine ⟨?_, by decide, by decide, by decide⟩
  obtain ⟨fuel, rfl⟩ : ∃ f, fuel = f + 2 := ⟨fuel - 2, by omega⟩
  obtain ⟨h1, h2, h3, h4, h5, -⟩ := sign_facts o ho
  have hplain : ∀ c ∈ a ++ [o], adj_subst c = c ∧ c ≠ ' ' := by
    intro c hc
    rcases List.mem_append.mp hc with hc | hc
    · exact literal_plain a ha c hc
    · rw [List.mem_singleton.mp hc]; exact ⟨h5, h1⟩
  have hnd : (isdigit o || o == '.') = false := by simp [h3, h4]
  have hg1 := getOp_literal_at reg (a ++ [o]) [] a [o] actual_val 0 a.length (by simp) (by simp)
    (by simp) ha (by intro c r h; cases h; exact hnd)
  have hg2 := getOp_trailing_sign reg hreg a a o ho
  have hchk : checkRpn reg [a] = .ok true := by
    simp [checkRpn, checkRpn_loop, isOperand_literal reg a ha]
  unfold infix_to_rpn
  rw [adj_expr_plain _ hplain]
  simp only []
  rw [infix_to_rpn_loop, hg1]
  simp only [List.nil_append]
  rw [infix_to_rpn_loop, hg2]
  simp [infix_to_rpn_finish, hchk]

theorem infix_to_rpn_trailing_sign_accepted_witness :
    registryOk ([] : Registry ℚ) = true ∧ isLiteral ['1', '.', '5'] = true ∧
    isSign '-' = true ∧
    infix_to_rpn 2 ([] : Registry ℚ) [] (['1', '.', '5'] ++ ['-'])
      = ⟨.returned true, [['1', '.', '5']], ['-']⟩ :=
  ⟨rfl, rfl, rfl,
    (infix_to_rpn_trailing_sign_accepted ([] : Registry ℚ) rfl ['1', '.', '5'] rfl '-' rfl []
      2 (by decide)).1⟩

/-- C25 (counterexample): the lookup of `asin`, `acos` and `atan` yields the
inverse trigonometric wrappers, the first of the two entries of each name, not
the inverse hyperbolic ones. -/
theorem additional_operators_find_asin_not_hyperbolic :
    additional_operators_find ['a', 's', 'i', 'n'] = some (1, 1, .wfunc_asin) ∧
    additional_operators_find ['a', 'c', 'o', 's'] = some (1, 1, .wfunc_acos) ∧
    additional_operators_find ['a', 't', 'a', 'n'] = some (1, 1, .wfunc_atan) ∧
    additional_operators_find ['a', 's', 'i', 'n'] ≠ some (1, 1, .wfunc_asinh) ∧
    additional_operators_find ['a', 'c', 'o', 's'] ≠ some (1, 1, .wfunc_acosh) ∧
    additional_operators_find ['a', 't', 'a', 'n'] ≠ some (1, 1, .wfunc_atanh) := by
  decide

theorem find_wfunc_not_hyperbolic_inverse (f : Str) (e : Nat × Nat × WFunc)
    (hf : additional_operators_find f = some e) :
    e.2.2 ≠ .wfunc_asinh ∧ e.2.2 ≠ .wfunc_acosh ∧ e.2.2 ≠ .wfunc_atanh := by
  unfold additional_operators_find additional_operators_init at hf
  simp only [List.find?_cons] at hf
  repeat' split at hf
  all_goals first
    | (simp at hf; done)
    | (simp only [Option.map_some', Option.some.injEq] at hf
       subst hf
       decide)
    | simp_all

/-- C25 (amended): in the function-operator table the names `asin`, `acos` and
`atan` are each defined twice and the first definition is the one found: the
lookup of `asin` (resp. `acos`, `atan`) yields `wfunc_asin` (resp. `wfunc_acos`,
`wfunc_atan`), which is what `eval_func_operator` calls, and no name yields
`wfunc_asinh`, `wfunc_acosh` or `wfunc_atanh`: the inverse hyperbolic functions
are unreachable. -/
theorem additional_operators_first_definition_wins {D : Type} (A : Arith D) (f : Str)
    (operands : List D) :
    (additional_operators_init.filter (fun e => e.1 == ['a', 's', 'i', 'n'])).map (fun e => e.2.2.2)
      = [.wfunc_asin, .wfunc_asinh] ∧
    (additional_operators_init.filter (fun e => e.1 == ['a', 'c', 'o', 's'])).map (fun e => e.2.2.2)
      = [.wfunc_acos, .wfunc_acosh] ∧
    (additional_operators_init.filter (fun e => e.1 == ['a', 't', 'a', 'n'])).map (fun e => e.2.2.2)
      = [.wfunc_atan, .wfunc_atanh] ∧
    eval_func_operator A ['a', 's', 'i', 'n'] operands = .ok (A.wfunc .wfunc_asin operands) ∧
    eval_func_operator A ['a', 'c', 'o', 's'] operands = .ok (A.wfunc .wfunc_acos operands) ∧
    eval_func_operator A ['a', 't', 'a', 'n'] operands = .ok (A.wfunc .wfunc_atan operands) ∧
    (additional_operators_find f).map (fun e => e.2.2) ≠ some .wfunc_asinh ∧
    (additional_operators_find f).map (fun e => e.2.2) ≠ some .wfunc_acosh ∧
    (additional_operators_find f).map (fun e => e.2.2) ≠ some .wfunc_atanh := by
  have hfind : ∀ w : WFunc, (w = .wfunc_asinh ∨ w = .wfunc_acosh ∨ w = .wfunc_atanh) →
      (additional_operators_find f).map (fun e => e.2.2) ≠ some w := by
    intro w hw h
    cases he : additional_operators_find f with
    | none => rw [he] at h; cases h
    | some e =>
      rw [he] at h
      simp only [Option.map_some', Option.some.injEq] at h
      obtain ⟨h1, h2, h3⟩ := find_wfunc_not_hyperbolic_inverse f e he
      rcases hw with rfl | rfl | rfl
      · exact h1 h
      · exact h2 h
      · exact h3 h
  have ha : additional_operators_find ['a', 's', 'i', 'n'] = some (1, 1, .wfunc_asin) := by
    decide
  have hc : additional_operators_find ['a', 'c', 'o', 's'] = some (1, 1, .wfunc_acos) := by
    decide
  have ht : additional_operators_find ['a', 't', 'a', 'n'] = some (1, 1, .wfunc_atan) := by
    decide
  refine ⟨by decide, by decide, by decide, ?_, ?_, ?_, hfind _ (Or.inl rfl),
    hfind _ (Or.inr (Or.inl rfl)), hfind _ (Or.inr (Or.inr rfl))⟩
  · simp [eval_func_operator, ha]
  · simp [eval_func_operator, hc]
  · simp [eval_func_operator, ht]

theorem precedence_total (v : Str) : ∃ p, precedence v = .ok p := by
  unfold precedence
  split
  · rename_i h
    obtain ⟨e, he⟩ := isFuncOperator_find v h
    simp [get_precedence_func_operator, he]
  · split
    · exact ⟨_, rfl⟩
    · split <;> exact ⟨_, rfl⟩

/-- The loop that pops operators of higher precedence moves a run of units
from the top of the stack to the end of the output; none of them is an opening
parenthesis. -/
theorem pop_operators_split (v : Str) (op : List Str) :
    ∀ rpn_expr : List Str, ∃ popped op2, pop_operators v op rpn_expr = .ok (op2, rpn_expr ++ popped) ∧
      op = popped ++ op2 ∧ ∀ t ∈ popped, t ≠ ['('] := by
  induction op with
  | nil => intro rpn_expr; exact ⟨[], [], by simp [pop_operators], rfl, by simp⟩
  | cons top op ih =>
    intro rpn_expr
    obtain ⟨p, hp⟩ := precedence_total v
    obtain ⟨q, hq⟩ := precedence_total top
    by_cases hlt : p < q
    · obtain ⟨popped, op2, h1, h2, h3⟩ := ih (rpn_expr ++ [top])
      refine ⟨top :: popped, op2, ?_, by simp [h2], ?_⟩
      · simp only [pop_operators, hp, hq, hlt, if_true, h1]
        simp
      · intro t ht
        rcases List.mem_cons.mp ht with rfl | ht
        · rintro rfl
          rw [precedence_open] at hq
          cases hq; omega
        · exact h3 t ht
    · exact ⟨[], top :: op, by simp [pop_operators, hp, hq, hlt], rfl, by simp⟩

theorem pop_until_open_split (op : List Str) :
    ∀ rpn_expr : List Str, ∃ popped op2, pop_until_open op rpn_expr = (op2, rpn_expr ++ popped) ∧
      op = popped ++ op2 ∧ (∀ t ∈ popped, t ≠ ['(']) ∧
      (op2 = [] ∨ ∃ op3, op2 = ['('] :: op3) := by
  induction op with
  | nil => intro rpn_expr; exact ⟨[], [], by simp [pop_until_open], rfl, by simp, Or.inl rfl⟩
  | cons top op ih =>
    intro rpn_expr
    by_cases ht : top = ['(']
    · subst ht
      exact ⟨[], ['('] :: op, by simp [pop_until_open], rfl, by simp, Or.inr ⟨op, rfl⟩⟩
    · obtain ⟨popped, op2, h1, h2, h3, h4⟩ := ih (rpn_expr ++ [top])
      refine ⟨top :: popped, op2, ?_, by simp [h2], ?_, h4⟩
      · simp only [pop_until_open, ne_eq, ht, not_false_eq_true, if_true, h1]
        simp
      · intro t h
        rcases List.mem_cons.mp h with rfl | h
        · exact ht
        · exact h3 t h

/-- Below a run of units without an opening parenthesis the stack has the shape
of the grammar at the same depth, and the run consists of basic operators. -/
theorem stackShape_split (popped : List Str) :
    ∀ (op2 : List Str) (n depth : Nat), StackShape (popped ++ op2) n depth →
      (∀ t ∈ popped, t ≠ ['(']) →
      (∃ n2, StackShape op2 n2 depth) ∧
      ∀ t ∈ popped, ∃ o, isBasicOperatorChar o = true ∧ t = [o] := by
  induction popped with
  | nil => intro op2 n depth hs _; exact ⟨⟨n, hs⟩, by simp⟩
  | cons t popped ih =>
    intro op2 n depth hs hp
    have ht := hp t (by simp)
    cases hs with
    | paren op n depth hs => exact absurd rfl ht
    | oper o op n depth ho hs =>
      obtain ⟨h1, h2⟩ := ih op2 _ depth hs (fun t h => hp t (List.mem_cons_of_mem _ h))
      refine ⟨h1, ?_⟩
      intro t2 h
      rcases List.mem_cons.mp h with rfl | h
      · exact ⟨o, ho, rfl⟩
      · exact h2 t2 h

theorem stackShape_nil_depth (n depth : Nat) (h : StackShape [] n depth) : depth = 0 := by
  cases h; rfl

theorem basic_token_facts (o : Char) (ho : isBasicOperatorChar o = true) :
    isLiteral [o] = false ∧ isBasicOperator [o] = true ∧ [o] ≠ ['('] ∧ [o] ≠ [')'] := by
  rcases basic_char_cases o ho with rfl | rfl | rfl | rfl <;> decide

theorem literal_token_facts (l : Str) (hl : isLiteral l = true) :
    isBasicOperator l = false ∧ l ≠ ['('] ∧ l ≠ [')'] := by
  have hc := literal_chars l hl
  refine ⟨?_, ?_, ?_⟩
  · cases l with
    | nil => rfl
    | cons c r =>
      cases r with
      | nil =>
        cases hbc : isBasicOperatorChar c with
        | false => simpa [isBasicOperator, isBasicOperatorChar, front] using hbc
        | true =>
          have := basic_char_not_operand_start c hbc
          rw [hc c (by simp)] at this; cases this
      | cons d r => simp [isBasicOperator]
  · rintro rfl; simp [isLiteral, isdigit] at hl
  · rintro rfl; simp [isLiteral, isdigit] at hl

theorem stackShape_zero (op : List Str) :
    ∀ n, StackShape op n 0 → ∀ t ∈ op, ∃ o, isBasicOperatorChar o = true ∧ t = [o] := by
  induction op with
  | nil => intro n _ t ht; cases ht
  | cons top op ih =>
    intro n hs t ht
    cases hs with
    | oper o op n depth ho hs =>
      rcases List.mem_cons.mp ht with rfl | ht
      · exact ⟨o, ho, rfl⟩
      · exact ih _ hs t ht

theorem filter_basic_run (l : List Str)
    (h : ∀ t ∈ l, ∃ o, isBasicOperatorChar o = true ∧ t = [o]) :
    l.filter (fun t => t != ['(']) = l ∧ l.filter isLiteral = [] := by
  induction l with
  | nil => exact ⟨rfl, rfl⟩
  | cons t l ih =>
    obtain ⟨o, ho, rfl⟩ := h t (by simp)
    obtain ⟨h1, h2⟩ := ih (fun t ht => h t (List.mem_cons_of_mem _ ht))
    obtain ⟨f1, -, f3, -⟩ := basic_token_facts o ho
    constructor
    · rw [List.filter_cons_of_pos (by simpa using f3), h1]
    · rw [List.filter_cons_of_neg (by simp [f1]), h2]

/-- The output of the shunting loop on the units of a text of the grammar: as a
multiset it is the output so far, the operators of the stack and the literals
and operators of the text; its literals are those of the output so far followed
by those of the text, in their order. -/
theorem shunt_units (ts : List Tok) :
    ∀ (after : Bool) (depth : Nat), accepts after depth ts = true →
    ∀ (op rpn_expr : List Str) (n : Nat), StackShape op n depth →
      ((shunt ts op rpn_expr : List Str) : Multiset Str)
        = (rpn_expr : Multiset Str) + ((op.filter (fun t => t != ['(']) : List Str) : Multiset Str)
          + ((literalsOf ts : List Str) : Multiset Str)
          + ((operatorsOf ts : List Str) : Multiset Str) ∧
      (shunt ts op rpn_expr).filter isLiteral = rpn_expr.filter isLiteral ++ literalsOf ts := by
  induction ts with
  | nil =>
    intro after depth hacc op rpn_expr n hs
    match after, depth, hacc with
    | true, 0, _ =>
      obtain ⟨h1, h2⟩ := filter_basic_run op (stackShape_zero op n hs)
      simp only [shunt, literalsOf, operatorsOf, h1, List.filter_append, h2]
      simp
    | true, _ + 1, h => simp [accepts] at h
    | false, _, h => simp [accepts] at h
  | cons t ts ih =>
    intro after depth hacc op rpn_expr n hs
    match after, depth, t, hacc with
    | false, depth, .lit l, hacc =>
      simp only [accepts, Bool.and_eq_true] at hacc
      obtain ⟨i1, i2⟩ := ih true depth hacc.2 op (rpn_expr ++ [l]) n hs
      simp only [shunt, literalsOf, operatorsOf]
      refine ⟨?_, ?_⟩
      · rw [i1, ← Multiset.coe_add, ← Multiset.cons_coe l (literalsOf ts), ← Multiset.singleton_add,
          Multiset.coe_singleton]
        abel
      · rw [i2, List.filter_append, List.filter_cons_of_pos (by simpa using hacc.1)]
        simp
    | false, depth, .lparen, hacc =>
      simp only [accepts] at hacc
      obtain ⟨i1, i2⟩ := ih false (depth + 1) hacc (['('] :: op) rpn_expr n
        (StackShape.paren op n depth hs)
      simp only [shunt, literalsOf, operatorsOf]
      refine ⟨?_, i2⟩
      rw [i1, List.filter_cons_of_neg (by simp)]
    | true, depth, .oper o, hacc =>
      simp only [accepts, Bool.and_eq_true] at hacc
      obtain ⟨popped, op2, h1, h2, h3⟩ := pop_operators_split [o] op rpn_expr
      subst h2
      obtain ⟨⟨n2, hs2⟩, hbasic⟩ := stackShape_split popped op2 n depth hs h3
      obtain ⟨f1, f2⟩ := filter_basic_run popped hbasic
      obtain ⟨b1, -, b3, -⟩ := basic_token_facts o hacc.1
      obtain ⟨i1, i2⟩ := ih false depth hacc.2 ([o] :: op2) (rpn_expr ++ popped) (n2 + 1)
        (StackShape.oper o op2 n2 depth hacc.1 hs2)
      simp only [shunt, h1, literalsOf, operatorsOf]
      refine ⟨?_, ?_⟩
      · rw [i1, List.filter_cons_of_pos (by simpa using b3), List.filter_append, f1,
          ← Multiset.coe_add, ← Multiset.coe_add, ← Multiset.cons_coe [o] (operatorsOf ts),
          ← Multiset.cons_coe [o] (op2.filter _), ← Multiset.singleton_add,
          ← Multiset.singleton_add]
        abel
      · rw [i2, List.filter_append, f2]
        simp
    | true, depth + 1, .rparen, hacc =>
      simp only [accepts] at hacc
      obtain ⟨popped, op2, h1, h2, h3, h4⟩ := pop_until_open_split op rpn_expr
      subst h2
      obtain ⟨⟨n2, hs2⟩, hbasic⟩ := stackShape_split popped op2 n (depth + 1) hs h3
      obtain ⟨f1, f2⟩ := filter_basic_run popped hbasic
      rcases h4 with rfl | ⟨op3, rfl⟩
      · cases hs2
      · cases hs2 with
        | paren op n depth hs3 =>
          obtain ⟨i1, i2⟩ := ih true depth hacc op3 (rpn_expr ++ popped) n2 hs3
          simp only [shunt, h1, literalsOf, operatorsOf]
          refine ⟨?_, ?_⟩
          · rw [i1, List.filter_append, f1, List.filter_cons_of_neg (by simp),
              ← Multiset.coe_add, ← Multiset.coe_add]
            abel
          · rw [i2, List.filter_append, f2]
            simp
        | oper o op n depth ho hs3 => exact absurd ho (by decide)
    | false, _, .oper _, h => simp [accepts] at h
    | false, _, .rparen, h => simp [accepts] at h
    | true, _, .lit _, h => simp [accepts] at h
    | true, _, .lparen, h => simp [accepts] at h
    | true, 0, .rparen, h => simp [accepts] at h

theorem accepts_units (ts : List Tok) :
    ∀ (after : Bool) (depth : Nat), accepts after depth ts = true →
      (∀ l ∈ literalsOf ts, isLiteral l = true) ∧
      ∀ t ∈ operatorsOf ts, ∃ o, isBasicOperatorChar o = true ∧ t = [o] := by
  induction ts with
  | nil => intro _ _ _; exact ⟨by simp [literalsOf], by simp [operatorsOf]⟩
  | cons t ts ih =>
    intro after depth hacc
    match after, depth, t, hacc with
    | false, depth, .lit l, hacc =>
      simp only [accepts, Bool.and_eq_true] at hacc
      obtain ⟨h1, h2⟩ := ih true depth hacc.2
      refine ⟨?_, by simpa [operatorsOf] using h2⟩
      intro x hx
      simp only [literalsOf, List.mem_cons] at hx
      rcases hx with rfl | hx
      · exact hacc.1
      · exact h1 x hx
    | false, depth, .lparen, hacc =>
      simp only [accepts] at hacc
      simpa [literalsOf, operatorsOf] using ih false (depth + 1) hacc
    | true, depth, .oper o, hacc =>
      simp only [accepts, Bool.and_eq_true] at hacc
      obtain ⟨h1, h2⟩ := ih false depth hacc.2
      refine ⟨by simpa [literalsOf] using h1, ?_⟩
      intro x hx
      simp only [operatorsOf, List.mem_cons] at hx
      rcases hx with rfl | hx
      · exact ⟨o, hacc.1, rfl⟩
      · exact h2 x hx
    | true, depth + 1, .rparen, hacc =>
      simp only [accepts] at hacc
      simpa [literalsOf, operatorsOf] using ih true depth hacc
    | false, _, .oper _, h => simp [accepts] at h
    | false, _, .rparen, h => simp [accepts] at h
    | true, _, .lit _, h => simp [accepts] at h
    | true, _, .lparen, h => simp [accepts] at h
    | true, 0, .rparen, h => simp [accepts] at h

/-- C26: the converter only reorders operators. For every text `s` of the
grammar over unsigned numeric literals, the operators `+ - * /` and balanced
parentheses, with lexical units `ts`, the call returns true and in its output
the operand tokens, read left to right, are exactly the literals of `ts` in
their order, the operator tokens are a permutation of the operators of `ts`,
every token is one of the two, and no parenthesis token appears. -/
theorem infix_to_rpn_reorders_operators {D : Type} (reg : Registry D)
    (hreg : registryOk reg = true) (s : Str) (hs : WellFormedExpr s) (ts : List Tok)
    (h1 : s.filter (fun c => c != ' ') = tokText ts) (hacc : accepts false 0 ts = true)
    (actual_val : Str) (fuel : Nat) (hfuel : ts.length < fuel) :
    (infix_to_rpn fuel reg actual_val s).result = .returned true ∧
    (infix_to_rpn fuel reg actual_val s).rpn_expr.filter (isOperand reg) = literalsOf ts ∧
    ((infix_to_rpn fuel reg actual_val s).rpn_expr.filter isBasicOperator).Perm
      (operatorsOf ts) ∧
    (∀ t ∈ (infix_to_rpn fuel reg actual_val s).rpn_expr,
      isOperand reg t = true ∨ isBasicOperator t = true) ∧
    ['('] ∉ (infix_to_rpn fuel reg actual_val s).rpn_expr ∧
    [')'] ∉ (infix_to_rpn fuel reg actual_val s).rpn_expr := by
  rw [infix_to_rpn_tokens reg hreg s hs ts h1 hacc actual_val fuel hfuel]
  simp only []
  obtain ⟨hm, hl⟩ := shunt_units ts false 0 hacc [] [] 0 StackShape.nil
  obtain ⟨ulit, uop⟩ := accepts_units ts false 0 hacc
  have hperm : (shunt ts [] []).Perm (literalsOf ts ++ operatorsOf ts) := by
    rw [← Multiset.coe_eq_coe, hm, ← Multiset.coe_add]
    simp
  have hmem : ∀ t ∈ shunt ts [] [], (isLiteral t = true ∧ isOperand reg t = true ∧
      isBasicOperator t = false ∧ t ≠ ['('] ∧ t ≠ [')']) ∨
      (isLiteral t = false ∧ isOperand reg t = false ∧ isBasicOperator t = true ∧
        t ≠ ['('] ∧ t ≠ [')']) := by
    intro t ht
    rcases List.mem_append.mp (hperm.mem_iff.mp ht) with h | h
    · have hli := ulit t h
      obtain ⟨f1, f2, f3⟩ := literal_token_facts t hli
      exact Or.inl ⟨hli, isOperand_literal reg t hli, f1, f2, f3⟩
    · obtain ⟨o, ho, rfl⟩ := uop t h
      obtain ⟨f1, f2, f3, f4⟩ := basic_token_facts o ho
      obtain ⟨g1, g2⟩ : islower o = false ∧ (isdigit o = false ∧ o ≠ '.') := by
        rcases basic_char_cases o ho with rfl | rfl | rfl | rfl <;> decide
      exact Or.inr ⟨f1, isOperand_single reg hreg o g1 g2.1 g2.2, f2, f3, f4⟩
  have hfl : (literalsOf ts ++ operatorsOf ts).filter isBasicOperator = operatorsOf ts := by
    rw [List.filter_append]
    have e1 : (literalsOf ts).filter isBasicOperator = [] := by
      rw [List.filter_eq_nil_iff]
      intro t ht
      simp [(literal_token_facts t (ulit t ht)).1]
    have e2 : (operatorsOf ts).filter isBasicOperator = operatorsOf ts := by
      rw [List.filter_eq_self]
      intro t ht
      obtain ⟨o, ho, rfl⟩ := uop t ht
      exact (basic_token_facts o ho).2.1
    rw [e1, e2]; rfl
  refine ⟨trivial, ?_, ?_, ?_, ?_, ?_⟩
  · have hcongr : (shunt ts [] []).filter (isOperand reg) = (shunt ts [] []).filter isLiteral := by
      apply List.filter_congr
      intro t ht
      rcases hmem t ht with h | h
      · rw [h.1, h.2.1]
      · rw [h.1, h.2.1]
    rw [hcongr, hl]; rfl
  · have := hperm.filter isBasicOperator
    rwa [hfl] at this
  · intro t ht
    rcases hmem t ht with h | h
    · exact Or.inl h.2.1
    · exact Or.inr h.2.2.1
  · intro ht
    rcases hmem _ ht with h | h
    · exact h.2.2.2.1 rfl
    · exact h.2.2.2.1 rfl
  · intro ht
    rcases hmem _ ht with h | h
    · exact h.2.2.2.2 rfl
    · exact h.2.2.2.2 rfl

theorem infix_to_rpn_reorders_operators_witness :
    registryOk ([] : Registry ℚ) = true ∧
    WellFormedExpr ['(', '1', ' ', '+', ' ', '2', ')', ' ', '*', ' ', '3'] ∧
    ['(', '1', ' ', '+', ' ', '2', ')', ' ', '*', ' ', '3'].filter (fun c => c != ' ')
      = tokText [.lparen, .lit ['1'], .oper '+', .lit ['2'], .rparen, .oper '*', .lit ['3']] ∧
    accepts false 0 [.lparen, .lit ['1'], .oper '+', .lit ['2'], .rparen, .oper '*', .lit ['3']]
      = true ∧
    (infix_to_rpn 12 ([] : Registry ℚ) []
        ['(', '1', ' ', '+', ' ', '2', ')', ' ', '*', ' ', '3']).rpn_expr.filter
      (isOperand ([] : Registry ℚ)) = [['1'], ['2'], ['3']] ∧
    ((infix_to_rpn 12 ([] : Registry ℚ) []
        ['(', '1', ' ', '+', ' ', '2', ')', ' ', '*', ' ', '3']).rpn_expr.filter
      isBasicOperator).Perm [['+'], ['*']] :=
  have hw : WellFormedExpr ['(', '1', ' ', '+', ' ', '2', ')', ' ', '*', ' ', '3'] :=
    WellFormedExpr.binary ['(', '1', ' ', '+', ' ', '2', ')', ' '] '*' [' ', '3']
      (WellFormedExpr.space_after _
        (WellFormedExpr.paren _
          (WellFormedExpr.binary ['1', ' '] '+' [' ', '2']
            (WellFormedExpr.space_after _ (WellFormedExpr.literal ['1'] rfl)) rfl
            (WellFormedExpr.space_before _ (WellFormedExpr.literal ['2'] rfl)))))
      rfl (WellFormedExpr.space_before _ (WellFormedExpr.literal ['3'] rfl))
  have h := infix_to_rpn_reorders_operators ([] : Registry ℚ) rfl
    ['(', '1', ' ', '+', ' ', '2', ')', ' ', '*', ' ', '3'] hw
    [.lparen, .lit ['1'], .oper '+', .lit ['2'], .rparen, .oper '*', .lit ['3']]
    rfl rfl [] 12 (by decide)
  ⟨rfl, hw, rfl, rfl, h.2.1, h.2.2.1⟩

/-- The form of a token that `isOperand` accepts without finding it in the
registry: an optional sign, then at least one character, digits and dots only. -/
theorem isOperand_shape {D : Type} (reg : Registry D) (t : Str) (h : isOperand reg t = true)
    (hr : isAdditionalOperand reg t = false) :
    ∃ sign body, t = sign ++ body ∧ (sign = [] ∨ sign = ['+'] ∨ sign = ['-']) ∧ body ≠ [] ∧
      ∀ c ∈ body, isdigit c = true ∨ c = '.' := by
  cases t with
  | nil => simp [isOperand] at h
  | cons c r =>
    simp only [isOperand, List.isEmpty_cons, Bool.false_eq_true, if_false, hr, front,
      List.headD_cons] at h
    by_cases hs : isSign c = true ∧ (c :: r).length > 1
    · have hi : (isSign c && decide ((c :: r).length > 1)) = true := by
        have := hs.2
        simp only [List.length_cons, gt_iff_lt, Nat.lt_add_left_iff_pos] at this
        simp [hs.1, this]
      simp only [hi] at h
      simp only [if_true, List.drop_succ_cons, List.drop_zero, List.all_eq_true,
        Bool.or_eq_true, beq_iff_eq] at h
      refine ⟨[c], r, rfl, ?_, ?_, h⟩
      · rcases isSign_cases c hs.1 with rfl | rfl <;> simp
      · intro hr0; subst hr0; simp at hs
    · have hi : (isSign c && decide ((c :: r).length > 1)) = false := by
        cases h1 : isSign c
        · simp
        · simp only [h1, true_and, not_lt] at hs
          simp; simpa using hs
      simp only [hi] at h
      simp only [Bool.false_eq_true, if_false, List.drop_zero, List.all_eq_true,
        Bool.or_eq_true, beq_iff_eq] at h
      exact ⟨[], c :: r, rfl, Or.inl rfl, by simp, h⟩

theorem isOperand_decimal {D : Type} (reg : Registry D) (t : Str)
    (h : isDecimalLiteral t = true) : isOperand reg t = true := by
  unfold isDecimalLiteral at h
  by_cases hs : isSign (front t) = true
  · rw [if_pos hs] at h
    cases t with
    | nil => simp [isLiteral] at h
    | cons c r =>
      simp only [List.drop_succ_cons, List.drop_zero] at h
      have hpos := literal_length_pos r h
      have hall := literal_chars r h
      have hs2 : isSign c = true := by simpa [front] using hs
      cases hreg : isAdditionalOperand reg (c :: r) with
      | true => simp [isOperand, hreg]
      | false =>
        simp only [isOperand, List.isEmpty_cons, Bool.false_eq_true, if_false, hreg, front,
          List.headD_cons, hs2, Bool.true_and, List.length_cons]
        have : decide (r.length + 1 > 1) = true := by simp; omega
        rw [this]
        simpa using hall
  · rw [if_neg hs] at h
    exact isOperand_literal reg t h

theorem get_operands_error (it : Str) (e : Excp)
    (h : get_operands_func_operator it = .error e) : e = .general_error := by
  unfold get_operands_func_operator at h
  split at h
  · cases h
  · simp only [Except.error.injEq] at h; exact h.symm

theorem eval_func_operator_error {D : Type} (A : Arith D) (it : Str) (ops : List D) (e : Excp)
    (h : eval_func_operator A it ops = .error e) : e = .general_error := by
  unfold eval_func_operator at h
  split at h
  · simp only [Except.error.injEq] at h; exact h.symm
  · cases h

theorem evaluate_step_threw {D : Type} (A : Arith D) (reg : Registry D) (it : Str)
    (operands : List D) (e : Excp) (h : evaluate_step A reg it operands = .stop (.threw e)) :
    e = .general_error ∨
    (e = .stod_failure it ∧ isOperand reg it = true ∧ isAdditionalOperand reg it = false ∧
      A.stod it = none) := by
  cases hop : isOperand reg it with
  | true =>
    cases hreg : isAdditionalOperand reg it with
    | true =>
      simp only [evaluate_step, hop, hreg, if_true, get_value_additionalOperand] at h
      cases hl : reg.lookup it with
      | none => simp [hl] at h; exact Or.inl h.symm
      | some v => simp [hl] at h
    | false =>
      cases hst : A.stod it with
      | none =>
        simp [evaluate_step, hop, hreg, hst] at h
        exact Or.inr ⟨h.symm, rfl, rfl, rfl⟩
      | some v => simp [evaluate_step, hop, hreg, hst] at h
  | false =>
    cases hb : isBasicOperator it with
    | true =>
      simp only [evaluate_step, hop, hb, if_true, Bool.false_eq_true, if_false] at h
      split at h
      · split_ifs at h
        cases h
      · cases h
    | false =>
      cases hfo : isFuncOperator it with
      | true =>
        simp only [evaluate_step, hop, hb, hfo, if_true, Bool.false_eq_true, if_false] at h
        cases hn : get_operands_func_operator it with
        | error e2 =>
          simp [hn] at h
          left; rw [← h]; exact get_operands_error it e2 hn
        | ok n =>
          simp only [hn] at h
          split_ifs at h
          · cases h
          · cases he : eval_func_operator A it (List.take n operands).reverse with
            | error e2 =>
              rw [he] at h
              simp only [EvalStep.stop.injEq, EvalResult.threw.injEq] at h
              left; rw [← h]; exact eval_func_operator_error A it _ e2 he
            | ok r =>
              obtain ⟨b, v⟩ := r
              cases b <;> simp [he] at h
      | false => simp [evaluate_step, hop, hb, hfo] at h

theorem evaluate_loop_threw {D : Type} (A : Arith D) (reg : Registry D) (expr : List Str) :
    ∀ (operands : List D) (e : Excp), evaluate_loop A reg expr operands = .threw e →
      e = .general_error ∨
      ∃ t ∈ expr, e = .stod_failure t ∧ isOperand reg t = true ∧
        isAdditionalOperand reg t = false ∧ A.stod t = none := by
  induction expr with
  | nil =>
    intro operands e h
    unfold evaluate_loop at h
    split at h
    · cases h
    · simp only [EvalResult.threw.injEq] at h
      exact Or.inl h.symm
  | cons it rest ih =>
    intro operands e h
    unfold evaluate_loop at h
    split at h
    · rcases ih _ e h with h1 | ⟨t, ht, h2⟩
      · exact Or.inl h1
      · exact Or.inr ⟨t, List.mem_cons_of_mem _ ht, h2⟩
    · rename_i r hstep
      subst h
      rcases evaluate_step_threw A reg it operands e hstep with h1 | h2
      · exact Or.inl h1
      · exact Or.inr ⟨it, by simp, h2⟩

/-- C27 (defect of the code): `isOperand` only checks that every character
behind an optional sign is a digit or a dot; it neither asks for a digit nor
counts the dots, so it accepts the tokens `.` and `1.2.3`, which are no
registered names and no well-formed decimal literals. `fetch_val` rejects the
text `1.2.3` but not `.`: the text `.` is converted to `[.]`, the validator
accepts it, and in every arithmetic whose `std::stod` raises on `.` (a text
without a digit) `evaluate` raises on it. A token accepted without being a
registered name is an optional sign followed by digits and dots, at least
one. -/
theorem isOperand_accepts_lone_dot {D : Type} (A : Arith D) (reg : Registry D)
    (hreg : registryOk reg = true) (hstod : A.stod ['.'] = none) (actual_val : Str)
    (fuel : Nat) (hfuel : 2 ≤ fuel) :
    isOperand reg ['.'] = true ∧ isAdditionalOperand reg ['.'] = false ∧
    isDecimalLiteral ['.'] = false ∧
    isOperand reg ['1', '.', '2', '.', '3'] = true ∧
    isAdditionalOperand reg ['1', '.', '2', '.', '3'] = false ∧
    isDecimalLiteral ['1', '.', '2', '.', '3'] = false ∧
    fetch_val ['1', '.', '2', '.', '3'] 0 = .error (.invalid_operand ['1', '.', '2', '.', '3']) ∧
    fetch_val ['.'] 0 = .ok (true, ['.'], 1) ∧
    infix_to_rpn fuel reg actual_val ['.'] = ⟨.returned true, [['.']], []⟩ ∧
    checkRpn reg [['.']] = .ok true ∧
    evaluate A reg [['.']] = .threw (.stod_failure ['.']) ∧
    (∀ t, isOperand reg t = true → isAdditionalOperand reg t = false →
      ∃ sign body, t = sign ++ body ∧ (sign = [] ∨ sign = ['+'] ∨ sign = ['-']) ∧ body ≠ [] ∧
        ∀ c ∈ body, isdigit c = true ∨ c = '.') := by
  obtain ⟨fuel, rfl⟩ : ∃ f, fuel = f + 2 := ⟨fuel - 2, by omega⟩
  have hr1 := isAdditionalOperand_false_of_not_lower reg hreg '.' [] (by decide)
  have hr2 := isAdditionalOperand_false_of_not_lower reg hreg '1' ['.', '2', '.', '3']
    (by decide)
  have hop : isOperand reg ['.'] = true := by
    simp [isOperand, hr1, front, isSign]
  have hop2 : isOperand reg ['1', '.', '2', '.', '3'] = true := by
    simp [isOperand, hr2, front, isSign, isdigit]
  have hf : fetch_val ['.'] 0 = .ok (true, ['.'], 1) := rfl
  have hc : checkRpn reg [['.']] = .ok true := by
    simp [checkRpn, checkRpn_loop, hop]
  have hg1 : getOp reg ['.'] 0 actual_val = ⟨.ok (.OPERAND, ['.'], ['.'], 1), ['.']⟩ := by
    simp [getOp, hf, hop]
  have hg2 := getOp_end_at reg ['.'] ['.'] 1 rfl
  refine ⟨hop, hr1, by decide, hop2, hr2, by decide, rfl, hf, ?_, hc, ?_,
    fun t h hr => isOperand_shape reg t h hr⟩
  · unfold infix_to_rpn
    rw [adj_expr_plain ['.'] (by intro c hc; rw [List.mem_singleton.mp hc]; decide)]
    simp only []
    rw [infix_to_rpn_loop, hg1]
    simp only [List.nil_append]
    rw [infix_to_rpn_loop, hg2]
    simp [infix_to_rpn_finish, hc]
  · simp [evaluate, hc, evaluate_loop, evaluate_step, hop, hr1, hstod]

theorem isOperand_accepts_lone_dot_witness :
    registryOk ([] : Registry ℚ) = true ∧
    (exactArith (fun _ _ => (false, 0))).stod ['.'] = none ∧
    infix_to_rpn 2 ([] : Registry ℚ) [] ['.'] = ⟨.returned true, [['.']], []⟩ ∧
    evaluate (exactArith (fun _ _ => (false, 0))) ([] : Registry ℚ) [['.']]
      = .threw (.stod_failure ['.']) :=
  have hs : (exactArith (fun _ _ => (false, 0))).stod ['.'] = none := by
    simp [exactArith, exact_stod, front, isSign, isdigit]
  have h := isOperand_accepts_lone_dot (exactArith (fun _ _ => (false, 0))) ([] : Registry ℚ)
    rfl hs [] 2 (by decide)
  ⟨rfl, hs, h.2.2.2.2.2.2.2.2.1, h.2.2.2.2.2.2.2.2.2.2.1⟩

/-- C28 (counterexample): `add_operand` accepts the function-operator name `sin`
and returns true; from then on the token `sin` is an operand for the converter,
the validator and the evaluator, and the text `sin(0)`, converted to `[0, sin]`
before, is rejected. -/
theorem add_operand_accepts_function_name :
    isFuncOperator ['s', 'i', 'n'] = true ∧
    add_operand (exactArith (fun _ _ => (true, 0))) [] ['s', 'i', 'n'] 1
      = (true, [(['s', 'i', 'n'], 1)]) ∧
    getType ([] : Registry ℚ) ['s', 'i', 'n'] = .OPERATOR ∧
    getType ([(['s', 'i', 'n'], 1)] : Registry ℚ) ['s', 'i', 'n'] = .OPERAND ∧
    checkRpn ([(['s', 'i', 'n'], 1)] : Registry ℚ) [['s', 'i', 'n']] = .ok true ∧
    evaluate (exactArith (fun _ _ => (true, 0))) [(['s', 'i', 'n'], 1)] [['s', 'i', 'n']]
      = .returned true 1 ∧
    infix_to_rpn 10 ([] : Registry ℚ) [] ['s', 'i', 'n', '(', '0', ')']
      = ⟨.returned true, [['0'], ['s', 'i', 'n']], []⟩ ∧
    infix_to_rpn 10 ([(['s', 'i', 'n'], 1)] : Registry ℚ) [] ['s', 'i', 'n', '(', '0', ')']
      = ⟨.returned false, [], []⟩ := by
  have hc : checkRpn ([(['s', 'i', 'n'], 1)] : Registry ℚ) [['s', 'i', 'n']] = .ok true := rfl
  refine ⟨by decide, ?_, by decide, by decide, hc, ?_, by decide, by decide⟩
  · simp [add_operand, exactArith, islower]
  · simp [evaluate, hc, evaluate_loop, evaluate_step, isOperand, isAdditionalOperand,
      get_value_additionalOperand, List.lookup]

theorem find_ne_nil (n : Str) (e : Nat × Nat × WFunc)
    (h : additional_operators_find n = some e) : n ≠ [] := by
  rintro rfl
  have h0 : additional_operators_find [] = none := by decide
  rw [h0] at h; cases h

/-- C28 (amended): operand names and function-operator names are not kept
disjoint. `add_operand` returns true for every name of lowercase letters and
every finite value, also for a key of the function-operator table; while such a
name `n` is registered the token `n` is classified as an operand by `getType`
(the converter), by the validator and by the evaluator, which pushes its value,
and after `remove_operand(n)` it is an operator again. A registered name has
lowercase letters only, so `^` is an operator in every registry state. -/
theorem add_operand_shadows_function {D : Type} (A : Arith D) (reg : Registry D)
    (hreg : registryOk reg = true) (n : Str) (v : D) (e : Nat × Nat × WFunc)
    (hfind : additional_operators_find n = some e) (hlow : n.all islower = true)
    (hinf : A.isinf v = false) (hnan : A.isnan v = false) :
    (add_operand A reg n v).1 = true ∧
    getType (add_operand A reg n v).2 n = .OPERAND ∧
    counterDelta (add_operand A reg n v).2 n = some 1 ∧
    (∀ operands, evaluate_step A (add_operand A reg n v).2 n operands = .next (v :: operands)) ∧
    getType (remove_operand (add_operand A reg n v).2 n).2 n = .OPERATOR ∧
    getType (clear_all_operands (add_operand A reg n v).2) n = .OPERATOR ∧
    getType reg ['^'] = .OPERATOR ∧ getType (add_operand A reg n v).2 ['^'] = .OPERATOR := by
  have hne := find_ne_nil n e hfind
  have hfo := (find_not_basic n e hfind).2
  have hadd : add_operand A reg n v = (true, (n, v) :: reg.filter (fun e => e.1 != n)) := by
    simp [add_operand, hinf, hnan, hlow]
  have hemp : n.isEmpty = false := by
    cases n with
    | nil => exact absurd rfl hne
    | cons _ _ => rfl
  have hlook : ((n, v) :: reg.filter (fun e => e.1 != n)).lookup n = some v := by
    simp [List.lookup]
  have hiso : isAdditionalOperand ((n, v) :: reg.filter (fun e => e.1 != n)) n = true := by
    simp [isAdditionalOperand, hlook]
  have hop : isOperand ((n, v) :: reg.filter (fun e => e.1 != n)) n = true := by
    simp [isOperand, hemp, hiso]
  have hregs := registryOk_preserved A reg hreg n v
  have hpow : ∀ r : Registry D, registryOk r = true → getType r ['^'] = .OPERATOR := by
    intro r hr
    have h1 := isOperand_single r hr '^' (by decide) (by decide) (by decide)
    have h2 : isFuncOperator ['^'] = true := by decide
    exact getType_func r ['^'] h1 h2
  have hnone : ∀ r : Registry D, isAdditionalOperand r n = false → getType r n = .OPERATOR :=
    fun r hr => getType_func r n (isOperand_word r n hne hlow hr) hfo
  have hfilter : ∀ r : Registry D,
      isAdditionalOperand (r.filter (fun e => e.1 != n)) n = false := by
    intro r
    induction r with
    | nil => rfl
    | cons x r ih =>
      by_cases hx : x.1 = n
      · simpa [List.filter_cons, hx] using ih
      · have hx2 : (n == x.1) = false := by
          simp only [beq_eq_false_iff_ne, ne_eq]; exact fun h => hx h.symm
        have := ih
        simp only [isAdditionalOperand] at this ⊢
        obtain ⟨k, d⟩ := x
        simp only at hx hx2
        simp [List.filter_cons, hx, List.lookup, hx2, this]
  refine ⟨by rw [hadd], ?_, ?_, ?_, ?_, ?_, hpow reg hreg, hpow _ hregs.2.1⟩
  · rw [hadd]; simp [getType, hemp, hop]
  · rw [hadd]; simp [counterDelta, hop]
  · intro operands
    rw [hadd]
    simp [evaluate_step, hop, hiso, get_value_additionalOperand, hlook]
  · rw [hadd]
    have hrem : (remove_operand ((n, v) :: reg.filter (fun e => e.1 != n)) n).2
        = reg.filter (fun e => e.1 != n) := by
      simp [remove_operand, hiso, List.filter_cons, List.filter_filter]
    simp only []
    rw [hrem]
    exact hnone _ (hfilter reg)
  · exact hnone _ rfl

theorem add_operand_shadows_function_witness :
    registryOk ([] : Registry ℚ) = true ∧
    additional_operators_find ['s', 'q', 'r', 't'] = some (1, 1, .wfunc_sqrt) ∧
    (add_operand (exactArith (fun _ _ => (true, 0))) [] ['s', 'q', 'r', 't'] 2).1 = true ∧
    getType (add_operand (exactArith (fun _ _ => (true, 0))) [] ['s', 'q', 'r', 't'] 2).2
      ['s', 'q', 'r', 't'] = .OPERAND :=
  have h := add_operand_shadows_function (exactArith (fun _ _ => (true, 0))) ([] : Registry ℚ)
    rfl ['s', 'q', 'r', 't'] 2 (1, 1, .wfunc_sqrt) rfl rfl rfl rfl
  ⟨rfl, rfl, h.1, h.2.1⟩

theorem scanWeight_append (a b : Str) : scanWeight (a ++ b) = scanWeight a + scanWeight b := by
  simp only [scanWeight, List.length_append, List.countP_append]; omega

theorem scanWeight_cons (c : Char) (s : Str) :
    scanWeight (c :: s) = scanWeight s + 1 + (if isSign c then 2 else 0) := by
  simp only [scanWeight, List.length_cons, List.countP_cons]
  split <;> omega

theorem scanWeight_drop_le (s : Str) (k : Nat) : scanWeight (s.drop k) ≤ scanWeight s := by
  have h := scanWeight_append (s.take k) (s.drop k)
  rw [List.take_append_drop] at h
  omega

theorem scanWeight_insert (s : Str) (pos : Nat) (c : Char) (hc : isSign c = false) :
    scanWeight (insert s pos [c]) = scanWeight s + 1 := by
  have h := scanWeight_append (s.take pos) (s.drop pos)
  rw [List.take_append_drop] at h
  simp only [insert, scanWeight_append, scanWeight_cons, hc]
  simp [scanWeight] at h ⊢
  omega

theorem insert_append_right (a b : Str) (pos : Nat) (t : Str) (h : a.length ≤ pos) :
    insert (a ++ b) pos t = a ++ insert b (pos - a.length) t := by
  simp only [insert, List.take_append_eq_append_take, List.drop_append_eq_append_drop,
    List.take_of_length_le h, List.drop_of_length_le h, List.nil_append, List.append_assoc]

theorem drop_append_cons_ge (P : Str) (c : Char) (T : Str) (i : Nat) (h : P.length + 1 ≤ i) :
    (P ++ c :: T).drop i = T.drop (i - (P.length + 1)) := by
  have h1 : P ++ c :: T = (P ++ [c]) ++ T := by simp
  rw [h1, List.drop_append_eq_append_drop, List.drop_of_length_le (by simpa using h)]
  simp

theorem fetch_val_false_index (expr : Str) (index : Nat) (v : Str) (j : Nat)
    (h : fetch_val expr index = .ok (false, v, j)) : index ≤ j := by
  unfold fetch_val at h
  simp only at h
  generalize hi2 : (if index < expr.length ∧ charAt expr index = ' ' then index + 1 else index)
    = i2 at h
  have hle : index ≤ i2 := by
    split at hi2 <;> omega
  split at h
  · simp only [Except.ok.injEq, Prod.mk.injEq, true_and] at h
    omega
  · split at h
    · simp at h
    · split at h
      · split at h <;> simp at h
      · simp at h

/-- The loop that folds a run of signs ends within its fuel: every pass removes
the character behind the sign at `index - 1`. It raises or leaves one sign in
front of what is left of the text behind it. -/
theorem fold_signs_total : ∀ (fuel : Nat) (P : Str) (c : Char) (T : Str) (cs : Char)
    (nv : Str) (ni : Nat), T.length < fuel → P.length + 2 ≤ ni →
    (∃ e, fold_signs fuel (P ++ c :: T) (P.length + 1) cs nv ni = .threw e) ∨
    ∃ c2 k nv2 ni2, fold_signs fuel (P ++ c :: T) (P.length + 1) cs nv ni
        = .ok (P ++ c2 :: T.drop k, nv2, ni2, c2) ∧ isSign c2 = true ∧ P.length + 1 ≤ ni2 := by
  intro fuel
  induction fuel with
  | zero => intro P c T cs nv ni h; omega
  | succ fuel ih =>
    intro P c T cs nv ni hT hni
    obtain ⟨x, hx, hxs⟩ : ∃ x, (if cs = front nv then ['+'] else ['-']) = [x] ∧ isSign x = true := by
      split
      · exact ⟨'+', rfl, rfl⟩
      · exact ⟨'-', rfl, rfl⟩
    have he : insert (erase (P ++ c :: T) (P.length + 1 - 1) 2) (P.length + 1 - 1) [x]
        = P ++ x :: T.drop 1 := by
      have h1 : P.length + 1 - 1 = P.length := by omega
      rw [h1]
      have h2 : erase (P ++ c :: T) P.length 2 = P ++ T.drop 1 := by
        unfold erase
        rw [List.take_left]
        have h3 : P ++ c :: T = (P ++ [c]) ++ T := by simp
        have h4 : P.length + 2 = (P ++ [c]).length + 1 := by simp
        rw [h3, h4, ← List.drop_drop, List.drop_left]
      rw [h2]
      unfold insert
      rw [List.take_left, List.drop_left]
      simp
    have hat : charAt (P ++ x :: T.drop 1) (P.length + 1 - 1) = x := by
      have h1 : P.length + 1 - 1 = P.length := by omega
      rw [h1]; exact charAt_append_cons _ _ _
    unfold fold_signs
    simp only [hx, he, hat]
    cases hf : fetch_val (P ++ x :: T.drop 1) (ni - 1) with
    | error e => exact Or.inl ⟨e, rfl⟩
    | ok r =>
      obtain ⟨res, nv2, ni2⟩ := r
      simp only []
      cases res with
      | false =>
        right
        refine ⟨x, 1, nv2, ni2, by simp, hxs, ?_⟩
        have := (fetch_val_false _ _ _ _ hf).2
        simp at this
        omega
      | true =>
        obtain ⟨i2, h1, h2, h3, hvne, h5, -, -, -, -, -⟩ := fetch_val_true _ _ _ _ hf
        have hni2 : P.length + 2 ≤ ni2 := by
          have : 0 < nv2.length := List.length_pos.mpr hvne
          omega
        cases hsg : isSign (front nv2) with
        | false =>
          right
          exact ⟨x, 1, nv2, ni2, by simp, hxs, by omega⟩
        | true =>
          simp only [Bool.true_and, if_true]
          have hlen : (T.drop 1).length < fuel := by
            simp only [List.length_append, List.length_cons, List.length_drop] at h3 ⊢
            omega
          rcases ih P x (T.drop 1) x nv2 ni2 hlen hni2 with ⟨e, he2⟩ | ⟨c2, k, nv3, ni3, he2, hc2, hn3⟩
          · exact Or.inl ⟨e, he2⟩
          · right
            refine ⟨c2, 1 + k, nv3, ni3, ?_, hc2, hn3⟩
            rw [he2, List.drop_drop]

theorem skipParenthesis_loop_ge : ∀ (rest : Str) (ip index : Nat),
    index ≤ skipParenthesis_loop rest ip index := by
  intro rest
  induction rest with
  | nil => intro ip index; simp [skipParenthesis_loop]
  | cons c rest ih =>
    intro ip index
    unfold skipParenthesis_loop
    split
    · have := ih (if c = '(' then ip + 1 else if c = ')' then ip - 1 else ip) (index + 1)
      omega
    · omega

theorem skipParenthesis_ge (expr : Str) (index : Nat) : index ≤ skipParenthesis expr index := by
  unfold skipParenthesis
  split
  · omega
  · have := skipParenthesis_loop_ge (expr.drop (index + 1)) 0 (index + 1)
    omega

/-- The search for a function argument ends within its fuel: every pass
fetches a unit and moves the cursor forward. -/
theorem find_argument_total {D : Type} (reg : Registry D) : ∀ (fuel : Nat) (expr : Str)
    (index : Nat), expr.length - index < fuel →
    (∃ e, find_argument reg fuel expr index = .threw e) ∨
    (∃ i2, find_argument reg fuel expr index = .ok (none, i2) ∧ index ≤ i2) ∨
    ∃ ty i2, find_argument reg fuel expr index = .ok (some ty, i2) ∧ index + 1 ≤ i2 := by
  intro fuel
  induction fuel with
  | zero => intro expr index h; omega
  | succ fuel ih =>
    intro expr index h
    unfold find_argument
    cases hf : fetch_val expr index with
    | error e => exact Or.inl ⟨e, rfl⟩
    | ok r =>
      obtain ⟨res, v, j⟩ := r
      cases res with
      | false =>
        exact Or.inr (Or.inl ⟨j, rfl, fetch_val_false_index _ _ _ _ hf⟩)
      | true =>
        obtain ⟨i2, h1, h2, h3, hvne, h5, h6, -, -, -, -⟩ := fetch_val_true _ _ _ _ hf
        have hv : 0 < v.length := List.length_pos.mpr hvne
        simp only []
        split
        · exact Or.inr (Or.inr ⟨_, j, rfl, by omega⟩)
        · rcases ih expr j (by omega) with ⟨e, he⟩ | ⟨i3, he, hi⟩ | ⟨ty, i3, he, hi⟩
          · exact Or.inl ⟨e, he⟩
          · exact Or.inr (Or.inl ⟨i3, he, by omega⟩)
          · exact Or.inr (Or.inr ⟨ty, i3, he, by omega⟩)

theorem enclose_arguments_total {D : Type} (reg : Registry D) (next_val : Str) :
    ∀ (n : Nat) (expr : Str) (index : Nat),
    (∃ e, enclose_arguments reg next_val n expr index = .threw e) ∨
    ∃ i2, enclose_arguments reg next_val n expr index = .ok i2 ∧ index ≤ i2 := by
  intro n
  induction n with
  | zero => intro expr index; exact Or.inr ⟨index, rfl, le_refl _⟩
  | succ n ih =>
    intro expr index
    unfold enclose_arguments
    rcases find_argument_total reg (expr.length + 1) expr index (by omega)
      with ⟨e, he⟩ | ⟨i2, he, hi⟩ | ⟨ty, i2, he, hi⟩
    · rw [he]; exact Or.inl ⟨e, rfl⟩
    · rw [he]; exact Or.inl ⟨_, rfl⟩
    · rw [he]
      simp only []
      have hge : index ≤ (if ty = .OPEN_PARENTHESIS then skipParenthesis expr (i2 - 1) else i2) := by
        split
        · have := skipParenthesis_ge expr (i2 - 1)
          omega
        · omega
      rcases ih expr (if ty = .OPEN_PARENTHESIS then skipParenthesis expr (i2 - 1) else i2)
        with ⟨e, he2⟩ | ⟨i3, he2, hi3⟩
      · exact Or.inl ⟨e, he2⟩
      · exact Or.inr ⟨i3, he2, by omega⟩

/-- The rewriter `enclose_negative` at the sign behind `P` raises or puts `(0`
in front of the sign and one `)` somewhere behind it. -/
theorem enclose_negative_total {D : Type} (reg : Registry D) (P : Str) (s : Char) (T : Str)
    (next_val : Str) :
    (∃ e, enclose_negative reg (P ++ s :: T) P.length next_val = .threw e) ∨
    ∃ R, enclose_negative reg (P ++ s :: T) P.length next_val
        = .ok (P ++ '(' :: '0' :: s :: R) ∧ scanWeight R = scanWeight T + 1 := by
  have hins : insert (P ++ s :: T) P.length ['(', '0'] = (P ++ ['(', '0', s]) ++ T := by
    unfold insert
    rw [List.take_left, List.drop_left]
    simp
  have hfin : ∀ pos, P.length + (2 + 1) ≤ pos →
      ∃ R, insert ((P ++ ['(', '0', s]) ++ T) pos [')'] = P ++ '(' :: '0' :: s :: R ∧
        scanWeight R = scanWeight T + 1 := by
    intro pos hpos
    refine ⟨insert T (pos - (P ++ ['(', '0', s]).length) [')'], ?_,
      scanWeight_insert T _ ')' (by decide)⟩
    rw [insert_append_right _ _ _ _ (by simp; omega)]
    simp
  unfold enclose_negative
  simp only [hins]
  split
  · right
    obtain ⟨R, h1, h2⟩ := hfin _ (skipParenthesis_ge ((P ++ ['(', '0', s]) ++ T)
      (P.length + (2 + 1)))
    exact ⟨R, by rw [h1], h2⟩
  · cases hn : get_operands_func_operator next_val with
    | error e => exact Or.inl ⟨e, rfl⟩
    | ok n =>
      simp only []
      rcases enclose_arguments_total reg next_val n ((P ++ ['(', '0', s]) ++ T)
        (P.length + (2 + 1)) with ⟨e, he⟩ | ⟨i2, he, hi⟩
      · rw [he]; exact Or.inl ⟨e, rfl⟩
      · rw [he]; right
        obtain ⟨R, h1, h2⟩ := hfin i2 hi
        exact ⟨R, by simp only [h1], h2⟩

/-- A call of `getOp` at a sign never runs out of fuel, and when it goes on it
has used up the sign: what is left to scan weighs no more than the text behind
the sign, except when a unary minus was enclosed, where the text now reads
`( 0 sign ...` with the cursor behind the parenthesis. -/
theorem getOp_sign_progress {D : Type} (reg : Registry D) (P : Str) (s : Char) (T av : Str)
    (hs : isSign s = true) :
    (getOp_sign reg (P ++ s :: T) (P.length + 1) av [s]).res ≠ .out_of_fuel ∧
    ∀ ty v e2 i2,
      (getOp_sign reg (P ++ s :: T) (P.length + 1) av [s]).res = .ok (ty, v, e2, i2) →
      ty = .NO_TYPE ∨ scanWeight (e2.drop i2) ≤ scanWeight T ∨
      (ty = .OPEN_PARENTHESIS ∧
        (getType reg av = .OPERATOR ∨ getType reg av = .OPEN_PARENTHESIS
          ∨ getType reg av = .NO_TYPE) ∧
        ∃ s2 R, isSign s2 = true ∧ e2 = P ++ '(' :: '0' :: s2 :: R ∧ i2 = P.length + 1 ∧
          scanWeight R ≤ scanWeight T + 1) := by
  unfold getOp_sign
  cases hf : fetch_val (P ++ s :: T) (P.length + 1) with
  | error e => simp
  | ok r =>
    obtain ⟨res, nv, ni⟩ := r
    cases res with
    | false =>
      refine ⟨by simp, ?_⟩
      intro ty v e2 i2 h
      simp only [Res.ok.injEq, Prod.mk.injEq] at h
      exact Or.inl h.1.symm
    | true =>
      obtain ⟨i0, h1, -, -, hvne, h5, -, -, -, -, -⟩ := fetch_val_true _ _ _ _ hf
      have hni : P.length + 2 ≤ ni := by
        have : 0 < nv.length := List.length_pos.mpr hvne
        omega
      have hfs := fold_signs_total ((P ++ s :: T).length + 1) P s T (front [s]) nv ni
        (by simp; omega) hni
      simp only []
      split
      · simp
      · rename_i heq
        exfalso
        split at heq
        · split at heq
          · cases heq
          · cases heq
          · rename_i hoof
            rcases hfs with ⟨e, he⟩ | ⟨c2, k, nv2, ni2, he, -, -⟩
            · rw [he] at hoof; cases hoof
            · rw [he] at hoof; cases hoof
        · cases heq
      · rename_i e2 nv2 ni2 sv heq
        have hform : ∃ c2 k, e2 = P ++ c2 :: T.drop k ∧ sv = [c2] ∧ isSign c2 = true ∧
            P.length + 1 ≤ ni2 := by
          split at heq
          · split at heq
            · rename_i e3 nv3 ni3 c3 hok
              simp only [Res.ok.injEq, Prod.mk.injEq] at heq
              obtain ⟨rfl, rfl, rfl, rfl⟩ := heq
              rcases hfs with ⟨e, he⟩ | ⟨c2, k, nv4, ni4, he, hc2, hn4⟩
              · rw [he] at hok; cases hok
              · rw [he] at hok
                simp only [Res.ok.injEq, Prod.mk.injEq] at hok
                obtain ⟨rfl, rfl, rfl, rfl⟩ := hok
                exact ⟨c2, k, rfl, rfl, hc2, hn4⟩
            · cases heq
            · cases heq
          · simp only [Res.ok.injEq, Prod.mk.injEq] at heq
            obtain ⟨rfl, rfl, rfl, rfl⟩ := heq
            exact ⟨s, 0, by simp, rfl, hs, by omega⟩
        obtain ⟨c2, k, rfl, rfl, hc2, hni2⟩ := hform
        have hwk : scanWeight (T.drop k) ≤ scanWeight T := scanWeight_drop_le T k
        have hdrop : ∀ i, P.length + 1 ≤ i →
            scanWeight ((P ++ c2 :: T.drop k).drop i) ≤ scanWeight T := by
          intro i hi
          rw [drop_append_cons_ge P c2 _ i hi]
          exact le_trans (scanWeight_drop_le _ _) hwk
        split
        · rename_i hun
          split
          · exact ⟨by simp, by
              intro ty v e2 i2 h
              simp only [Res.ok.injEq, Prod.mk.injEq] at h
              obtain ⟨-, -, rfl, rfl⟩ := h
              exact Or.inr (Or.inl (hdrop _ hni2))⟩
          · split
            · exact ⟨by simp, by
                intro ty v e2 i2 h
                simp only [Res.ok.injEq, Prod.mk.injEq] at h
                obtain ⟨-, -, rfl, rfl⟩ := h
                exact Or.inr (Or.inl (hdrop _ hni2))⟩
            · have h11 : P.length + 1 - 1 = P.length := by omega
              rw [h11]
              rcases enclose_negative_total reg P c2 (T.drop k) nv2 with ⟨e, he⟩ | ⟨R, he, hR⟩
              · rw [he]; simp
              · rw [he]
                refine ⟨by simp, ?_⟩
                intro ty v e2 i2 h
                simp only [Res.ok.injEq, Prod.mk.injEq] at h
                obtain ⟨rfl, -, rfl, rfl⟩ := h
                exact Or.inr (Or.inr ⟨rfl, hun, c2, R, hc2, rfl, rfl, by omega⟩)
        · refine ⟨by simp, ?_⟩
          intro ty v e2 i2 h
          simp only [Res.ok.injEq, Prod.mk.injEq] at h
          obtain ⟨-, -, rfl, rfl⟩ := h
          exact Or.inr (Or.inl (hdrop _ (by omega)))

theorem getOp_at_sign {D : Type} (reg : Registry D) (expr : Str) (index : Nat) (av P : Str)
    (s : Char) (T : Str) (he : expr = P ++ s :: T)
    (hf : fetch_val expr index = .ok (true, [s], P.length + 1)) (hs : isSign s = true) :
    (getOp reg expr index av).res ≠ .out_of_fuel ∧
    ∀ ty v e2 i2, (getOp reg expr index av).res = .ok (ty, v, e2, i2) →
      ty = .NO_TYPE ∨ scanWeight (e2.drop i2) ≤ scanWeight T ∨
      (ty = .OPEN_PARENTHESIS ∧
        (getType reg av = .OPERATOR ∨ getType reg av = .OPEN_PARENTHESIS
          ∨ getType reg av = .NO_TYPE) ∧
        ∃ s2 R, isSign s2 = true ∧ e2 = P ++ '(' :: '0' :: s2 :: R ∧ i2 = P.length + 1 ∧
          scanWeight R ≤ scanWeight T + 1) := by
  subst he
  simp only [getOp, hf, Bool.true_eq_false, if_false]
  cases hop : isOperand reg [s] with
  | true =>
    refine ⟨by simp, ?_⟩
    intro ty v e2 i2 h
    simp only [if_true, Res.ok.injEq, Prod.mk.injEq] at h
    obtain ⟨-, -, rfl, rfl⟩ := h
    right; left
    rw [drop_append_cons_ge P s T _ (le_refl _)]
    simp
  | false =>
    have hfs : isSign (front [s]) = true := by simpa [front] using hs
    simp only [Bool.false_eq_true, if_false, hfs, if_true]
    exact getOp_sign_progress reg P s T av hs

/-- Every call of `getOp` ends within the fuel of its inner loops, and when the
token loop goes on behind it the text left to scan weighs less than before,
except behind the rewriting of a unary minus. -/
theorem getOp_progress {D : Type} (reg : Registry D) (expr : Str) (index : Nat) (av : Str) :
    (getOp reg expr index av).res ≠ .out_of_fuel ∧
    ∀ ty v e2 i2, (getOp reg expr index av).res = .ok (ty, v, e2, i2) →
      ty = .NO_TYPE ∨ scanWeight (e2.drop i2) < scanWeight (expr.drop index) ∨
      (ty = .OPEN_PARENTHESIS ∧
        ∃ P s2 R, isSign s2 = true ∧ e2 = P ++ '(' :: '0' :: s2 :: R ∧ i2 = P.length + 1 ∧
          scanWeight R + 2 ≤ scanWeight (expr.drop index)) := by
  cases hf : fetch_val expr index with
  | error e => simp [getOp, hf]
  | ok r =>
    obtain ⟨res, v, j⟩ := r
    cases res with
    | false =>
      refine ⟨by simp [getOp, hf], ?_⟩
      intro ty v2 e2 i2 h
      simp only [getOp, hf, if_true, Res.ok.injEq, Prod.mk.injEq] at h
      exact Or.inl h.1.symm
    | true =>
      obtain ⟨i2, h1, h2, h3, hvne, h5, h6, h7, h8, h9, -⟩ := fetch_val_true _ _ _ _ hf
      have hv : 0 < v.length := List.length_pos.mpr hvne
      have hw1 : scanWeight (expr.drop i2) ≤ scanWeight (expr.drop index) := by
        have : expr.drop i2 = (expr.drop index).drop (i2 - index) := by
          rw [List.drop_drop]; congr 1; omega
        rw [this]; exact scanWeight_drop_le _ _
      have hw2 : scanWeight (expr.drop i2) = scanWeight v + scanWeight (expr.drop j) := by
        rw [h8, scanWeight_append]
      have hw3 : 1 ≤ scanWeight v := by
        simp only [scanWeight]; omega
      by_cases hsg : isSign (front v) = true
      · have hv1 := h9 hsg
        have hs : isSign (charAt expr i2) = true := by rw [← h7]; exact hsg
        have hPl : (expr.take i2).length = i2 := by
          rw [List.length_take]; omega
        have hj : j = i2 + 1 := by rw [h5, hv1]; rfl
        have he : expr = expr.take i2 ++ charAt expr i2 :: expr.drop j := by
          have := List.take_append_drop i2 expr
          rw [h8, hv1] at this
          exact this.symm
        have hf2 : fetch_val expr index
            = .ok (true, [charAt expr i2], (expr.take i2).length + 1) := by
          rw [hf, hv1, hPl, hj]
        obtain ⟨g1, g2⟩ := getOp_at_sign reg expr index av (expr.take i2) (charAt expr i2)
          (expr.drop j) he hf2 hs
        have hw4 : scanWeight v = 3 := by
          rw [hv1]; simp [scanWeight, hs]
        refine ⟨g1, ?_⟩
        intro ty v2 e2 i3 h
        rcases g2 ty v2 e2 i3 h with g | g | ⟨g3, -, s2, R, g4, g5, g6, g7⟩
        · exact Or.inl g
        · exact Or.inr (Or.inl (by omega))
        · exact Or.inr (Or.inr ⟨g3, _, s2, R, g4, g5, g6, by omega⟩)
      · have hsg2 : isSign (front v) = false := by simpa using hsg
        have hlt : scanWeight (expr.drop j) < scanWeight (expr.drop index) := by omega
        have hok : ∀ t0 : ObjType,
            (⟨.ok (t0, v, expr, j), v⟩ : GetOp).res ≠ .out_of_fuel ∧
            ∀ ty v2 e2 i3, (⟨.ok (t0, v, expr, j), v⟩ : GetOp).res = .ok (ty, v2, e2, i3) →
              ty = .NO_TYPE ∨ scanWeight (e2.drop i3) < scanWeight (expr.drop index) ∨
              (ty = .OPEN_PARENTHESIS ∧
                ∃ P s2 R, isSign s2 = true ∧ e2 = P ++ '(' :: '0' :: s2 :: R ∧
                  i3 = P.length + 1 ∧ scanWeight R + 2 ≤ scanWeight (expr.drop index)) := by
          intro t0
          refine ⟨by simp, ?_⟩
          intro ty v2 e2 i3 h
          simp only [Res.ok.injEq, Prod.mk.injEq] at h
          obtain ⟨-, -, rfl, rfl⟩ := h
          exact Or.inr (Or.inl hlt)
        simp only [getOp, hf, Bool.true_eq_false, if_false, hsg2, Bool.false_eq_true]
        split
        · exact hok _
        · split
          · exact hok _
          · split
            · exact hok _
            · split
              · exact hok _
              · simp

theorem finish_not_out_of_fuel {D : Type} (reg : Registry D) (op rpn_expr : List Str)
    (av : Str) : (infix_to_rpn_finish reg op rpn_expr av).result ≠ .out_of_fuel := by
  unfold infix_to_rpn_finish
  simp only []
  split <;> simp

/-- One pass of the token loop: when the call of `getOp` ends and the loop ends
from every state it can lead to, the loop ends. -/
theorem infix_to_rpn_loop_step {D : Type} (reg : Registry D) (fuel : Nat) (expr : Str)
    (index : Nat) (av : Str) (op rpn_expr : List Str)
    (hg : (getOp reg expr index av).res ≠ .out_of_fuel)
    (hnext : ∀ ty v e2 i2, (getOp reg expr index av).res = .ok (ty, v, e2, i2) →
      ty ≠ .NO_TYPE → ∀ av2 op2 rpn2,
        (infix_to_rpn_loop reg fuel e2 i2 av2 op2 rpn2).result ≠ .out_of_fuel) :
    (infix_to_rpn_loop reg (fuel + 1) expr index av op rpn_expr).result ≠ .out_of_fuel := by
  rw [infix_to_rpn_loop]
  generalize getOp reg expr index av = g at hg hnext
  obtain ⟨res, av2⟩ := g
  cases res with
  | threw e => simp
  | out_of_fuel => exact absurd rfl hg
  | ok r =>
    obtain ⟨ty, v, e2, i2⟩ := r
    have hn := hnext ty v e2 i2 rfl
    cases ty with
    | NO_TYPE => exact finish_not_out_of_fuel reg op rpn_expr av2
    | OPERAND => exact hn (by decide) _ _ _
    | OPERATOR =>
      simp only []
      cases pop_operators v op rpn_expr with
      | error e => simp
      | ok r2 => exact hn (by decide) _ _ _
    | OPEN_PARENTHESIS => exact hn (by decide) _ _ _
    | CLOSE_PARENTHESIS =>
      simp only []
      generalize pop_until_open op rpn_expr = r2
      obtain ⟨op2, rpn2⟩ := r2
      cases op2 with
      | nil => simp
      | cons t op3 => exact hn (by decide) _ _ _

/-- The token loop ends: with more than twice the weight of the text left to
scan as fuel it does not run out of fuel. -/
theorem infix_to_rpn_loop_terminates {D : Type} (reg : Registry D) (n : Nat) :
    ∀ (fuel : Nat) (expr : Str) (index : Nat) (av : Str) (op rpn_expr : List Str),
      scanWeight (expr.drop index) ≤ n → 2 * n + 1 ≤ fuel →
      (infix_to_rpn_loop reg fuel expr index av op rpn_expr).result ≠ .out_of_fuel := by
  induction n using Nat.strong_induction_on with
  | _ n ih =>
    intro fuel expr index av op rpn_expr hw hfuel
    obtain ⟨fuel, rfl⟩ : ∃ f, fuel = f + 1 := ⟨fuel - 1, by omega⟩
    obtain ⟨hg, hp⟩ := getOp_progress reg expr index av
    apply infix_to_rpn_loop_step reg fuel expr index av op rpn_expr hg
    intro ty v e2 i2 hres hty av2 op2 rpn2
    rcases hp ty v e2 i2 hres with h | h | ⟨-, P, s2, R, hs2, he2, hi2, hR⟩
    · exact absurd h hty
    · exact ih (n - 1) (by omega) fuel e2 i2 av2 op2 rpn2 (by omega) (by omega)
    · subst he2 hi2
      obtain ⟨fuel, rfl⟩ : ∃ f, fuel = f + 1 + 1 := ⟨fuel - 2, by omega⟩
      obtain ⟨f1, f2, f3, f4, -, -⟩ := sign_facts s2 hs2
      have hg2 := getOp_literal_at reg (P ++ '(' :: '0' :: s2 :: R) (P ++ ['(']) ['0'] (s2 :: R)
        av2 (P.length + 1) (P.length + 2) (by simp) (by simp) (by simp) (by decide)
        (by intro c r h; cases h; simp [f3, f4])
      rw [infix_to_rpn_loop, hg2]
      simp only []
      have hf3 : fetch_val (P ++ '(' :: '0' :: s2 :: R) (P.length + 2)
          = .ok (true, [s2], (P ++ ['(', '0']).length + 1) := by
        have := fetch_val_single (P ++ ['(', '0']) R s2 f1 f2 f3 f4
        simpa using this
      obtain ⟨hg3, hp3⟩ := getOp_at_sign reg (P ++ '(' :: '0' :: s2 :: R) (P.length + 2) ['0']
        (P ++ ['(', '0']) s2 R (by simp) hf3 hs2
      apply infix_to_rpn_loop_step reg fuel _ _ _ _ _ hg3
      intro ty3 v3 e3 i3 hres3 hty3 av3 op3 rpn3
      rcases hp3 ty3 v3 e3 i3 hres3 with h | h | ⟨-, hun, -⟩
      · exact absurd h hty3
      · exact ih (n - 2) (by omega) fuel e3 i3 av3 op3 rpn3 (by omega) (by omega)
      · have h0 := getType_literal reg ['0'] (by decide)
        rw [h0] at hun
        rcases hun with h | h | h <;> cases h

/-- More fuel does not change the outcome of a token loop that ended. -/
theorem infix_to_rpn_loop_fuel_succ {D : Type} (reg : Registry D) :
    ∀ (fuel : Nat) (expr : Str) (index : Nat) (av : Str) (op rpn_expr : List Str),
      (infix_to_rpn_loop reg fuel expr index av op rpn_expr).result ≠ .out_of_fuel →
      infix_to_rpn_loop reg (fuel + 1) expr index av op rpn_expr
        = infix_to_rpn_loop reg fuel expr index av op rpn_expr := by
  intro fuel
  induction fuel with
  | zero => intro expr index av op rpn_expr h; simp [infix_to_rpn_loop] at h
  | succ fuel ih =>
    intro expr index av op rpn_expr h
    conv_lhs => rw [infix_to_rpn_loop]
    conv_rhs => rw [infix_to_rpn_loop]
    rw [infix_to_rpn_loop] at h
    generalize getOp reg expr index av = g at h ⊢
    obtain ⟨res, av2⟩ := g
    cases res with
    | threw e => rfl
    | out_of_fuel => rfl
    | ok r =>
      obtain ⟨ty, v, e2, i2⟩ := r
      cases ty with
      | NO_TYPE => rfl
      | OPERAND => exact ih _ _ _ _ _ h
      | OPERATOR =>
        simp only [] at h ⊢
        generalize pop_operators v op rpn_expr = r2 at h ⊢
        cases r2 with
        | error e => rfl
        | ok r3 => exact ih _ _ _ _ _ h
      | OPEN_PARENTHESIS => exact ih _ _ _ _ _ h
      | CLOSE_PARENTHESIS =>
        simp only [] at h ⊢
        generalize pop_until_open op rpn_expr = r2 at h ⊢
        obtain ⟨op2, rpn2⟩ := r2
        cases op2 with
        | nil => rfl
        | cons t op3 => exact ih _ _ _ _ _ h

theorem infix_to_rpn_loop_fuel_add {D : Type} (reg : Registry D) (fuel : Nat) (expr : Str)
    (index : Nat) (av : Str) (op rpn_expr : List Str)
    (h : (infix_to_rpn_loop reg fuel expr index av op rpn_expr).result ≠ .out_of_fuel) :
    ∀ k, infix_to_rpn_loop reg (fuel + k) expr index av op rpn_expr
      = infix_to_rpn_loop reg fuel expr index av op rpn_expr := by
  intro k
  induction k with
  | zero => rfl
  | succ k ih =>
    have h2 : (infix_to_rpn_loop reg (fuel + k) expr index av op rpn_expr).result
        ≠ .out_of_fuel := by rw [ih]; exact h
    have := infix_to_rpn_loop_fuel_succ reg (fuel + k) expr index av op rpn_expr h2
    rw [← ih, ← this]; rfl

theorem adj_spec_length_aux (s : Str) :
    (adj_spec s).length + (if s.head? = some ' ' then 1 else 0) ≤ s.length := by
  induction s with
  | nil => simp [adj_spec]
  | cons c rest ih =>
    have hle : (adj_spec rest).length ≤ rest.length := by
      have := ih; split at this <;> omega
    unfold adj_spec
    by_cases hc : adj_subst c = ' '
    · simp only [hc, if_true, List.head?_cons, List.length_cons]
      split <;> omega
    · have hne : c ≠ ' ' := by
        rintro rfl; exact hc (by decide)
      simp only [hc, if_false, List.head?_cons, Option.some.injEq, hne, List.length_cons]
      split
      · rename_i h
        rw [if_pos h.1] at ih
        simp only [List.length_cons]; omega
      · omega

theorem adj_spec_length (s : Str) : (adj_spec s).length ≤ s.length := by
  have := adj_spec_length_aux s
  split at this <;> omega

theorem scanWeight_le (s : Str) : scanWeight s ≤ 3 * s.length := by
  have := List.countP_le_length isSign (l := s)
  simp only [scanWeight]; omega

/-- C24 (defect of the code): the conversion ends on every input, but not always
by a return or an exception. For every text, registry and static `actual_val`,
`adj_expr` ends (with the text `adj_spec` describes), and `infix_to_rpn` with
fuel for `6 * size + 1` calls of `getOp` does not run out of fuel - the inner
loops that fold signs and search function arguments end within their fuel as
well - and more fuel gives the same outcome. That outcome is a return, an
exception, or the `op.pop()` on an empty stack, which is undefined behaviour:
on `1 + 2)` the call ends in the third way, as it does on `)`. -/
theorem infix_to_rpn_terminates {D : Type} (reg : Registry D) (actual_val infix_expr : Str)
    (fuel : Nat) (hfuel : 6 * infix_expr.length + 1 ≤ fuel) :
    adj_expr infix_expr = .ok (adj_spec infix_expr) ∧
    (infix_to_rpn fuel reg actual_val infix_expr).result ≠ .out_of_fuel ∧
    infix_to_rpn fuel reg actual_val infix_expr
      = infix_to_rpn (6 * infix_expr.length + 1) reg actual_val infix_expr ∧
    ((∃ b, (infix_to_rpn fuel reg actual_val infix_expr).result = .returned b) ∨
      (∃ e, (infix_to_rpn fuel reg actual_val infix_expr).result = .threw e) ∨
      (infix_to_rpn fuel reg actual_val infix_expr).result = .undefined_behaviour) ∧
    (infix_to_rpn (6 * ['1', ' ', '+', ' ', '2', ')'].length + 1) ([] : Registry ℚ) []
      ['1', ' ', '+', ' ', '2', ')']).result = .undefined_behaviour ∧
    (infix_to_rpn (6 * [')'].length + 1) ([] : Registry ℚ) [] [')']).result
      = .undefined_behaviour := by
  have hadj := adj_expr_eq_spec infix_expr
  have hw : scanWeight ((adj_spec infix_expr).drop 0) ≤ 3 * infix_expr.length := by
    have h1 := scanWeight_le (adj_spec infix_expr)
    have h2 := adj_spec_length infix_expr
    simp only [List.drop_zero]; omega
  have hbase := infix_to_rpn_loop_terminates reg (3 * infix_expr.length)
    (6 * infix_expr.length + 1) (adj_spec infix_expr) 0 actual_val [] [] hw (by omega)
  obtain ⟨k, rfl⟩ : ∃ k, fuel = 6 * infix_expr.length + 1 + k := ⟨fuel - (6 * infix_expr.length + 1),
    by omega⟩
  have heq := infix_to_rpn_loop_fuel_add reg _ _ 0 actual_val [] [] hbase k
  have hne : (infix_to_rpn (6 * infix_expr.length + 1 + k) reg actual_val infix_expr).result
      ≠ .out_of_fuel := by
    unfold infix_to_rpn
    rw [hadj]
    simp only []
    rw [heq]; exact hbase
  refine ⟨hadj, hne, ?_, ?_, by decide, by decide⟩
  · unfold infix_to_rpn
    rw [hadj]
    simp only []
    exact heq
  · cases hres : (infix_to_rpn (6 * infix_expr.length + 1 + k) reg actual_val infix_expr).result with
    | returned b => exact Or.inl ⟨b, rfl⟩
    | threw e => exact Or.inr (Or.inl ⟨e, rfl⟩)
    | undefined_behaviour => exact Or.inr (Or.inr rfl)
    | out_of_fuel => exact absurd hres hne

theorem infix_to_rpn_terminates_witness :
    6 * ['-', '-', 's', 'q', 'r', 't', '(', '-', '(', '9', ')', ')'].length + 1 ≤ 80 ∧
    (infix_to_rpn 80 ([] : Registry ℚ) []
      ['-', '-', 's', 'q', 'r', 't', '(', '-', '(', '9', ')', ')']).result ≠ .out_of_fuel :=
  ⟨by decide,
    (infix_to_rpn_terminates ([] : Registry ℚ) []
      ['-', '-', 's', 'q', 'r', 't', '(', '-', '(', '9', ')', ')'] 80 (by decide)).2.1⟩

end rpn
